import Mathlib

/-!
Verification development for the ASV results-migration module
(`asv/migrations.py`).

The Python module is shallowly embedded: Python dicts that preserve
insertion order are modelled as association lists (`List (String × α)`)
together with insert/setdefault/pop helpers that mimic dict semantics,
JSON-style Python values are modelled by the inductive type `Value`,
and every Python code path that can raise an exception is modelled as an
`Except PyError` computation.  The per-file result state (the JSON file
contents manipulated by the module) is the structure `MigState`; its
`migration_marker` field stands for the `octobus_migration_version` key
(`None` meaning the key is absent from the file).
-/

/-- Shallow embedding of the JSON-style Python values stored in result files:
`None`, booleans, integers, strings and (nested) lists.  Floats are not
needed by the verified code paths and are omitted. -/
inductive Value where
  | null
  | bool (b : Bool)
  | int (n : Int)
  | str (s : String)
  | list (xs : List Value)
deriving Repr

mutual

/-- Decidable equality for `Value` (hand rolled because of the nested list). -/
def Value.decEq : (a b : Value) → Decidable (a = b)
  | .null, .null => .isTrue rfl
  | .null, .bool _ => .isFalse (nomatch ·)
  | .null, .int _ => .isFalse (nomatch ·)
  | .null, .str _ => .isFalse (nomatch ·)
  | .null, .list _ => .isFalse (nomatch ·)
  | .bool _, .null => .isFalse (nomatch ·)
  | .bool a, .bool b =>
      if h : a = b then .isTrue (congrArg Value.bool h)
      else .isFalse (fun hh => h (Value.bool.inj hh))
  | .bool _, .int _ => .isFalse (nomatch ·)
  | .bool _, .str _ => .isFalse (nomatch ·)
  | .bool _, .list _ => .isFalse (nomatch ·)
  | .int _, .null => .isFalse (nomatch ·)
  | .int _, .bool _ => .isFalse (nomatch ·)
  | .int a, .int b =>
      if h : a = b then .isTrue (congrArg Value.int h)
      else .isFalse (fun hh => h (Value.int.inj hh))
  | .int _, .str _ => .isFalse (nomatch ·)
  | .int _, .list _ => .isFalse (nomatch ·)
  | .str _, .null => .isFalse (nomatch ·)
  | .str _, .bool _ => .isFalse (nomatch ·)
  | .str _, .int _ => .isFalse (nomatch ·)
  | .str a, .str b =>
      if h : a = b then .isTrue (congrArg Value.str h)
      else .isFalse (fun hh => h (Value.str.inj hh))
  | .str _, .list _ => .isFalse (nomatch ·)
  | .list _, .null => .isFalse (nomatch ·)
  | .list _, .bool _ => .isFalse (nomatch ·)
  | .list _, .int _ => .isFalse (nomatch ·)
  | .list _, .str _ => .isFalse (nomatch ·)
  | .list xs, .list ys =>
      match Value.decEqList xs ys with
      | .isTrue h => .isTrue (congrArg Value.list h)
      | .isFalse h => .isFalse (fun hh => h (Value.list.inj hh))

/-- Decidable equality for lists of `Value`. -/
def Value.decEqList : (xs ys : List Value) → Decidable (xs = ys)
  | [], [] => .isTrue rfl
  | [], _ :: _ => .isFalse (nomatch ·)
  | _ :: _, [] => .isFalse (nomatch ·)
  | x :: xs, y :: ys =>
      match Value.decEq x y, Value.decEqList xs ys with
      | .isTrue h1, .isTrue h2 => .isTrue (by rw [h1, h2])
      | .isFalse h1, _ => .isFalse (fun hh => h1 (List.head_eq_of_cons_eq hh))
      | _, .isFalse h2 => .isFalse (fun hh => h2 (List.tail_eq_of_cons_eq hh))

end

instance : DecidableEq Value := Value.decEq

/-- Decidable equality of `Except` results, used to settle concrete runs. -/
instance {ε α : Type} [DecidableEq ε] [DecidableEq α] : DecidableEq (Except ε α) := by
  intro a b
  cases a <;> cases b
  case error.error e1 e2 =>
    exact if h : e1 = e2 then .isTrue (by rw [h])
      else .isFalse (fun hh => h (by cases hh; rfl))
  case ok.ok v1 v2 =>
    exact if h : v1 = v2 then .isTrue (by rw [h])
      else .isFalse (fun hh => h (by cases hh; rfl))
  all_goals exact .isFalse (fun hh => by cases hh)

/-- Python dict assignment `d[k] = v`: overwrite in place if the key exists
(keeping its position), otherwise append the pair at the end. -/
def dictInsert {α : Type} (d : List (String × α)) (k : String) (v : α) :
    List (String × α) :=
  match d with
  | [] => [(k, v)]
  | (k0, v0) :: rest =>
      if k0 = k then (k, v) :: rest else (k0, v0) :: dictInsert rest k v

/-- Python `d.setdefault(k, v)`: insert `(k, v)` at the end only when the key
is absent. -/
def dictSetdefault {α : Type} (d : List (String × α)) (k : String) (v : α) :
    List (String × α) :=
  if (d.lookup k).isSome then d else d ++ [(k, v)]

/-- Python `d.setdefault(k, []).extend(xs)` composite used for accumulating
per-key lists (as `defaultdict(list)` appends do). -/
def dictExtend {α : Type} (d : List (String × List α)) (k : String)
    (xs : List α) : List (String × List α) :=
  match d with
  | [] => [(k, xs)]
  | (k0, ys) :: rest =>
      if k0 = k then (k0, ys ++ xs) :: rest else (k0, ys) :: dictExtend rest k xs

/-- Python `d.pop(k, None)`: remove the key when present, never fail. -/
def popKey {α : Type} (d : List (String × α)) (k : String) : List (String × α) :=
  d.filter (fun p => p.1 != k)

/-- Python `OrderedDict(pairs)` construction: later pairs overwrite earlier
ones in place. -/
def dictOfPairs {α : Type} (ps : List (String × α)) : List (String × α) :=
  ps.foldl (fun d p => dictInsert d p.1 p.2) []

/-- The composite `asv_params.setdefault(name, OrderedDict())` followed by
`asv_params[name][param_value] = None` from `octobus_results_to_asv_results`:
order-preserving accumulation of the distinct values of one parameter
dimension, in first-seen order. -/
def addParamValue (d : List (String × List Value)) (k : String) (v : Value) :
    List (String × List Value) :=
  match d with
  | [] => [(k, [v])]
  | (k0, vs) :: rest =>
      if k0 = k then (k0, if v ∈ vs then vs else vs ++ [v]) :: rest
      else (k0, vs) :: addParamValue rest k v

/-- One per-combination record of the object-oriented (`octobus_results`)
layout: the Python dict holding the `params` sub-dict plus the remaining
scalar fields (`result`, statistics, `version`, ...).  The `params` key is
kept separate from the other fields because the code manipulates it through
its own sub-dict. -/
structure Record where
  params : List (String × Value)
  fields : List (String × Value)
deriving Repr, DecidableEq

/-- The per-file result state manipulated by the module.  `results` is the
column-oriented on-disk map (absent in files without a `results` key),
`octobus_results` / `bench_param_names` are the object-oriented in-memory
companions (empty lists standing for absent keys), and `migration_marker`
models the `octobus_migration_version` entry (`none` when the file has never
been migrated). -/
structure MigState where
  results : Option (List (String × List Value))
  result_columns : List String
  octobus_results : List (String × List Record)
  bench_param_names : List (String × List String)
  migration_marker : Option String
deriving Repr, DecidableEq

/-- Every exception the embedded code paths can raise, one constructor per
Python raise site (plus the builtin exceptions `IndexError`, `KeyError`,
`AssertionError`, `TypeError`, `AttributeError` raised implicitly). -/
inductive PyError where
  | noMigrationFilesFound
  | unknownTarget (target : String)
  | conflictingIndex (first second : String)
  | nonContiguousIndex (last index : Nat)
  | notReadyForMigrations
  | migrationDoesNotExist (index : Nat)
  | valuesNotUnique
  | wrongDefault
  | notAdjacent (name after before : String)
  | paramNotFound (name neighbor : String)
  | indexError
  | keyError
  | assertionError
  | typeError
  | attributeError
  | userError (msg : String)
deriving Repr, DecidableEq

/-- Constant `NO_MIGRATION_INDEX` from the source. -/
def NO_MIGRATION_INDEX : String := "0000"

/-- Constant `INITIAL_MIGRATION_INDEX` from the source. -/
def INITIAL_MIGRATION_INDEX : String := "0001"

/-- Constant `INITIAL_MIGRATION` from the source. -/
def INITIAL_MIGRATION : String := INITIAL_MIGRATION_INDEX ++ "_initial"

/-- Source `get_migration_index`: parse the decimal index prefix of the
migration name, `migration_name.split('_')[0]` converted by `int`.  Python
raises `ValueError` when the prefix is not a number; this is modelled by
`none`.  (Implemented over the character list so it reduces inside the
kernel.) -/
def get_migration_index (migration_name : String) : Option Nat :=
  let index_chars := migration_name.toList.takeWhile (fun c => c ≠ '_')
  if index_chars ≠ [] ∧ index_chars.all Char.isDigit then
    some (index_chars.foldl (fun n c => 10 * n + (c.toNat - 48)) 0)
  else none

/-- Total wrapper around `get_migration_index` used by the executor model.
On names whose index prefix does not parse it returns `0`; the theorems that
depend on index parsing quantify over registries of parseable names (which is
the only situation in which the Python code does not crash with an uncaught
`ValueError`). -/
def migrationIndex (migration_name : String) : Nat :=
  (get_migration_index migration_name).getD 0

/-- Stable insertion of one name into an index-sorted list: the new name
goes after every already-placed name of smaller or equal index. -/
def insertByIndex (x : String) : List String → List String
  | [] => [x]
  | y :: ys =>
      if migrationIndex y ≤ migrationIndex x then y :: insertByIndex x ys
      else x :: y :: ys

/-- The numeric sort of discovered migration names performed by
`Executor.__init__` (Python `sorted(...)` with `key = get_migration_index`).
Python's sort is stable, and any two stable sorts under the same key agree,
so it is modelled by a stable insertion sort. -/
def sortMigrations (names : List String) : List String :=
  names.foldl (fun acc n => insertByIndex n acc) []

/-- The conflict / contiguity validation loop of `Executor.__init__`:
`seen` maps already-visited indices to their names, `last_index` is the
running last-seen index (starting at `0`).  The contiguity comparison
`last_index != index - 1` is performed over the integers, as in Python. -/
def checkIndexes : List String → List (Nat × String) → Nat → Except PyError Unit
  | [], _, _ => .ok ()
  | name :: rest, seen, last_index =>
      match seen.lookup (migrationIndex name) with
      | some conflict => .error (.conflictingIndex conflict name)
      | none =>
          if (last_index : Int) ≠ (migrationIndex name : Int) - 1 then
            .error (.nonContiguousIndex last_index (migrationIndex name))
          else
            checkIndexes rest ((migrationIndex name, name) :: seen) (migrationIndex name)

/-- Embedding of `Executor.__init__` restricted to its pure content: sort the
discovered migration names, fail on an empty collection, resolve the target
(the latest migration when none is given), and run the conflict / contiguity
validation.  Returns the sorted name list and the resolved target name.
Filesystem discovery (`glob`) is an external collaborator and is represented
by the incoming `names` list. -/
def executorInit (names : List String) (target : Option String) :
    Except PyError (List String × String) := do
  let sorted := sortMigrations names
  match sorted.getLast? with
  | none => throw .noMigrationFilesFound
  | some lastName => do
      let t ← match target with
        | none => pure lastName
        | some tg => if tg ∈ sorted then pure tg else throw (.unknownTarget tg)
      checkIndexes sorted [] 0
      pure (sorted, t)

/-- Source `get_file_migration_index`: index recorded in the file marker,
defaulting to `NO_MIGRATION_INDEX` (index `0`) when the key is absent. -/
def get_file_migration_index (data : MigState) : Nat :=
  migrationIndex (data.migration_marker.getD NO_MIGRATION_INDEX)

/-- Source `Executor.get_pending_migrations_names`: raise when the file was
never readied for migrations (index `0`), raise when the file marker index is
unknown to the registry, otherwise keep the registered migrations whose index
lies in the half-open interval `(file_index, target_index]`, in registry
order. -/
def get_pending_migrations_names (all_migrations : List String)
    (target : String) (file_contents : MigState) : Except PyError (List String) :=
  let file_migration_idx := get_file_migration_index file_contents
  if file_migration_idx = 0 then .error .notReadyForMigrations
  else if file_migration_idx ∉ all_migrations.map migrationIndex then
    .error (.migrationDoesNotExist file_migration_idx)
  else
    let target_index := migrationIndex target
    .ok (all_migrations.filter (fun migration =>
      decide (target_index ≥ migrationIndex migration ∧
        migrationIndex migration > file_migration_idx)))

/-- Row-major cartesian product, embedding `itertools.product(*lists)`:
the first list varies slowest. -/
def cartesianProduct : List (List Value) → List (List Value)
  | [] => [[]]
  | l :: rest => l.flatMap (fun v => (cartesianProduct rest).map (v :: ·))

/-- The per-benchmark body of `to_octobus_results`: look the benchmark up in
the catalog (skipping it when absent), check the column/line count assert,
read and zip the `params` column, build the cartesian explosion and the
per-combination records, and extend the accumulated `bench_param_names` /
`octobus_results` maps.  The Python `assert` statements are modelled as
`assertionError`, the mandatory `results_as_object['params']` access as
`keyError`, and iteration over a non-list params entry as `typeError`.  The
reassignment `results_as_object['params'] = OrderedDict(...)` is kept as the
local `paramsDict` (sound because the later field loop skips the `params`
column). -/
def toOctobusStep (all_benchmarks_data : List (String × List String))
    (result_columns : List String)
    (acc : List (String × List String) × List (String × List Record))
    (entry : String × List Value) :
    Except PyError (List (String × List String) × List (String × List Record)) := do
  let (bpn, octo) := acc
  let (bench_name, result_lines) := entry
  match all_benchmarks_data.lookup bench_name with
  | none => pure (bpn, octo)
  | some param_names => do
      let bpn2 := dictInsert bpn bench_name param_names
      if result_columns.length < result_lines.length then
        throw .assertionError
      else do
        let results_as_object := dictOfPairs (result_columns.zip result_lines)
        let paramsVal ← match results_as_object.lookup "params" with
          | none => throw .keyError
          | some v => pure v
        let paramCols ← match paramsVal with
          | .list cols => pure cols
          | _ => throw .typeError
        if param_names.length < paramCols.length then
          throw .assertionError
        else do
          let paramsDict := dictOfPairs (param_names.zip paramCols)
          let dims ← paramsDict.mapM (fun p =>
            match p.2 with
            | .list vs => pure (p.1, vs)
            | _ => throw (.typeError : PyError))
          let explosion := (cartesianProduct (dims.map (·.2))).map
            (fun combo => dictOfPairs ((dims.map (·.1)).zip combo))
          let records := explosion.enum.map (fun ic =>
            ({ params := ic.2,
               fields := result_columns.foldl (fun fs field =>
                 if field = "params" then fs
                 else match results_as_object.lookup field with
                   | none => fs
                   | some (Value.list vs) =>
                       dictInsert fs field (vs.getD ic.1 Value.null)
                   | some v => dictInsert fs field v) [] } : Record))
          pure (bpn2, dictExtend octo bench_name records)

/-- Source `to_octobus_results`: bootstrap conversion from the column-oriented
`results` layout to the object-oriented `octobus_results` layout, using the
external benchmark catalog `all_benchmarks_data` (benchmark name to declared
parameter-name list).  Fold `toOctobusStep` over the `results` entries. -/
def to_octobus_results (all_benchmarks_data : List (String × List String))
    (old : MigState) : Except PyError MigState := do
  match old.results with
  | none => pure { old with octobus_results := [] }
  | some results => do
      let st ← results.foldlM
        (toOctobusStep all_benchmarks_data old.result_columns) ([], [])
      pure { old with bench_param_names := st.1, octobus_results := st.2 }

/-- The `SCALAR_COLUMNS` set of `octobus_results_to_asv_results`. -/
def SCALAR_COLUMNS : List String := ["version", "started_at", "duration"]

/-- One entry of the `asv_results` accumulator of
`octobus_results_to_asv_results`: scalar columns hold a plain value, vector
columns hold the list being appended to. -/
inductive ColEntry where
  | scalar (v : Value)
  | vec (vs : List Value)
deriving Repr, DecidableEq

/-- Value representation of a record's `params` sub-dict, used for the
(dead) append of `result['params']` performed by the fall-through of the
`params` branch in `octobus_results_to_asv_results`; the accumulated entry is
unconditionally overwritten at the end of the benchmark loop. -/
def paramsAsValue (ps : List (String × Value)) : Value :=
  Value.list (ps.map (fun p => Value.list [Value.str p.1, p.2]))

/-- Composite `asv_results.setdefault(column, [])` followed by
`asv_results[column].append(v)`.  Appending to an entry that holds a plain
scalar is Python `AttributeError` (unreachable in the actual flow). -/
def pushVec (ar : List (String × ColEntry)) (k : String) (v : Value) :
    Except PyError (List (String × ColEntry)) :=
  match ar with
  | [] => .ok [(k, .vec [v])]
  | (k0, e) :: rest =>
      if k0 = k then
        match e with
        | .vec vs => .ok ((k0, .vec (vs ++ [v])) :: rest)
        | .scalar _ => .error .attributeError
      else do
        let r ← pushVec rest k v
        .ok ((k0, e) :: r)

/-- The `for name in bench_param_names[benchmark]` sub-loop of the `params`
branch of `octobus_results_to_asv_results`, for one record: accumulate each
parameter's value into `asv_params`; a parameter missing from the record's
`params` sub-dict is an uncaught `KeyError`. -/
def collectParams (r : Record) (ap : List (String × List Value))
    (param_names : List String) : Except PyError (List (String × List Value)) :=
  param_names.foldlM (fun acc n =>
    match r.params.lookup n with
    | none => throw (.keyError : PyError)
    | some v => pure (addParamValue acc n v)) ap

/-- The inner `for column in result_columns` loop of
`octobus_results_to_asv_results`, for one record: accumulate the parameter
value sets (`asv_params`, second component) and the output columns
(`asv_results`, first component).  A missing vector field stops the column
scan for this record (the `break` on `KeyError`); a missing scalar field is
read as `None` (`result.get`); a parameter value missing from the record's
`params` sub-dict is an uncaught `KeyError`. -/
def scanColumns (param_names : List String) (r : Record) :
    List String → List (String × ColEntry) × List (String × List Value) →
    Except PyError (List (String × ColEntry) × List (String × List Value))
  | [], st => .ok st
  | column :: rest, (ar, ap) =>
      if column = "params" then do
        let ap2 ← collectParams r ap param_names
        let ar2 ← pushVec ar "params" (paramsAsValue r.params)
        scanColumns param_names r rest (ar2, ap2)
      else if column ∈ SCALAR_COLUMNS then
        scanColumns param_names r rest
          (dictInsert ar column (.scalar ((r.fields.lookup column).getD Value.null)), ap)
      else
        match r.fields.lookup column with
        | none => .ok (ar, ap)
        | some v => do
            let ar2 ← pushVec ar column v
            scanColumns param_names r rest (ar2, ap)

/-- The per-benchmark record loop of `octobus_results_to_asv_results`:
fold `scanColumns` over the records, starting from empty accumulators. -/
def benchScan (result_columns : List String) (param_names : List String)
    (records : List Record) :
    Except PyError (List (String × ColEntry) × List (String × List Value)) :=
  records.foldlM (fun st r => scanColumns param_names r result_columns st) ([], [])

/-- End of the per-benchmark loop of `octobus_results_to_asv_results`:
overwrite the `params` entry with the accumulated per-dimension value lists
and emit the ordered values of `asv_results`. -/
def emitColumns (ar : List (String × ColEntry))
    (ap : List (String × List Value)) : List Value :=
  (dictInsert ar "params"
      (.scalar (Value.list (ap.map (fun p => Value.list p.2))))).map
    (fun p => match p.2 with | .scalar v => v | .vec vs => Value.list vs)

/-- The whole per-benchmark body of `octobus_results_to_asv_results`. -/
def benchToAsv (result_columns : List String) (param_names : List String)
    (records : List Record) : Except PyError (List Value) := do
  let st ← benchScan result_columns param_names records
  pure (emitColumns st.1 st.2)

/-- Source `octobus_results_to_asv_results`: convert the object-oriented
layout back to the column-oriented `results` layout.  Fails with the source's
`UserError` when `octobus_results` is missing or empty, and with `keyError`
when a benchmark is missing from `bench_param_names`. -/
def octobus_results_to_asv_results (data : MigState) :
    Except PyError MigState := do
  if data.octobus_results.isEmpty then
    throw (.userError "Results data should contains non-empty octobus_results")
  else do
    let newResults ← data.octobus_results.mapM (fun entry => do
      let pnames ← match data.bench_param_names.lookup entry.1 with
        | none => throw (.keyError : PyError)
        | some p => pure p
      let line ← benchToAsv data.result_columns pnames entry.2
      pure (entry.1, line))
    pure { data with results := some newResults }

mutual

/-- Modelled from the spec: `_repr_no_address` (imported from
`asv.benchmark`, whose source is not part of this repository snapshot)
computes the canonical string representation of a constructor argument,
i.e. the Python `repr` of the value with memory addresses stripped; the
spec describes `values` as an "ordered list of distinct candidate
value-representations".  In particular the representation of `None` is the
string `"None"`. -/
def reprNoAddress : Value → String
  | .null => "None"
  | .bool b => if b then "True" else "False"
  | .int n => toString n
  | .str s => "'" ++ s ++ "'"
  | .list xs => "[" ++ reprNoAddressList xs ++ "]"

/-- Comma-separated representations of list elements, for `reprNoAddress`. -/
def reprNoAddressList : List Value → String
  | [] => ""
  | [x] => reprNoAddress x
  | x :: y :: rest => reprNoAddress x ++ ", " ++ reprNoAddressList (y :: rest)

end

/-- The `useless_columns` list of `AddBenchParam.forwards`: derived
statistics dropped from replicas whose parameter combination was never
measured. -/
def useless_columns : List String :=
  ["stats_ci_99_a", "stats_ci_99_b", "stats_q_25", "stats_q_75",
   "stats_number", "stats_repeat", "samples", "profile"]

/-- The `AddBenchParam` operation after construction: `values` and `default`
hold the stored string representations; the compiled `targets` regex
(matched as a prefix match against benchmark names) is abstracted as a
boolean predicate. -/
structure AddBenchParam where
  name : String
  values : List String
  default : String
  targets : String → Bool
  insert_after : Option String
  insert_before : Option String

/-- Embedding of `AddBenchParam.__init__`: reject duplicate candidate values
(`len(set(values)) < len(values)`) and a declared default that is not one of
the candidates, then store the `_repr_no_address` representations of the
candidates and of the default (the absent default, Python `None`, is itself
passed through `_repr_no_address`). -/
def AddBenchParam.make (name : String) (values : List Value)
    (default : Option Value) (targets : String → Bool)
    (insert_after insert_before : Option String) :
    Except PyError AddBenchParam := do
  if values.dedup.length < values.length then throw .valuesNotUnique
  else do
    match default with
    | some d => if d ∉ values then throw .wrongDefault else pure ()
    | none => pure ()
    pure { name := name, values := values.map reprNoAddress,
           default := reprNoAddress (match default with
             | none => Value.null
             | some d => d),
           targets := targets, insert_after := insert_after,
           insert_before := insert_before }

/-- The `insert_after and insert_before` branch of
`AddBenchParam.update_param_names`: scan left to right; `break` without
change at an occurrence of `name`; at an occurrence of `insert_after` read
the next entry (`IndexError` when there is none), insert `name` when it
equals `insert_before` and raise the "not adjacent" `UserError` otherwise;
the for-else raises the "param not found" `UserError` when the scan falls
off the end. -/
def scanBoth (name after before : String) :
    List String → Except PyError (List String)
  | [] => .error (.paramNotFound name after)
  | p :: rest =>
      if p = name then .ok (p :: rest)
      else if p = after then
        match rest with
        | [] => .error .indexError
        | q :: rest2 =>
            if q = before then .ok (p :: name :: q :: rest2)
            else .error (.notAdjacent name after before)
      else (scanBoth name after before rest).map (p :: ·)

/-- The `insert_after`-only branch of `AddBenchParam.update_param_names`. -/
def scanAfter (name after : String) : List String → Except PyError (List String)
  | [] => .error (.paramNotFound name after)
  | p :: rest =>
      if p = name then .ok (p :: rest)
      else if p = after then .ok (p :: name :: rest)
      else (scanAfter name after rest).map (p :: ·)

/-- The `insert_before`-only branch of `AddBenchParam.update_param_names`. -/
def scanBefore (name before : String) : List String → Except PyError (List String)
  | [] => .error (.paramNotFound name before)
  | p :: rest =>
      if p = name then .ok (p :: rest)
      else if p = before then .ok (name :: p :: rest)
      else (scanBefore name before rest).map (p :: ·)

/-- Source `AddBenchParam.update_param_names` (the in-place list mutation is
returned functionally): append when no neighbor is given and the name is
fresh, otherwise dispatch on which neighbors were given; with no neighbors
and the name already present, fall through all branches without change. -/
def AddBenchParam.update_param_names (op : AddBenchParam)
    (bench_param_names : List String) : Except PyError (List String) :=
  match op.insert_after, op.insert_before with
  | none, none =>
      if op.name ∈ bench_param_names then .ok bench_param_names
      else .ok (bench_param_names ++ [op.name])
  | some a, some b => scanBoth op.name a b bench_param_names
  | some a, none => scanAfter op.name a bench_param_names
  | none, some b => scanBefore op.name b bench_param_names

/-- The per-record, per-candidate body of the expansion loop of
`AddBenchParam.forwards`: the candidate equal to the stored default keeps the
copied record (only setting `params[name]` when absent), any other candidate
overwrites `params[name]`, nulls `result` and pops the `useless_columns`;
both variants finally null the `version` field. -/
def expandValue (op : AddBenchParam) (r : Record) (value : String) : Record :=
  if value = op.default then
    { params := dictSetdefault r.params op.name (Value.str op.default),
      fields := dictInsert r.fields "version" Value.null }
  else
    { params := dictInsert r.params op.name (Value.str value),
      fields := dictInsert
        (useless_columns.foldl (fun fs c => popKey fs c)
          (dictInsert r.fields "result" Value.null))
        "version" Value.null }

/-- One iteration of the benchmark loop of `AddBenchParam.forwards`: copy
the record list of a benchmark the `targets` predicate does not select; for
a selected benchmark update the parameter-name list (via
`update_param_names`) and replace the record list by its expansion over the
candidate values (outer loop over records, inner loop over `values`). -/
def forwardsStep (op : AddBenchParam)
    (acc : List (String × List String) × List (String × List Record))
    (entry : String × List Record) :
    Except PyError (List (String × List String) × List (String × List Record)) := do
  let (pn, octo) := acc
  let (bench, records) := entry
  if op.targets bench then do
    let pn2 := dictSetdefault pn bench []
    let updated ← op.update_param_names ((pn2.lookup bench).getD [])
    let pn3 := dictInsert pn2 bench updated
    let newRecords := records.flatMap (fun r => op.values.map (expandValue op r))
    pure (pn3, dictExtend octo bench newRecords)
  else
    pure (pn, dictInsert octo bench records)

/-- Source `AddBenchParam.forwards` main loop: fold `forwardsStep` over the
benchmarks, starting from the state's `bench_param_names` and an empty
`new_octobus_results`, then store both maps back into the state. -/
def AddBenchParam.forwards (op : AddBenchParam) (state : MigState) :
    Except PyError MigState := do
  let st ← state.octobus_results.foldlM (forwardsStep op)
    (state.bench_param_names, [])
  pure { state with bench_param_names := st.1, octobus_results := st.2 }

/-- Source `Migration.apply`: run the forward transform of every operation of
a migration, in order. -/
def applyMigration (operations : List AddBenchParam) (state : MigState) :
    Except PyError MigState :=
  operations.foldlM (fun st op => op.forwards st) state

/-- Source `Executor.migrate_file`.  The registry maps each migration name to
the operation list of its lazily loaded `Migration` instance (dynamic module
loading is an external collaborator).  A file that was never readied for
migrations is bootstrapped through `to_octobus_results` and marked with the
initial migration; when nothing is pending the (possibly bootstrapped)
contents are returned as they are; otherwise every pending migration is
applied in order, the marker is set to the target and the state is converted
back to the column-oriented layout. -/
def migrate_file (all_benchmarks_data : List (String × List String))
    (registry : List (String × List AddBenchParam)) (target : String)
    (file_contents : MigState) : Except PyError MigState := do
  let names := registry.map (·.1)
  let (contents, pendingNames) ←
    match get_pending_migrations_names names target file_contents with
    | .ok p => pure (file_contents, p)
    | .error .notReadyForMigrations => do
        let c ← to_octobus_results all_benchmarks_data file_contents
        let c2 := { c with migration_marker := some INITIAL_MIGRATION }
        let p ← get_pending_migrations_names names target c2
        pure (c2, p)
    | .error e => throw e
  if pendingNames.isEmpty then pure contents
  else do
    let pending ← pendingNames.mapM (fun n =>
      match registry.lookup n with
      | some ops => pure ops
      | none => throw (.keyError : PyError))
    let migrated ← pending.foldlM (fun st ops => applyMigration ops st) contents
    octobus_results_to_asv_results { migrated with migration_marker := some target }

/-! ## General lemmas about the dict helpers -/

theorem lookup_dictInsert_self {α : Type} (d : List (String × α)) (k : String)
    (v : α) : (dictInsert d k v).lookup k = some v := by
  induction d with
  | nil => simp [dictInsert, List.lookup]
  | cons p rest ih =>
      obtain ⟨k0, v0⟩ := p
      by_cases h : k0 = k
      · simp [dictInsert, h, List.lookup]
      · have hb : (k == k0) = false := beq_eq_false_iff_ne.mpr (fun hh => h hh.symm)
        simp only [dictInsert, if_neg h, List.lookup, hb, ih]

theorem lookup_dictInsert_other {α : Type} (d : List (String × α))
    (k k' : String) (v : α) (h : k' ≠ k) :
    (dictInsert d k v).lookup k' = d.lookup k' := by
  induction d with
  | nil =>
      have hb : (k' == k) = false := beq_eq_false_iff_ne.mpr h
      simp [dictInsert, List.lookup, hb]
  | cons p rest ih =>
      obtain ⟨k0, v0⟩ := p
      by_cases h0 : k0 = k
      · subst h0
        have hb : (k' == k0) = false := beq_eq_false_iff_ne.mpr h
        simp [dictInsert, List.lookup, hb]
      · simp only [dictInsert, if_neg h0, List.lookup, ih]

theorem dictInsert_of_not_mem {α : Type} (d : List (String × α)) (k : String)
    (v : α) (h : k ∉ d.map Prod.fst) : dictInsert d k v = d ++ [(k, v)] := by
  induction d with
  | nil => simp [dictInsert]
  | cons p rest ih =>
      obtain ⟨k0, v0⟩ := p
      simp only [List.map_cons, List.mem_cons, not_or] at h
      simp only [dictInsert]
      rw [if_neg (fun hh => h.1 hh.symm), ih h.2]
      simp

theorem dictExtend_of_not_mem {α : Type} (d : List (String × List α))
    (k : String) (xs : List α) (h : k ∉ d.map Prod.fst) :
    dictExtend d k xs = d ++ [(k, xs)] := by
  induction d with
  | nil => simp [dictExtend]
  | cons p rest ih =>
      obtain ⟨k0, ys⟩ := p
      simp only [List.map_cons, List.mem_cons, not_or] at h
      simp only [dictExtend]
      rw [if_neg (fun hh => h.1 hh.symm), ih h.2]
      simp

theorem lookup_popKey_self {α : Type} (d : List (String × α)) (k : String) :
    (popKey d k).lookup k = none := by
  induction d with
  | nil => simp [popKey]
  | cons p rest ih =>
      obtain ⟨k0, v0⟩ := p
      by_cases h : k0 = k
      · simpa [popKey, h] using ih
      · have hne : (k0 != k) = true := bne_iff_ne.mpr h
        have hb : (k == k0) = false := beq_eq_false_iff_ne.mpr (fun hh => h hh.symm)
        simpa [popKey, List.filter, hne, List.lookup, hb] using ih

theorem lookup_popKey_other {α : Type} (d : List (String × α))
    (k k' : String) (h : k' ≠ k) :
    (popKey d k).lookup k' = d.lookup k' := by
  induction d with
  | nil => simp [popKey]
  | cons p rest ih =>
      obtain ⟨k0, v0⟩ := p
      by_cases h0 : k0 = k
      · subst h0
        have hb : (k' == k0) = false := beq_eq_false_iff_ne.mpr h
        have hne : (k0 != k0) = false := by simp
        simpa [popKey, List.filter, hne, List.lookup, hb] using ih
      · have hne : (k0 != k) = true := bne_iff_ne.mpr h0
        by_cases h1 : k' = k0
        · subst h1
          simp [popKey, List.filter, hne, List.lookup]
        · have hb : (k' == k0) = false := beq_eq_false_iff_ne.mpr h1
          simpa [popKey, List.filter, hne, List.lookup, hb] using ih

theorem lookup_dictSetdefault_present {α : Type} (d : List (String × α))
    (k : String) (v : α) (h : (d.lookup k).isSome) :
    dictSetdefault d k v = d := by
  simp [dictSetdefault, h]

theorem lookup_dictSetdefault_absent {α : Type} (d : List (String × α))
    (k : String) (v : α) (h : d.lookup k = none) :
    dictSetdefault d k v = d ++ [(k, v)] := by
  simp [dictSetdefault, h]

/-! ## C9: when pending-migration computation raises MigrationDoesNotExist -/

/-- Claim C9 (confirmed): `get_pending_migrations_names` raises
`MigrationDoesNotExist` exactly when the file's recorded marker index is not
the never-migrated sentinel `0` and does not occur among the registry's
migration indices; when the marker index is present in the registry (or is
the sentinel) no such error is raised. -/
theorem pending_raises_migrationDoesNotExist_iff
    (all_migrations : List String) (target : String) (file_contents : MigState) :
    (∃ i, get_pending_migrations_names all_migrations target file_contents =
        .error (.migrationDoesNotExist i)) ↔
      (get_file_migration_index file_contents ≠ 0 ∧
        get_file_migration_index file_contents ∉
          all_migrations.map migrationIndex) := by
  unfold get_pending_migrations_names
  by_cases h0 : get_file_migration_index file_contents = 0
  · simp [h0]
  · by_cases hmem : get_file_migration_index file_contents ∈
        all_migrations.map migrationIndex
    · simp [h0, hmem]
    · simp [h0, hmem]

/-! ## C3: the computed pending set -/

/-- Claim C3 (confirmed): for a registry whose (sorted) indices are exactly
`1..N` — the shape `Executor.__init__` validates — and a file state whose
marker index exists in the registry, `get_pending_migrations_names` succeeds
and returns exactly the registered migrations with
`file_index < index ≤ target_index`, in ascending index order; in particular
the pending set is empty whenever `target_index ≤ file_index`. -/
theorem pending_selection_spec (N : Nat) (all_migrations : List String)
    (target : String) (file_contents : MigState)
    (hidx : all_migrations.map migrationIndex = List.range' 1 N)
    (hmem : get_file_migration_index file_contents ∈
      all_migrations.map migrationIndex) :
    ∃ pending,
      get_pending_migrations_names all_migrations target file_contents =
        .ok pending ∧
      (∀ m, m ∈ pending ↔ m ∈ all_migrations ∧
        get_file_migration_index file_contents < migrationIndex m ∧
        migrationIndex m ≤ migrationIndex target) ∧
      pending.Pairwise (fun a b => migrationIndex a < migrationIndex b) ∧
      (migrationIndex target ≤ get_file_migration_index file_contents →
        pending = []) := by
  have h0 : get_file_migration_index file_contents ≠ 0 := by
    rw [hidx] at hmem
    rcases List.mem_range'.mp hmem with ⟨i, _, hi⟩
    omega
  refine ⟨all_migrations.filter (fun migration =>
    decide (migrationIndex target ≥ migrationIndex migration ∧
      migrationIndex migration > get_file_migration_index file_contents)),
    ?_, ?_, ?_, ?_⟩
  · unfold get_pending_migrations_names
    rw [if_neg h0, if_neg (by simpa using hmem)]
  · intro m
    simp only [List.mem_filter, decide_eq_true_eq]
    constructor
    · rintro ⟨hm, h1, h2⟩
      exact ⟨hm, h2, h1⟩
    · rintro ⟨hm, h1, h2⟩
      exact ⟨hm, h2, h1⟩
  · have hp : (all_migrations.map migrationIndex).Pairwise (· < ·) := by
      rw [hidx]; exact List.pairwise_lt_range' 1 N
    have hp2 : all_migrations.Pairwise
        (fun a b => migrationIndex a < migrationIndex b) :=
      List.pairwise_map.mp hp
    exact List.Pairwise.sublist (List.filter_sublist _) hp2
  · intro hle
    rw [List.filter_eq_nil_iff]
    intro m _
    simp only [decide_eq_true_eq, not_and, not_lt, ge_iff_le]
    intro h1
    omega

/-- Witness for C3: a concrete three-migration registry with the file at
index 1 and the target at index 3. -/
theorem pending_selection_spec_witness :
    ∃ pending,
      get_pending_migrations_names ["0001_a", "0002_b", "0003_c"] "0003_c"
        { results := none, result_columns := [], octobus_results := [],
          bench_param_names := [], migration_marker := some "0001_a" } =
        .ok pending ∧
      (∀ m, m ∈ pending ↔ m ∈ ["0001_a", "0002_b", "0003_c"] ∧
        get_file_migration_index
          { results := none, result_columns := [], octobus_results := [],
            bench_param_names := [], migration_marker := some "0001_a" } <
          migrationIndex m ∧
        migrationIndex m ≤ migrationIndex "0003_c") ∧
      pending.Pairwise (fun a b => migrationIndex a < migrationIndex b) ∧
      (migrationIndex "0003_c" ≤ get_file_migration_index
          { results := none, result_columns := [], octobus_results := [],
            bench_param_names := [], migration_marker := some "0001_a" } →
        pending = []) :=
  pending_selection_spec 3 ["0001_a", "0002_b", "0003_c"] "0003_c"
    { results := none, result_columns := [], octobus_results := [],
      bench_param_names := [], migration_marker := some "0001_a" }
    (by decide) (by decide)

/-! ## C8: registry construction validation -/

theorem lookup_eq_none_of_not_mem_keys {κ α : Type} [BEq κ] [LawfulBEq κ]
    (d : List (κ × α)) (k : κ) (h : k ∉ d.map Prod.fst) :
    d.lookup k = none := by
  induction d with
  | nil => simp [List.lookup]
  | cons p rest ih =>
      simp only [List.map_cons, List.mem_cons, not_or] at h
      have hb : (k == p.1) = false := beq_eq_false_iff_ne.mpr h.1
      obtain ⟨k0, v0⟩ := p
      simp only [List.lookup, hb]
      exact ih h.2

theorem lookup_isSome_of_mem_keys {κ α : Type} [BEq κ] [LawfulBEq κ]
    (d : List (κ × α)) (k : κ) (h : k ∈ d.map Prod.fst) :
    ∃ v, d.lookup k = some v := by
  induction d with
  | nil => simp at h
  | cons p rest ih =>
      obtain ⟨k0, v0⟩ := p
      by_cases hk : k = k0
      · subst hk
        exact ⟨v0, by simp [List.lookup]⟩
      · have hb : (k == k0) = false := beq_eq_false_iff_ne.mpr hk
        simp only [List.map_cons, List.mem_cons] at h
        rcases h with h | h
        · exact absurd h hk
        · simpa [List.lookup, hb] using ih h

theorem length_insertByIndex (x : String) (l : List String) :
    (insertByIndex x l).length = l.length + 1 := by
  induction l with
  | nil => simp [insertByIndex]
  | cons y ys ih =>
      by_cases h : migrationIndex y ≤ migrationIndex x
      · simp [insertByIndex, h, ih]
      · simp [insertByIndex, h]

theorem length_sortMigrations (names : List String) :
    (sortMigrations names).length = names.length := by
  suffices h : ∀ acc : List String,
      (names.foldl (fun a n => insertByIndex n a) acc).length =
        acc.length + names.length by
    simpa using h []
  induction names with
  | nil => intro acc; simp
  | cons n ns ih =>
      intro acc
      simp only [List.foldl_cons, ih, length_insertByIndex, List.length_cons]
      omega

theorem checkIndexes_ok_of (l : List String) :
    ∀ (seen : List (Nat × String)) (last : Nat),
    l.map migrationIndex = List.range' (last + 1) l.length →
    (∀ i ∈ l.map migrationIndex, seen.lookup i = none) →
    checkIndexes l seen last = .ok () := by
  induction l with
  | nil => intro seen last _ _; rfl
  | cons name rest ih =>
      intro seen last hmap hseen
      simp only [List.map_cons, List.length_cons, List.range'_succ,
        List.cons.injEq] at hmap
      obtain ⟨hhead, htail⟩ := hmap
      unfold checkIndexes
      rw [hhead]
      rw [hseen (last + 1) (by simp [hhead])]
      rw [if_neg (by push_cast; omega)]
      refine ih _ _ (by simpa using htail) ?_
      intro i hi
      have hi2 : i ∈ List.range' (last + 1 + 1) rest.length := by
        rw [← htail]; exact hi
      rcases List.mem_range'.mp hi2 with ⟨j, _, hj⟩
      have hne : (i == last + 1) = false := beq_eq_false_iff_ne.mpr (by omega)
      simp only [List.lookup, hne]
      exact hseen i (by simp [hi])

theorem checkIndexes_map_of_ok (l : List String) :
    ∀ (seen : List (Nat × String)) (last : Nat),
    checkIndexes l seen last = .ok () →
    l.map migrationIndex = List.range' (last + 1) l.length := by
  induction l with
  | nil => intro seen last _; simp
  | cons name rest ih =>
      intro seen last h
      unfold checkIndexes at h
      rcases hl : seen.lookup (migrationIndex name) with _ | c
      · rw [hl] at h
        by_cases hc : (last : Int) ≠ (migrationIndex name : Int) - 1
        · rw [if_pos hc] at h; cases h
        · rw [if_neg hc] at h
          push_neg at hc
          have hidx : migrationIndex name = last + 1 := by omega
          have h2 := ih _ _ h
          rw [hidx] at h2
          simp only [List.map_cons, List.length_cons, List.range'_succ, hidx, h2]
      · rw [hl] at h; cases h

theorem checkIndexes_append (pfx : List String) :
    ∀ (rest : List String) (seen : List (Nat × String)) (last : Nat),
    pfx.map migrationIndex = List.range' (last + 1) pfx.length →
    (∀ i ∈ pfx.map migrationIndex, seen.lookup i = none) →
    checkIndexes (pfx ++ rest) seen last =
      checkIndexes rest
        ((pfx.map (fun n => (migrationIndex n, n))).reverse ++ seen)
        (last + pfx.length) := by
  induction pfx with
  | nil => intro rest seen last _ _; simp
  | cons p pfx ih =>
      intro rest seen last hmap hseen
      simp only [List.map_cons, List.length_cons, List.range'_succ,
        List.cons.injEq] at hmap
      obtain ⟨hhead, htail⟩ := hmap
      have hseen2 : ∀ i ∈ pfx.map migrationIndex,
          ((migrationIndex p, p) :: seen).lookup i = none := by
        intro i hi
        have hi2 : i ∈ List.range' (last + 1 + 1) pfx.length := by
          rw [← htail]; exact hi
        rcases List.mem_range'.mp hi2 with ⟨j, _, hj⟩
        have hne : (i == migrationIndex p) = false :=
          beq_eq_false_iff_ne.mpr (by rw [hhead]; omega)
        simp only [List.lookup, hne]
        exact hseen i (by simp [hi])
      have hstep : checkIndexes ((p :: pfx) ++ rest) seen last =
          checkIndexes (pfx ++ rest) ((migrationIndex p, p) :: seen)
            (migrationIndex p) := by
        show checkIndexes (p :: (pfx ++ rest)) seen last = _
        conv_lhs => unfold checkIndexes
        rw [hseen (migrationIndex p) (by simp)]
        rw [if_neg (by rw [hhead]; push_cast; omega)]
      rw [hstep, hhead]
      rw [ih rest ((last + 1, p) :: seen) (last + 1) (by simpa using htail)
        (by rw [← hhead]; exact hseen2)]
      simp only [List.map_cons, List.reverse_cons, List.append_assoc,
        List.singleton_append, List.length_cons, hhead]
      congr 1
      omega

theorem executorInit_after_getLast (names : List String) (lastName : String)
    (hl : (sortMigrations names).getLast? = some lastName) :
    executorInit names none =
      (do
        checkIndexes (sortMigrations names) [] 0
        pure (sortMigrations names, lastName) : Except PyError _) := by
  simp only [executorInit]
  rw [hl]
  rfl

/-- Claim C8 (corrected): registry construction succeeds exactly when the
collection is nonempty and the index-sorted names carry exactly the indices
`1..N`; an empty collection fails with the no-migrations-found error; when
the index-sorted names split as a clean prefix (indices exactly `1..k`)
followed by a violating unit, a duplicated index is reported with the
conflicting-index error and a contiguity break with the non-contiguity
error — the first violation in sorted order determines which error is
reported. -/
theorem executorInit_validation (names : List String) :
    ((∃ r, executorInit names none = .ok r) ↔
      (names ≠ [] ∧ (sortMigrations names).map migrationIndex =
        List.range' 1 names.length)) ∧
    (names = [] → executorInit names none = .error .noMigrationFilesFound) ∧
    (∀ pfx x sfx, sortMigrations names = pfx ++ x :: sfx →
      pfx.map migrationIndex = List.range' 1 pfx.length →
      migrationIndex x ∈ pfx.map migrationIndex →
      ∃ first, executorInit names none = .error (.conflictingIndex first x)) ∧
    (∀ pfx x sfx, sortMigrations names = pfx ++ x :: sfx →
      pfx.map migrationIndex = List.range' 1 pfx.length →
      migrationIndex x ∉ pfx.map migrationIndex →
      migrationIndex x ≠ pfx.length + 1 →
      executorInit names none = .error
        (.nonContiguousIndex pfx.length (migrationIndex x))) := by
  refine ⟨?_, ?_, ?_, ?_⟩
  · constructor
    · rintro ⟨r, hr⟩
      simp only [executorInit] at hr
      rcases hl : (sortMigrations names).getLast? with _ | lastName
      · rw [hl] at hr; cases hr
      · rw [hl] at hr
        have hne : sortMigrations names ≠ [] := by
          intro h
          rw [h] at hl; cases hl
        have hnames : names ≠ [] := by
          intro h
          apply hne
          subst h
          rfl
        refine ⟨hnames, ?_⟩
        rcases hc : checkIndexes (sortMigrations names) [] 0 with e | u
        · simp only [hc] at hr
          cases hr
        · have := checkIndexes_map_of_ok _ _ _ (by rw [hc])
          rw [length_sortMigrations] at this
          simpa using this
    · rintro ⟨hnames, hmap⟩
      have hne : sortMigrations names ≠ [] := by
        intro h
        apply hnames
        have hlen := length_sortMigrations names
        rw [h] at hlen
        simp only [List.length_nil] at hlen
        exact List.length_eq_zero.mp hlen.symm
      rcases hl : (sortMigrations names).getLast? with _ | lastName
      · exact absurd (List.getLast?_eq_none_iff.mp hl) hne
      · rw [executorInit_after_getLast names lastName hl]
        rw [checkIndexes_ok_of (sortMigrations names) [] 0
          (by rw [hmap, length_sortMigrations]) (by intro i _; rfl)]
        exact ⟨(sortMigrations names, lastName), rfl⟩
  · intro h
    subst h
    rfl
  · intro pfx x sfx hsplit hclean hdup
    have hne : sortMigrations names ≠ [] := by
      rw [hsplit]; simp
    rcases hl : (sortMigrations names).getLast? with _ | lastName
    · exact absurd (List.getLast?_eq_none_iff.mp hl) hne
    · have hkey : migrationIndex x ∈
          ((pfx.map (fun n => (migrationIndex n, n))).reverse ++
            ([] : List (Nat × String))).map Prod.fst := by
        simp only [List.append_nil, List.map_reverse, List.mem_reverse]
        simpa [List.map_map, Function.comp] using hdup
      obtain ⟨first, hlook⟩ := lookup_isSome_of_mem_keys _ _ hkey
      refine ⟨first, ?_⟩
      rw [executorInit_after_getLast names lastName hl, hsplit]
      rw [checkIndexes_append pfx (x :: sfx) [] 0 (by simpa using hclean)
        (by intro i _; rfl)]
      conv_lhs => unfold checkIndexes
      rw [hlook]
      rfl
  · intro pfx x sfx hsplit hclean hnodup hgap
    have hne : sortMigrations names ≠ [] := by
      rw [hsplit]; simp
    rcases hl : (sortMigrations names).getLast? with _ | lastName
    · exact absurd (List.getLast?_eq_none_iff.mp hl) hne
    · have hkey : migrationIndex x ∉
          ((pfx.map (fun n => (migrationIndex n, n))).reverse ++
            ([] : List (Nat × String))).map Prod.fst := by
        simp only [List.append_nil, List.map_reverse, List.mem_reverse]
        simpa [List.map_map, Function.comp] using hnodup
      have hlook := lookup_eq_none_of_not_mem_keys _ _ hkey
      rw [executorInit_after_getLast names lastName hl, hsplit]
      rw [checkIndexes_append pfx (x :: sfx) [] 0 (by simpa using hclean)
        (by intro i _; rfl)]
      conv_lhs => unfold checkIndexes
      rw [hlook]
      rw [if_pos (by push_cast; omega)]
      simp

/-- Counterexample for C8 as stated: the units `0003_b` and `0003_c` share
index 3, yet because a gap (index 2 with no index 1) precedes the duplicate
in the sorted sequence, construction fails with the non-contiguity error,
not the conflicting-index error. -/
theorem executorInit_duplicate_counterexample :
    migrationIndex "0003_b" = migrationIndex "0003_c" ∧
    executorInit ["0002_a", "0003_b", "0003_c"] none =
      .error (.nonContiguousIndex 0 2) :=
  ⟨rfl, by decide⟩

/-- Witness for C8 (amended): applying the validation theorem to a concrete
registry whose sorted prefix `["0001_a"]` is clean and whose next unit
`0001_dup` duplicates index 1, yielding the conflicting-index error. -/
theorem executorInit_validation_witness :
    ∃ first, executorInit ["0001_a", "0001_dup"] none =
      .error (.conflictingIndex first "0001_dup") :=
  (executorInit_validation ["0001_a", "0001_dup"]).2.2.1 ["0001_a"] "0001_dup" []
    (by decide) (by decide) (by decide)

/-! ## C6 and C7: update_param_names behaviour -/

theorem scanBoth_append_front (name a b : String) (l1 : List String)
    (h1 : name ∉ l1) (h2 : a ∉ l1) (rest : List String) :
    scanBoth name a b (l1 ++ rest) = (scanBoth name a b rest).map (l1 ++ ·) := by
  induction l1 with
  | nil =>
      simp only [List.nil_append]
      cases scanBoth name a b rest <;> simp [Except.map]
  | cons p l1 ih =>
      simp only [List.mem_cons, not_or] at h1 h2
      have e1 : ¬ p = name := fun hh => h1.1 hh.symm
      have e2 : ¬ p = a := fun hh => h2.1 hh.symm
      simp only [List.cons_append, List.append_eq, scanBoth]
      rw [if_neg e1, if_neg e2, ih h1.2 h2.2]
      cases scanBoth name a b rest <;> simp [Except.map]

theorem scanAfter_append_front (name a : String) (l1 : List String)
    (h1 : name ∉ l1) (h2 : a ∉ l1) (rest : List String) :
    scanAfter name a (l1 ++ rest) = (scanAfter name a rest).map (l1 ++ ·) := by
  induction l1 with
  | nil =>
      simp only [List.nil_append]
      cases scanAfter name a rest <;> simp [Except.map]
  | cons p l1 ih =>
      simp only [List.mem_cons, not_or] at h1 h2
      have e1 : ¬ p = name := fun hh => h1.1 hh.symm
      have e2 : ¬ p = a := fun hh => h2.1 hh.symm
      simp only [List.cons_append, List.append_eq, scanAfter]
      rw [if_neg e1, if_neg e2, ih h1.2 h2.2]
      cases scanAfter name a rest <;> simp [Except.map]

theorem scanBefore_append_front (name b : String) (l1 : List String)
    (h1 : name ∉ l1) (h2 : b ∉ l1) (rest : List String) :
    scanBefore name b (l1 ++ rest) = (scanBefore name b rest).map (l1 ++ ·) := by
  induction l1 with
  | nil =>
      simp only [List.nil_append]
      cases scanBefore name b rest <;> simp [Except.map]
  | cons p l1 ih =>
      simp only [List.mem_cons, not_or] at h1 h2
      have e1 : ¬ p = name := fun hh => h1.1 hh.symm
      have e2 : ¬ p = b := fun hh => h2.1 hh.symm
      simp only [List.cons_append, List.append_eq, scanBefore]
      rw [if_neg e1, if_neg e2, ih h1.2 h2.2]
      cases scanBefore name b rest <;> simp [Except.map]

/-- Claim C6 (corrected): failure modes of position resolution.  Two
corrections forced by the code: every error case additionally requires that
`name` itself does not occur before the point the scan reaches (the scan
breaks silently at `name`), and an `insert_after` found as the last list
entry raises an uncaught `IndexError` instead of the "not adjacent"
`UserError`.  With no neighbors given and a fresh name, the name is appended
at the end. -/
theorem update_param_names_failure_modes (op : AddBenchParam) :
    (∀ a b l1 q l2, op.insert_after = some a → op.insert_before = some b →
      op.name ∉ l1 → a ∉ l1 → op.name ≠ a → q ≠ b →
      op.update_param_names (l1 ++ a :: q :: l2) =
        .error (.notAdjacent op.name a b)) ∧
    (∀ a b l1, op.insert_after = some a → op.insert_before = some b →
      op.name ∉ l1 → a ∉ l1 → op.name ≠ a →
      op.update_param_names (l1 ++ [a]) = .error .indexError) ∧
    (∀ a b l, op.insert_after = some a → op.insert_before = some b →
      op.name ∉ l → a ∉ l →
      op.update_param_names l = .error (.paramNotFound op.name a)) ∧
    (∀ a l, op.insert_after = some a → op.insert_before = none →
      op.name ∉ l → a ∉ l →
      op.update_param_names l = .error (.paramNotFound op.name a)) ∧
    (∀ b l, op.insert_after = none → op.insert_before = some b →
      op.name ∉ l → b ∉ l →
      op.update_param_names l = .error (.paramNotFound op.name b)) ∧
    (∀ l, op.insert_after = none → op.insert_before = none → op.name ∉ l →
      op.update_param_names l = .ok (l ++ [op.name])) := by
  refine ⟨?_, ?_, ?_, ?_, ?_, ?_⟩
  · intro a b l1 q l2 ha hb hn1 ha1 hna hqb
    unfold AddBenchParam.update_param_names
    rw [ha, hb]
    show scanBoth op.name a b (l1 ++ a :: q :: l2) = _
    rw [scanBoth_append_front op.name a b l1 hn1 ha1]
    have e1 : ¬ a = op.name := fun hh => hna hh.symm
    have hstep : scanBoth op.name a b (a :: q :: l2) =
        .error (.notAdjacent op.name a b) := by
      simp [scanBoth, e1, hqb]
    rw [hstep]
    rfl
  · intro a b l1 ha hb hn1 ha1 hna
    unfold AddBenchParam.update_param_names
    rw [ha, hb]
    show scanBoth op.name a b (l1 ++ [a]) = _
    rw [scanBoth_append_front op.name a b l1 hn1 ha1]
    have e1 : ¬ a = op.name := fun hh => hna hh.symm
    have hstep : scanBoth op.name a b [a] = .error .indexError := by
      simp [scanBoth, e1]
    rw [hstep]
    rfl
  · intro a b l ha hb hn1 ha1
    unfold AddBenchParam.update_param_names
    rw [ha, hb]
    show scanBoth op.name a b l = _
    rw [show l = l ++ [] from by simp]
    rw [scanBoth_append_front op.name a b l (by simpa using hn1)
      (by simpa using ha1)]
    rfl
  · intro a l ha hb hn1 ha1
    unfold AddBenchParam.update_param_names
    rw [ha, hb]
    show scanAfter op.name a l = _
    rw [show l = l ++ [] from by simp]
    rw [scanAfter_append_front op.name a l (by simpa using hn1)
      (by simpa using ha1)]
    rfl
  · intro b l ha hb hn1 hb1
    unfold AddBenchParam.update_param_names
    rw [ha, hb]
    show scanBefore op.name b l = _
    rw [show l = l ++ [] from by simp]
    rw [scanBefore_append_front op.name b l (by simpa using hn1)
      (by simpa using hb1)]
    rfl
  · intro l ha hb hn
    unfold AddBenchParam.update_param_names
    rw [ha, hb]
    show (if op.name ∈ l then Except.ok l
      else Except.ok (l ++ [op.name]) : Except PyError (List String)) = _
    rw [if_neg hn]

/-- Counterexample for C6 as stated: with `insert_after = "a"`,
`insert_before = "d"` over `["x", "a", "c"]` (name `"x"`), the first
occurrence of `"a"` is followed by `"c" ≠ "d"`, so the claim demands the
"not adjacent" error — but the scan breaks silently at the already-present
name `"x"` and returns the list unchanged. -/
theorem update_param_names_not_adjacent_counterexample :
    AddBenchParam.update_param_names
      { name := "x", values := [], default := "None",
        targets := fun _ => true,
        insert_after := some "a", insert_before := some "d" }
      ["x", "a", "c"] = .ok ["x", "a", "c"] := by decide

/-- Witness for C6 (amended): the "not adjacent" error on a concrete list
where the name does not occur before the neighbor. -/
theorem update_param_names_failure_modes_witness :
    AddBenchParam.update_param_names
      { name := "x", values := [], default := "None",
        targets := fun _ => true,
        insert_after := some "a", insert_before := some "d" }
      (["z"] ++ "a" :: "c" :: []) = .error (.notAdjacent "x" "a" "d") :=
  (update_param_names_failure_modes _).1 "a" "d" ["z"] "c" [] rfl rfl
    (by decide) (by decide) (by decide) (by decide)

theorem scanBoth_ok_self_iff (name a b : String) (l : List String) :
    scanBoth name a b l = .ok l ↔
      ∃ l1 l2, l = l1 ++ name :: l2 ∧ name ∉ l1 ∧ a ∉ l1 := by
  constructor
  · intro h
    induction l with
    | nil => simp [scanBoth] at h
    | cons p rest ih =>
        by_cases hp : p = name
        · exact ⟨[], rest, by simp [hp], by simp, by simp⟩
        · by_cases hpa : p = a
          · unfold scanBoth at h
            rw [if_neg hp, if_pos hpa] at h
            cases rest with
            | nil => cases h
            | cons q rest2 =>
                have h2 : (if q = b then
                    Except.ok (p :: name :: q :: rest2)
                  else Except.error (PyError.notAdjacent name a b)) =
                    (Except.ok (p :: q :: rest2) :
                      Except PyError (List String)) := h
                by_cases hq : q = b
                · rw [if_pos hq] at h2
                  have := congrArg (fun e => e.map List.length) h2
                  simp [Except.map] at this
                · rw [if_neg hq] at h2
                  cases h2
          · unfold scanBoth at h
            rw [if_neg hp, if_neg hpa] at h
            rcases hs : scanBoth name a b rest with e | r
            · rw [hs] at h; cases h
            · rw [hs] at h
              simp only [Except.map] at h
              have hr : r = rest := by
                have := h
                injection this with hh
                exact (List.cons.inj hh).2
              subst hr
              rcases ih hs with ⟨l1, l2, hdec, hn, ha⟩
              exact ⟨p :: l1, l2, by simp [hdec], by
                  simp only [List.mem_cons, not_or]
                  exact ⟨fun hh => hp hh.symm, hn⟩, by
                  simp only [List.mem_cons, not_or]
                  exact ⟨fun hh => hpa hh.symm, ha⟩⟩
  · rintro ⟨l1, l2, hdec, hn, ha⟩
    subst hdec
    rw [scanBoth_append_front name a b l1 hn ha]
    simp [scanBoth, Except.map]

theorem scanAfter_ok_self_iff (name a : String) (l : List String) :
    scanAfter name a l = .ok l ↔
      ∃ l1 l2, l = l1 ++ name :: l2 ∧ name ∉ l1 ∧ a ∉ l1 := by
  constructor
  · intro h
    induction l with
    | nil => simp [scanAfter] at h
    | cons p rest ih =>
        by_cases hp : p = name
        · exact ⟨[], rest, by simp [hp], by simp, by simp⟩
        · by_cases hpa : p = a
          · rw [scanAfter, if_neg hp, if_pos hpa] at h
            have := congrArg (fun e => e.map List.length) h
            simp [Except.map] at this
          · rw [scanAfter, if_neg hp, if_neg hpa] at h
            rcases hs : scanAfter name a rest with e | r
            · rw [hs] at h; cases h
            · rw [hs] at h
              simp only [Except.map] at h
              have hr : r = rest := by
                injection h with hh
                exact (List.cons.inj hh).2
              subst hr
              rcases ih hs with ⟨l1, l2, hdec, hn, ha⟩
              exact ⟨p :: l1, l2, by simp [hdec], by
                  simp only [List.mem_cons, not_or]
                  exact ⟨fun hh => hp hh.symm, hn⟩, by
                  simp only [List.mem_cons, not_or]
                  exact ⟨fun hh => hpa hh.symm, ha⟩⟩
  · rintro ⟨l1, l2, hdec, hn, ha⟩
    subst hdec
    rw [scanAfter_append_front name a l1 hn ha]
    simp [scanAfter, Except.map]

theorem scanBefore_ok_self_iff (name b : String) (l : List String) :
    scanBefore name b l = .ok l ↔
      ∃ l1 l2, l = l1 ++ name :: l2 ∧ name ∉ l1 ∧ b ∉ l1 := by
  constructor
  · intro h
    induction l with
    | nil => simp [scanBefore] at h
    | cons p rest ih =>
        by_cases hp : p = name
        · exact ⟨[], rest, by simp [hp], by simp, by simp⟩
        · by_cases hpb : p = b
          · rw [scanBefore, if_neg hp, if_pos hpb] at h
            have := congrArg (fun e => e.map List.length) h
            simp [Except.map] at this
          · rw [scanBefore, if_neg hp, if_neg hpb] at h
            rcases hs : scanBefore name b rest with e | r
            · rw [hs] at h; cases h
            · rw [hs] at h
              simp only [Except.map] at h
              have hr : r = rest := by
                injection h with hh
                exact (List.cons.inj hh).2
              subst hr
              rcases ih hs with ⟨l1, l2, hdec, hn, hb⟩
              exact ⟨p :: l1, l2, by simp [hdec], by
                  simp only [List.mem_cons, not_or]
                  exact ⟨fun hh => hp hh.symm, hn⟩, by
                  simp only [List.mem_cons, not_or]
                  exact ⟨fun hh => hpb hh.symm, hb⟩⟩
  · rintro ⟨l1, l2, hdec, hn, hb⟩
    subst hdec
    rw [scanBefore_append_front name b l1 hn hb]
    simp [scanBefore, Except.map]

/-- Claim C7 (corrected): when the parameter list already contains `name`,
position resolution is a no-op exactly when no neighbors are given, or when
the first occurrence of `name` comes no later than the first occurrence of
the scanned neighbor (`insert_after` when given, otherwise `insert_before`);
when the scanned neighbor occurs strictly first, the list is modified (the
name is inserted a second time) or an error is raised. -/
theorem update_param_names_noop_iff (op : AddBenchParam) (l : List String)
    (hmem : op.name ∈ l) :
    (op.insert_after = none → op.insert_before = none →
      op.update_param_names l = .ok l) ∧
    (∀ a, op.insert_after = some a →
      (op.update_param_names l = .ok l ↔
        ∃ l1 l2, l = l1 ++ op.name :: l2 ∧ op.name ∉ l1 ∧ a ∉ l1)) ∧
    (∀ b, op.insert_after = none → op.insert_before = some b →
      (op.update_param_names l = .ok l ↔
        ∃ l1 l2, l = l1 ++ op.name :: l2 ∧ op.name ∉ l1 ∧ b ∉ l1)) := by
  refine ⟨?_, ?_, ?_⟩
  · intro ha hb
    unfold AddBenchParam.update_param_names
    rw [ha, hb]
    show (if op.name ∈ l then Except.ok l
      else Except.ok (l ++ [op.name]) : Except PyError (List String)) = _
    rw [if_pos hmem]
  · intro a ha
    rcases hb : op.insert_before with _ | b
    · unfold AddBenchParam.update_param_names
      rw [ha, hb]
      show scanAfter op.name a l = .ok l ↔ _
      exact scanAfter_ok_self_iff op.name a l
    · unfold AddBenchParam.update_param_names
      rw [ha, hb]
      show scanBoth op.name a b l = .ok l ↔ _
      exact scanBoth_ok_self_iff op.name a b l
  · intro b ha hb
    unfold AddBenchParam.update_param_names
    rw [ha, hb]
    show scanBefore op.name b l = .ok l ↔ _
    exact scanBefore_ok_self_iff op.name b l

/-- Counterexample for C7 as stated: the list `["a", "x"]` already contains
the name `"x"`, yet with `insert_after = "a"` the resolution is not a no-op:
the scan meets `"a"` first and inserts `"x"` a second time. -/
theorem update_param_names_present_counterexample :
    "x" ∈ ["a", "x"] ∧
    AddBenchParam.update_param_names
      { name := "x", values := [], default := "None",
        targets := fun _ => true,
        insert_after := some "a", insert_before := none }
      ["a", "x"] = .ok ["a", "x", "x"] :=
  ⟨by decide, by decide⟩

/-- Witness for C7 (amended): on `["x", "a"]` the name occurs before the
neighbor, so resolution with `insert_after = "a"` leaves the list
unchanged. -/
theorem update_param_names_noop_iff_witness :
    AddBenchParam.update_param_names
      { name := "x", values := [], default := "None",
        targets := fun _ => true,
        insert_after := some "a", insert_before := none }
      ["x", "a"] = .ok ["x", "a"] :=
  ((update_param_names_noop_iff
      { name := "x", values := [], default := "None",
        targets := fun _ => true,
        insert_after := some "a", insert_before := none }
      ["x", "a"] (by decide)).2.1 "a" rfl).mpr
    ⟨[], ["a"], rfl, by decide, by decide⟩

/-! ## C10: a None candidate under an absent default -/

/-- Claim C10 (confirmed): for an `AddBenchParam` constructed without an
explicit default, the stored default is the string representation `"None"`,
so a candidate value `None` is stored as the same string and its replica
takes the grandfathered branch of the record expansion: `params[name]` is
set to `"None"` only if absent, every other field is preserved, and only the
`version` field is reset to null. -/
theorem addBenchParam_none_default_spec (name : String) (values : List Value)
    (targets : String → Bool) (insert_after insert_before : Option String)
    (op : AddBenchParam)
    (h : AddBenchParam.make name values none targets insert_after
      insert_before = .ok op)
    (hmem : Value.null ∈ values) :
    op.default = "None" ∧ "None" ∈ op.values ∧
    (∀ r : Record,
      expandValue op r "None" =
        { params := dictSetdefault r.params op.name (Value.str "None"),
          fields := dictInsert r.fields "version" Value.null } ∧
      (∀ k, k ≠ "version" →
        (expandValue op r "None").fields.lookup k = r.fields.lookup k) ∧
      (expandValue op r "None").fields.lookup "version" = some Value.null) := by
  have hop : op.values = values.map reprNoAddress ∧ op.default = "None" ∧
      op.name = name := by
    unfold AddBenchParam.make at h
    by_cases hd : values.dedup.length < values.length
    · rw [if_pos hd] at h; cases h
    · rw [if_neg hd] at h
      simp only [pure, Except.pure] at h
      injection h with h
      subst h
      exact ⟨rfl, rfl, rfl⟩
  obtain ⟨hvals, hdef, hname⟩ := hop
  refine ⟨hdef, ?_, ?_⟩
  · rw [hvals]
    exact List.mem_map.mpr ⟨Value.null, hmem, rfl⟩
  · intro r
    have hexp : expandValue op r "None" =
        { params := dictSetdefault r.params op.name (Value.str "None"),
          fields := dictInsert r.fields "version" Value.null } := by
      unfold expandValue
      rw [if_pos hdef.symm, hdef]
    refine ⟨hexp, ?_, ?_⟩
    · intro k hk
      rw [hexp]
      exact lookup_dictInsert_other r.fields "version" k Value.null hk
    · rw [hexp]
      exact lookup_dictInsert_self r.fields "version" Value.null

/-- Witness for C10: the construction `AddBenchParam("p", values=[None, 1])`
stores default "None" and candidate list ["None", "1"], and the "None"
replica of any record keeps all fields but `version`. -/
theorem addBenchParam_none_default_witness :
    (⟨"p", ["None", "1"], "None", fun _ => true, none, none⟩ :
      AddBenchParam).default = "None" ∧
    "None" ∈ (⟨"p", ["None", "1"], "None", fun _ => true, none, none⟩ :
      AddBenchParam).values ∧
    (∀ r : Record,
      expandValue
          (⟨"p", ["None", "1"], "None", fun _ => true, none, none⟩ :
            AddBenchParam) r "None" =
        { params := dictSetdefault r.params
            (⟨"p", ["None", "1"], "None", fun _ => true, none, none⟩ :
              AddBenchParam).name (Value.str "None"),
          fields := dictInsert r.fields "version" Value.null } ∧
      (∀ k, k ≠ "version" →
        (expandValue
            (⟨"p", ["None", "1"], "None", fun _ => true, none, none⟩ :
              AddBenchParam) r "None").fields.lookup k =
          r.fields.lookup k) ∧
      (expandValue
          (⟨"p", ["None", "1"], "None", fun _ => true, none, none⟩ :
            AddBenchParam) r "None").fields.lookup "version" =
        some Value.null) :=
  addBenchParam_none_default_spec "p" [Value.null, Value.int 1]
    (fun _ => true) none none _ rfl (by decide)

/-! ## C1: the forward record expansion of AddBenchParam -/

theorem length_flatMap_expand (op : AddBenchParam) (records : List Record) :
    (records.flatMap (fun r => op.values.map (expandValue op r))).length =
      records.length * op.values.length := by
  induction records with
  | nil => simp
  | cons r rest ih =>
      simp only [List.flatMap_cons, List.length_append, List.length_map, ih,
        List.length_cons]
      ring

theorem forwardsStep_ok (op : AddBenchParam)
    (pn : List (String × List String)) (octo : List (String × List Record))
    (bench : String) (records : List Record) (res : _)
    (h : forwardsStep op (pn, octo) (bench, records) = .ok res) :
    (op.targets bench = true ∧
      res.2 = dictExtend octo bench
        (records.flatMap (fun r => op.values.map (expandValue op r)))) ∨
    (op.targets bench = false ∧ res.2 = dictInsert octo bench records) := by
  unfold forwardsStep at h
  have h2 : (if op.targets bench = true then
      (do
        let updated ← op.update_param_names
          (((dictSetdefault pn bench []).lookup bench).getD [])
        pure (dictInsert (dictSetdefault pn bench []) bench updated,
          dictExtend octo bench
            (records.flatMap (fun r => op.values.map (expandValue op r)))) :
        Except PyError (List (String × List String) × List (String × List Record)))
    else pure (pn, dictInsert octo bench records)) = .ok res := h
  clear h
  by_cases ht : op.targets bench
  · left
    refine ⟨ht, ?_⟩
    rw [if_pos ht] at h2
    rcases hu : op.update_param_names
        (((dictSetdefault pn bench []).lookup bench).getD []) with e | updated
    · rw [hu] at h2; cases h2
    · rw [hu] at h2
      simp only [pure, Except.pure, Except.bind] at h2
      injection h2 with h2
      rw [← h2]
  · right
    refine ⟨by simpa using ht, ?_⟩
    rw [if_neg ht] at h2
    simp only [pure, Except.pure] at h2
    injection h2 with h2
    rw [← h2]

theorem forwards_fold_octobus (op : AddBenchParam) :
    ∀ (entries : List (String × List Record))
      (pn : List (String × List String)) (octo : List (String × List Record))
      (res : List (String × List String) × List (String × List Record)),
    (entries.map Prod.fst).Nodup →
    (∀ e ∈ entries, e.1 ∉ octo.map Prod.fst) →
    entries.foldlM (forwardsStep op) (pn, octo) = .ok res →
    res.2 = octo ++ entries.map (fun entry =>
      if op.targets entry.1 then
        (entry.1, entry.2.flatMap (fun r => op.values.map (expandValue op r)))
      else entry) := by
  intro entries
  induction entries with
  | nil =>
      intro pn octo res _ _ h
      simp only [List.foldlM_nil, pure, Except.pure] at h
      injection h with h
      rw [← h]
      simp
  | cons e entries ih =>
      intro pn octo res hnd hdisj h
      obtain ⟨bench, records⟩ := e
      rw [List.foldlM_cons] at h
      rcases hs : forwardsStep op (pn, octo) (bench, records) with err | acc1
      · rw [hs] at h; cases h
      · rw [hs] at h
        replace h : entries.foldlM (forwardsStep op) acc1 = .ok res := h
        have hb : bench ∉ octo.map Prod.fst :=
          hdisj (bench, records) (by simp)
        have hnd2 : (entries.map Prod.fst).Nodup := by
          simpa using hnd.of_cons
        have hbent : ∀ x ∈ entries, x.1 ≠ bench := by
          intro x hx hEq
          have hmem : bench ∈ entries.map Prod.fst := by
            rw [← hEq]
            exact List.mem_map_of_mem Prod.fst hx
          exact (List.nodup_cons.mp (by simpa using hnd)).1 hmem
        rcases forwardsStep_ok op pn octo bench records acc1 hs with
          ⟨ht, hocto⟩ | ⟨ht, hocto⟩
        · have hext : acc1.2 = octo ++ [(bench,
              records.flatMap (fun r => op.values.map (expandValue op r)))] := by
            rw [hocto, dictExtend_of_not_mem _ _ _ hb]
          have := ih acc1.1 acc1.2 res hnd2 ?_ ?_
          · rw [this, hext]
            simp [ht, List.append_assoc]
          · intro x hx
            rw [hext]
            simp only [List.map_append, List.mem_append, List.map_cons,
              List.map_nil, List.mem_cons, not_or]
            exact ⟨fun hh => hdisj x (by simp [hx]) hh,
              by simpa using hbent x hx, by simp⟩
          · rcases acc1 with ⟨a1, a2⟩
            exact h
        · have hext : acc1.2 = octo ++ [(bench, records)] := by
            rw [hocto, dictInsert_of_not_mem _ _ _ hb]
          have := ih acc1.1 acc1.2 res hnd2 ?_ ?_
          · rw [this, hext]
            simp [ht, List.append_assoc]
          · intro x hx
            rw [hext]
            simp only [List.map_append, List.mem_append, List.map_cons,
              List.map_nil, List.mem_cons, not_or]
            exact ⟨fun hh => hdisj x (by simp [hx]) hh,
              by simpa using hbent x hx, by simp⟩
          · rcases acc1 with ⟨a1, a2⟩
            exact h

theorem foldl_popKey_lookup_none {α : Type} (cols : List String) :
    ∀ (d : List (String × α)) (c : String), d.lookup c = none →
    (cols.foldl (fun fs k => popKey fs k) d).lookup c = none := by
  induction cols with
  | nil => intro d c h; simpa using h
  | cons k cols ih =>
      intro d c h
      simp only [List.foldl_cons]
      apply ih
      by_cases hc : c = k
      · subst hc; exact lookup_popKey_self d c
      · rw [lookup_popKey_other d k c hc]; exact h

theorem foldl_popKey_lookup_mem {α : Type} (cols : List String) :
    ∀ (d : List (String × α)) (c : String), c ∈ cols →
    (cols.foldl (fun fs k => popKey fs k) d).lookup c = none := by
  induction cols with
  | nil => intro d c h; simp at h
  | cons k cols ih =>
      intro d c h
      simp only [List.foldl_cons]
      rcases List.mem_cons.mp h with h | h
      · subst h
        exact foldl_popKey_lookup_none cols (popKey d c) c
          (lookup_popKey_self d c)
      · exact ih (popKey d k) c h

theorem foldl_popKey_lookup_not_mem {α : Type} (cols : List String) :
    ∀ (d : List (String × α)) (c : String), c ∉ cols →
    (cols.foldl (fun fs k => popKey fs k) d).lookup c = d.lookup c := by
  induction cols with
  | nil => intro d c _; simp
  | cons k cols ih =>
      intro d c h
      simp only [List.mem_cons, not_or] at h
      simp only [List.foldl_cons]
      rw [ih (popKey d k) c h.2, lookup_popKey_other d k c h.1]

/-- Claim C1 (confirmed): for every targeted benchmark the forward transform
replaces the record list by one record per (original record, candidate) pair
in `values` order; the replica of the declared default keeps every field and
only adds `params[name]` when absent and nulls `version`; every other
replica overwrites `params[name]`, nulls the measured `result`, drops the
derived statistics fields and nulls `version`.  Record lists of non-targeted
benchmarks pass through unchanged, and the targeted record count is
`original × len(values)`. -/
theorem addBenchParam_forwards_spec (op : AddBenchParam) (state out : MigState)
    (hnd : (state.octobus_results.map Prod.fst).Nodup)
    (h : op.forwards state = .ok out) :
    out.octobus_results = state.octobus_results.map (fun entry =>
      if op.targets entry.1 then
        (entry.1, entry.2.flatMap (fun r => op.values.map (expandValue op r)))
      else entry) ∧
    (∀ entry ∈ state.octobus_results, op.targets entry.1 = true →
      (entry.2.flatMap (fun r => op.values.map (expandValue op r))).length =
        entry.2.length * op.values.length) ∧
    (∀ entry ∈ state.octobus_results, op.targets entry.1 = false →
      entry ∈ out.octobus_results) ∧
    (∀ (r : Record) (v : String), v = op.default →
      expandValue op r v =
        { params := dictSetdefault r.params op.name (Value.str op.default),
          fields := dictInsert r.fields "version" Value.null } ∧
      (∀ k, k ≠ "version" →
        (expandValue op r v).fields.lookup k = r.fields.lookup k) ∧
      (expandValue op r v).fields.lookup "version" = some Value.null) ∧
    (∀ (r : Record) (v : String), v ≠ op.default →
      (expandValue op r v).params = dictInsert r.params op.name (Value.str v) ∧
      (expandValue op r v).fields.lookup "result" = some Value.null ∧
      (expandValue op r v).fields.lookup "version" = some Value.null ∧
      (∀ c ∈ useless_columns, (expandValue op r v).fields.lookup c = none) ∧
      (∀ k, k ∉ useless_columns → k ≠ "result" → k ≠ "version" →
        (expandValue op r v).fields.lookup k = r.fields.lookup k)) := by
  have hout : out.octobus_results = state.octobus_results.map (fun entry =>
      if op.targets entry.1 then
        (entry.1, entry.2.flatMap (fun r => op.values.map (expandValue op r)))
      else entry) := by
    unfold AddBenchParam.forwards at h
    rcases hf : state.octobus_results.foldlM (forwardsStep op)
        (state.bench_param_names, []) with e | st
    · rw [hf] at h; cases h
    · rw [hf] at h
      simp only [pure, Except.pure, Except.bind] at h
      injection h with h
      have := forwards_fold_octobus op state.octobus_results
        state.bench_param_names [] st hnd (by intro e _; simp) hf
      rw [← h]
      simpa using this
  refine ⟨hout, ?_, ?_, ?_, ?_⟩
  · intro entry _ _
    exact length_flatMap_expand op entry.2
  · intro entry hmem ht
    rw [hout]
    refine List.mem_map.mpr ⟨entry, hmem, ?_⟩
    rw [if_neg (by simp [ht])]
  · intro r v hv
    have hexp : expandValue op r v =
        { params := dictSetdefault r.params op.name (Value.str op.default),
          fields := dictInsert r.fields "version" Value.null } := by
      unfold expandValue
      rw [if_pos hv]
    subst hv
    refine ⟨hexp, ?_, ?_⟩
    · intro k hk
      rw [hexp]
      exact lookup_dictInsert_other r.fields "version" k Value.null hk
    · rw [hexp]
      exact lookup_dictInsert_self r.fields "version" Value.null
  · intro r v hv
    have hexp : expandValue op r v =
        { params := dictInsert r.params op.name (Value.str v),
          fields := dictInsert
            (useless_columns.foldl (fun fs c => popKey fs c)
              (dictInsert r.fields "result" Value.null))
            "version" Value.null } := by
      unfold expandValue
      rw [if_neg hv]
    have hrv : ("result" : String) ∉ useless_columns := by decide
    have hvu : ("version" : String) ∉ useless_columns := by decide
    refine ⟨by rw [hexp], ?_, ?_, ?_, ?_⟩
    · rw [hexp]
      show (dictInsert _ "version" Value.null).lookup "result" = _
      rw [lookup_dictInsert_other _ "version" "result" Value.null (by decide)]
      rw [foldl_popKey_lookup_not_mem useless_columns _ "result" hrv]
      exact lookup_dictInsert_self r.fields "result" Value.null
    · rw [hexp]
      exact lookup_dictInsert_self _ "version" Value.null
    · intro c hc
      have hcv : c ≠ "version" := fun hh => hvu (hh ▸ hc)
      rw [hexp]
      show (dictInsert _ "version" Value.null).lookup c = _
      rw [lookup_dictInsert_other _ "version" c Value.null hcv]
      exact foldl_popKey_lookup_mem useless_columns _ c hc
    · intro k hk1 hk2 hk3
      rw [hexp]
      show (dictInsert _ "version" Value.null).lookup k = _
      rw [lookup_dictInsert_other _ "version" k Value.null hk3]
      rw [foldl_popKey_lookup_not_mem useless_columns _ k hk1]
      exact lookup_dictInsert_other r.fields "result" k Value.null hk2

/-- Witness for C1: a concrete targeted expansion with two candidate values
over a single-record benchmark. -/
theorem addBenchParam_forwards_spec_witness :
    ∃ out,
      (⟨"p", ["1", "2"], "1", fun _ => true, none, none⟩ :
        AddBenchParam).forwards
        { results := none, result_columns := [],
          octobus_results :=
            [("b", [{ params := [], fields := [("result", Value.int 5)] }])],
          bench_param_names := [], migration_marker := none } = .ok out ∧
      out.octobus_results =
        [("b", [{ params := [], fields := [("result", Value.int 5)] }])].map
          (fun entry =>
            if (⟨"p", ["1", "2"], "1", fun _ => true, none, none⟩ :
                AddBenchParam).targets entry.1 then
              (entry.1, entry.2.flatMap (fun r =>
                (["1", "2"] : List String).map
                  (expandValue
                    (⟨"p", ["1", "2"], "1", fun _ => true, none, none⟩ :
                      AddBenchParam) r)))
            else entry) :=
  ⟨_, rfl, (addBenchParam_forwards_spec
      (⟨"p", ["1", "2"], "1", fun _ => true, none, none⟩ : AddBenchParam)
      { results := none, result_columns := [],
        octobus_results :=
          [("b", [{ params := [], fields := [("result", Value.int 5)] }])],
        bench_param_names := [], migration_marker := none }
      _ (by decide) rfl).1⟩

/-! ## C5: scalar columns in the object-to-column conversion -/

theorem collectParams_ok (r : Record) (param_names : List String) :
    ∀ ap, (∀ n ∈ param_names, (r.params.lookup n).isSome) →
    collectParams r ap param_names =
      .ok (param_names.foldl
        (fun acc n => addParamValue acc n ((r.params.lookup n).getD Value.null))
        ap) := by
  induction param_names with
  | nil => intro ap _; rfl
  | cons n ns ih =>
      intro ap hp
      rcases hn : r.params.lookup n with _ | v
      · have := hp n (by simp)
        rw [hn] at this
        cases this
      · unfold collectParams
        rw [List.foldlM_cons, hn]
        show collectParams r (addParamValue ap n v) ns = _
        rw [ih (addParamValue ap n v) (fun m hm => hp m (by simp [hm]))]
        simp [hn]

theorem pushVec_ok (ar : List (String × ColEntry)) (k : String) (v : Value)
    (hinv : ∀ p ∈ ar, ∀ w, p.2 = ColEntry.scalar w → p.1 ∈ SCALAR_COLUMNS)
    (hk : k ∉ SCALAR_COLUMNS) :
    ∃ ar2, pushVec ar k v = .ok ar2 := by
  induction ar with
  | nil => exact ⟨[(k, .vec [v])], rfl⟩
  | cons p rest ih =>
      obtain ⟨k0, e⟩ := p
      by_cases h0 : k0 = k
      · cases e with
        | vec vs => exact ⟨(k0, .vec (vs ++ [v])) :: rest, by
            simp [pushVec, h0]⟩
        | scalar w =>
            exact absurd (h0 ▸ hinv (k0, .scalar w) (by simp) w rfl) hk
      · rcases ih (fun q hq => hinv q (by simp [hq])) with ⟨ar2, har2⟩
        refine ⟨(k0, e) :: ar2, ?_⟩
        simp only [pushVec, if_neg h0, har2]
        rfl

theorem pushVec_inv (ar : List (String × ColEntry)) (k : String) (v : Value)
    (ar2 : List (String × ColEntry)) (h : pushVec ar k v = .ok ar2)
    (hinv : ∀ p ∈ ar, ∀ w, p.2 = ColEntry.scalar w → p.1 ∈ SCALAR_COLUMNS) :
    ∀ p ∈ ar2, ∀ w, p.2 = ColEntry.scalar w → p.1 ∈ SCALAR_COLUMNS := by
  induction ar generalizing ar2 with
  | nil =>
      unfold pushVec at h
      injection h with h
      subst h
      intro p hp w hw
      simp only [List.mem_singleton] at hp
      subst hp
      cases hw
  | cons q rest ih =>
      obtain ⟨k0, e⟩ := q
      unfold pushVec at h
      by_cases h0 : k0 = k
      · rw [if_pos h0] at h
        cases e with
        | vec vs =>
            injection h with h
            subst h
            intro p hp w hw
            rcases List.mem_cons.mp hp with hp | hp
            · subst hp; cases hw
            · exact hinv p (by simp [hp]) w hw
        | scalar w => cases h
      · rw [if_neg h0] at h
        rcases hr : pushVec rest k v with e2 | r2
        · rw [hr] at h; cases h
        · rw [hr] at h
          replace h : (Except.ok ((k0, e) :: r2) :
              Except PyError (List (String × ColEntry))) = .ok ar2 := h
          injection h with h
          subst h
          intro p hp w hw
          rcases List.mem_cons.mp hp with hp | hp
          · subst hp
            exact hinv (k0, e) (by simp) w hw
          · exact ih r2 hr (fun q hq => hinv q (by simp [hq])) p hp w hw

theorem pushVec_lookup_other (ar : List (String × ColEntry)) (k : String)
    (v : Value) (ar2 : List (String × ColEntry))
    (h : pushVec ar k v = .ok ar2) (c : String) (hc : c ≠ k) :
    ar2.lookup c = ar.lookup c := by
  induction ar generalizing ar2 with
  | nil =>
      unfold pushVec at h
      injection h with h
      subst h
      have hb : (c == k) = false := beq_eq_false_iff_ne.mpr hc
      simp [List.lookup, hb]
  | cons q rest ih =>
      obtain ⟨k0, e⟩ := q
      unfold pushVec at h
      by_cases h0 : k0 = k
      · rw [if_pos h0] at h
        cases e with
        | vec vs =>
            injection h with h
            subst h
            have hb : (c == k0) = false :=
              beq_eq_false_iff_ne.mpr (h0 ▸ hc)
            simp [List.lookup, hb]
        | scalar w => cases h
      · rw [if_neg h0] at h
        rcases hr : pushVec rest k v with e2 | r2
        · rw [hr] at h; cases h
        · rw [hr] at h
          replace h : (Except.ok ((k0, e) :: r2) :
              Except PyError (List (String × ColEntry))) = .ok ar2 := h
          injection h with h
          subst h
          by_cases hck : c = k0
          · subst hck; simp [List.lookup]
          · have hb : (c == k0) = false := beq_eq_false_iff_ne.mpr hck
            simp only [List.lookup, hb]
            exact ih r2 hr

theorem mem_dictInsert {α : Type} (d : List (String × α)) (k : String)
    (v : α) (p : String × α) (h : p ∈ dictInsert d k v) :
    p = (k, v) ∨ p ∈ d := by
  induction d with
  | nil => simpa [dictInsert] using h
  | cons q rest ih =>
      obtain ⟨k0, v0⟩ := q
      by_cases h0 : k0 = k
      · rw [dictInsert, if_pos h0] at h
        rcases List.mem_cons.mp h with h | h
        · exact Or.inl h
        · exact Or.inr (by simp [h])
      · rw [dictInsert, if_neg h0] at h
        rcases List.mem_cons.mp h with h | h
        · exact Or.inr (by simp [h])
        · rcases ih h with h | h
          · exact Or.inl h
          · exact Or.inr (by simp [h])

theorem scanColumns_scalar_update (pnames : List String) (r : Record) :
    ∀ (cs : List String) (ar : List (String × ColEntry))
      (ap : List (String × List Value)),
    (∀ c ∈ cs, c ≠ "params" → c ∉ SCALAR_COLUMNS →
      (r.fields.lookup c).isSome) →
    (∀ n ∈ pnames, (r.params.lookup n).isSome) →
    (∀ p ∈ ar, ∀ w, p.2 = ColEntry.scalar w → p.1 ∈ SCALAR_COLUMNS) →
    ∃ ar2 ap2, scanColumns pnames r cs (ar, ap) = .ok (ar2, ap2) ∧
      (∀ p ∈ ar2, ∀ w, p.2 = ColEntry.scalar w → p.1 ∈ SCALAR_COLUMNS) ∧
      (∀ col ∈ SCALAR_COLUMNS, col ∈ cs →
        ar2.lookup col =
          some (.scalar ((r.fields.lookup col).getD Value.null))) ∧
      (∀ col, col ∉ cs → ar2.lookup col = ar.lookup col) := by
  intro cs
  induction cs with
  | nil =>
      intro ar ap _ _ hinv
      exact ⟨ar, ap, rfl, hinv, by simp, fun _ _ => rfl⟩
  | cons c rest ih =>
      intro ar ap hcomp hp hinv
      by_cases hcp : c = "params"
      · subst hcp
        have hps : ("params" : String) ∉ SCALAR_COLUMNS := by decide
        rcases pushVec_ok ar "params" (paramsAsValue r.params) hinv hps with
          ⟨arP, harP⟩
        have hinvP := pushVec_inv ar "params" (paramsAsValue r.params) arP
          harP hinv
        rcases ih arP
            (pnames.foldl (fun acc n =>
              addParamValue acc n ((r.params.lookup n).getD Value.null)) ap)
            (fun x hx => hcomp x (by simp [hx])) hp hinvP with
          ⟨ar2, ap2, hscan, hinv2, hset, hpres⟩
        refine ⟨ar2, ap2, ?_, hinv2, ?_, ?_⟩
        · unfold scanColumns
          rw [if_pos rfl, collectParams_ok r pnames ap hp]
          show (do
            let ar2 ← pushVec ar "params" (paramsAsValue r.params)
            scanColumns pnames r rest (ar2, _)) = _
          rw [harP]
          show scanColumns pnames r rest (arP, _) = _
          exact hscan
        · intro col hcols hmem
          have hcolp : col ≠ "params" := fun hh => hps (hh ▸ hcols)
          rcases List.mem_cons.mp hmem with hmem | hmem
          · exact absurd hmem hcolp
          · exact hset col hcols hmem
        · intro col hcol
          simp only [List.mem_cons, not_or] at hcol
          rw [hpres col hcol.2]
          exact pushVec_lookup_other ar "params" (paramsAsValue r.params)
            arP harP col hcol.1
      · by_cases hcs : c ∈ SCALAR_COLUMNS
        · have hinvI : ∀ p ∈ dictInsert ar c
              (ColEntry.scalar ((r.fields.lookup c).getD Value.null)),
              ∀ w, p.2 = ColEntry.scalar w → p.1 ∈ SCALAR_COLUMNS := by
            intro p hp2 w hw
            rcases mem_dictInsert _ _ _ _ hp2 with h | h
            · rw [h]; exact hcs
            · exact hinv p h w hw
          rcases ih (dictInsert ar c
              (.scalar ((r.fields.lookup c).getD Value.null))) ap
              (fun x hx => hcomp x (by simp [hx])) hp hinvI with
            ⟨ar2, ap2, hscan, hinv2, hset, hpres⟩
          refine ⟨ar2, ap2, ?_, hinv2, ?_, ?_⟩
          · unfold scanColumns
            rw [if_neg hcp, if_pos hcs]
            exact hscan
          · intro col hcols hmem
            by_cases hcr : col ∈ rest
            · exact hset col hcols hcr
            · rcases List.mem_cons.mp hmem with hmem | hmem
              · subst hmem
                rw [hpres col hcr]
                exact lookup_dictInsert_self ar col _
              · exact absurd hmem hcr
          · intro col hcol
            simp only [List.mem_cons, not_or] at hcol
            rw [hpres col hcol.2]
            exact lookup_dictInsert_other ar c col _
              (fun hh => hcol.1 hh)
        · have hsome := hcomp c (by simp) hcp hcs
          rcases hv : r.fields.lookup c with _ | v
          · rw [hv] at hsome; cases hsome
          · rcases pushVec_ok ar c v hinv hcs with ⟨arP, harP⟩
            have hinvP := pushVec_inv ar c v arP harP hinv
            rcases ih arP ap (fun x hx => hcomp x (by simp [hx])) hp hinvP with
              ⟨ar2, ap2, hscan, hinv2, hset, hpres⟩
            refine ⟨ar2, ap2, ?_, hinv2, ?_, ?_⟩
            · unfold scanColumns
              rw [if_neg hcp, if_neg hcs, hv]
              show (do
                let ar2 ← pushVec ar c v
                scanColumns pnames r rest (ar2, ap)) = _
              rw [harP]
              show scanColumns pnames r rest (arP, ap) = _
              exact hscan
            · intro col hcols hmem
              have hcc : col ≠ c := fun hh => hcs (hh ▸ hcols)
              rcases List.mem_cons.mp hmem with hmem | hmem
              · exact absurd hmem hcc
              · exact hset col hcols hmem
            · intro col hcol
              simp only [List.mem_cons, not_or] at hcol
              rw [hpres col hcol.2]
              exact pushVec_lookup_other ar c v arP harP col hcol.1

theorem benchScan_scalar_fold (cols pnames : List String) (col : String)
    (hcol : col ∈ SCALAR_COLUMNS) (hin : col ∈ cols) :
    ∀ (records : List Record) (ar : List (String × ColEntry))
      (ap : List (String × List Value)),
    (∀ r ∈ records, (∀ c ∈ cols, c ≠ "params" → c ∉ SCALAR_COLUMNS →
        (r.fields.lookup c).isSome) ∧
      (∀ n ∈ pnames, (r.params.lookup n).isSome)) →
    (∀ p ∈ ar, ∀ w, p.2 = ColEntry.scalar w → p.1 ∈ SCALAR_COLUMNS) →
    ∀ rlast : Record, records.getLast? = some rlast →
    ∃ ar2 ap2,
      records.foldlM (fun st r => scanColumns pnames r cols st) (ar, ap) =
        .ok (ar2, ap2) ∧
      ar2.lookup col =
        some (.scalar ((rlast.fields.lookup col).getD Value.null)) := by
  intro records
  induction records with
  | nil => intro ar ap _ _ rlast h; cases h
  | cons r rest ih =>
      intro ar ap hcomp hinv rlast hlast
      rcases scanColumns_scalar_update pnames r cols ar ap
          (hcomp r (by simp)).1 (hcomp r (by simp)).2 hinv with
        ⟨ar1, ap1, hscan, hinv1, hset1, _⟩
      cases rest with
      | nil =>
          have hr : rlast = r := by
            simp only [List.getLast?_singleton] at hlast
            injection hlast with hh
            exact hh.symm
          subst hr
          refine ⟨ar1, ap1, ?_, hset1 col hcol hin⟩
          rw [List.foldlM_cons, hscan]
          rfl
      | cons r2 rest2 =>
          have hlast2 : (r2 :: rest2).getLast? = some rlast := by
            rwa [List.getLast?_cons_cons] at hlast
          rcases ih ar1 ap1 (fun x hx => hcomp x (by simp [hx])) hinv1
              rlast hlast2 with ⟨ar2, ap2, hfold, hget⟩
          refine ⟨ar2, ap2, ?_, hget⟩
          rw [List.foldlM_cons, hscan]
          show (r2 :: rest2).foldlM
            (fun st r => scanColumns pnames r cols st) (ar1, ap1) = _
          exact hfold

/-- Claim C5 (corrected): in the object-to-column conversion the emitted
value of a scalar column (`version`, `started_at`, `duration`) is taken from
the LAST record whose column scan reaches it — every record overwrites the
accumulator entry with its own value (null when it lacks the field).  With
complete records this is the last record's value; the first record's value
survives only when all records agree. -/
theorem scalar_column_last_record_spec (result_columns param_names : List String)
    (records : List Record) (col : String) (rlast : Record)
    (hcol : col ∈ SCALAR_COLUMNS) (hin : col ∈ result_columns)
    (hcomp : ∀ r ∈ records,
      (∀ c ∈ result_columns, c ≠ "params" → c ∉ SCALAR_COLUMNS →
        (r.fields.lookup c).isSome) ∧
      (∀ n ∈ param_names, (r.params.lookup n).isSome))
    (hlast : records.getLast? = some rlast) :
    ∃ st, benchScan result_columns param_names records = .ok st ∧
      st.1.lookup col =
        some (.scalar ((rlast.fields.lookup col).getD Value.null)) := by
  rcases benchScan_scalar_fold result_columns param_names col hcol hin
      records [] [] hcomp (by simp) rlast hlast with
    ⟨ar2, ap2, hfold, hget⟩
  exact ⟨(ar2, ap2), hfold, hget⟩

/-- Counterexample for C5 as stated: two complete records whose `version`
values differ; the emitted scalar is the second record's `"v2"`, not the
first record's `"v1"` — later records do overwrite. -/
theorem scalar_column_first_wins_counterexample :
    octobus_results_to_asv_results
      { results := none, result_columns := ["result", "params", "version"],
        octobus_results := [("b",
          [{ params := [("p", Value.str "a")],
             fields := [("result", Value.int 1),
                        ("version", Value.str "v1")] },
           { params := [("p", Value.str "b")],
             fields := [("result", Value.int 2),
                        ("version", Value.str "v2")] }])],
        bench_param_names := [("b", ["p"])], migration_marker := none } =
      .ok { results := some [("b",
              [Value.list [Value.int 1, Value.int 2],
               Value.list [Value.list [Value.str "a", Value.str "b"]],
               Value.str "v2"])],
            result_columns := ["result", "params", "version"],
            octobus_results := [("b",
              [{ params := [("p", Value.str "a")],
                 fields := [("result", Value.int 1),
                            ("version", Value.str "v1")] },
               { params := [("p", Value.str "b")],
                 fields := [("result", Value.int 2),
                            ("version", Value.str "v2")] }])],
            bench_param_names := [("b", ["p"])], migration_marker := none } ∧
    Value.str "v2" ≠ Value.str "v1" :=
  ⟨by decide, by decide⟩

/-- Witness for C5 (amended): the concrete two-record benchmark of the
counterexample; the scan succeeds and the scalar entry holds the last
record's value. -/
theorem scalar_column_last_record_witness :
    ∃ st, benchScan ["result", "params", "version"] ["p"]
        [(⟨[("p", Value.str "a")],
           [("result", Value.int 1), ("version", Value.str "v1")]⟩ : Record),
         (⟨[("p", Value.str "b")],
           [("result", Value.int 2), ("version", Value.str "v2")]⟩ : Record)] =
      .ok st ∧
      st.1.lookup "version" =
        some (.scalar (((⟨[("p", Value.str "b")],
          [("result", Value.int 2), ("version", Value.str "v2")]⟩ :
            Record).fields.lookup "version").getD Value.null)) :=
  scalar_column_last_record_spec ["result", "params", "version"] ["p"]
    [(⟨[("p", Value.str "a")],
       [("result", Value.int 1), ("version", Value.str "v1")]⟩ : Record),
     (⟨[("p", Value.str "b")],
       [("result", Value.int 2), ("version", Value.str "v2")]⟩ : Record)]
    "version"
    (⟨[("p", Value.str "b")],
      [("result", Value.int 2), ("version", Value.str "v2")]⟩ : Record)
    (by decide) (by decide) (by decide) (by decide)

/-! ## C4: the result of migrate_file -/

theorem octobus_to_asv_shape (data o : MigState)
    (h : octobus_results_to_asv_results data = .ok o) :
    o.migration_marker = data.migration_marker ∧
    o.result_columns = data.result_columns ∧
    ∃ nr, o.results = some nr := by
  unfold octobus_results_to_asv_results at h
  by_cases he : data.octobus_results.isEmpty
  · rw [if_pos he] at h
    cases h
  · rw [if_neg he] at h
    rcases hm : data.octobus_results.mapM
        (fun entry => do
          let pnames ← match data.bench_param_names.lookup entry.1 with
            | none => throw (.keyError : PyError)
            | some p => pure p
          let line ← benchToAsv data.result_columns pnames entry.2
          pure (entry.1, line)) with e | nr
    · rw [hm] at h
      cases h
    · rw [hm] at h
      replace h : (Except.ok { data with results := some nr } :
          Except PyError MigState) = .ok o := h
      injection h with h
      rw [← h]
      exact ⟨rfl, rfl, nr, rfl⟩

theorem migrate_file_nonempty_pending
    (registry : List (String × List AddBenchParam)) (target : String)
    (contents out : MigState) (pendingNames : List String)
    (hne : pendingNames.isEmpty = false)
    (h : (if pendingNames.isEmpty then pure contents
         else do
          let pending ← pendingNames.mapM (fun n =>
            (match registry.lookup n with
            | some ops => pure ops
            | none => throw PyError.keyError :
              Except PyError (List AddBenchParam)))
          let migrated ← pending.foldlM
            (fun st ops => applyMigration ops st) contents
          octobus_results_to_asv_results
            { migrated with migration_marker := some target }) = .ok out) :
    out.migration_marker = some target ∧
    ∃ (pending : List (List AddBenchParam)) (migrated : MigState),
      pendingNames.mapM (fun n =>
        (match registry.lookup n with
        | some ops => pure ops
        | none => throw PyError.keyError :
          Except PyError (List AddBenchParam))) = .ok pending ∧
      pending.foldlM (fun st ops => applyMigration ops st) contents =
        .ok migrated ∧
      octobus_results_to_asv_results
        { migrated with migration_marker := some target } = .ok out := by
  rw [if_neg (by simp_all)] at h
  rcases hmap : pendingNames.mapM (fun n =>
      (match registry.lookup n with
      | some ops => pure ops
      | none => throw PyError.keyError : Except PyError (List AddBenchParam)))
      with e | pend
  · rw [hmap] at h
    cases h
  · rw [hmap] at h
    replace h : (do
        let migrated ← pend.foldlM (fun st ops => applyMigration ops st) contents
        octobus_results_to_asv_results
          { migrated with migration_marker := some target } :
        Except PyError MigState) = .ok out := h
    rcases hfold : pend.foldlM (fun st ops => applyMigration ops st) contents
        with e | migrated
    · rw [hfold] at h
      cases h
    · rw [hfold] at h
      replace h : octobus_results_to_asv_results
          { migrated with migration_marker := some target } = .ok out := h
      have hshape := octobus_to_asv_shape _ _ h
      exact ⟨by rw [hshape.1], pend, migrated, rfl, hfold, h⟩

/-- Claim C4 (corrected): a successful `migrate_file` either (at least one
migration pending) returns a state whose marker equals the resolved target
and which is exactly the column-form conversion
(`octobus_results_to_asv_results`) of the post-migration object-form state —
the state obtained by resolving the nonempty pending names in the registry
and folding `applyMigration` over the resolved operation lists, starting
from the original contents (already-marked file) or from the bootstrapped
contents marked with the initial migration (never-migrated file), with the
marker then set to the target — or, when nothing is pending, it returns the
contents untouched (for a file that already carries a marker) or merely
bootstrapped with the marker set to the initial migration (for a file with
no marker), without setting the marker to the target and without converting
back to column form. -/
theorem migrate_file_spec (catalog : List (String × List String))
    (registry : List (String × List AddBenchParam)) (target : String)
    (contents out : MigState)
    (h : migrate_file catalog registry target contents = .ok out) :
    (out.migration_marker = some target ∧
      ∃ (contents2 : MigState) (pendingNames : List String)
        (pending : List (List AddBenchParam)) (migrated : MigState),
        ((get_pending_migrations_names (registry.map (·.1)) target contents =
            .ok pendingNames ∧ contents2 = contents) ∨
         (∃ c, to_octobus_results catalog contents = .ok c ∧
            contents2 = { c with migration_marker := some INITIAL_MIGRATION } ∧
            get_pending_migrations_names (registry.map (·.1)) target
              contents2 = .ok pendingNames)) ∧
        pendingNames ≠ [] ∧
        pendingNames.mapM (fun n =>
          (match registry.lookup n with
          | some ops => pure ops
          | none => throw PyError.keyError :
            Except PyError (List AddBenchParam))) = .ok pending ∧
        pending.foldlM (fun st ops => applyMigration ops st) contents2 =
          .ok migrated ∧
        octobus_results_to_asv_results
          { migrated with migration_marker := some target } = .ok out) ∨
    (get_pending_migrations_names (registry.map (·.1)) target contents =
        .ok [] ∧ out = contents) ∨
    (∃ c, to_octobus_results catalog contents = .ok c ∧
      get_pending_migrations_names (registry.map (·.1)) target
        { c with migration_marker := some INITIAL_MIGRATION } = .ok [] ∧
      out = { c with migration_marker := some INITIAL_MIGRATION }) := by
  simp only [migrate_file] at h
  rcases hg : get_pending_migrations_names (registry.map (·.1)) target contents
      with e | p
  · rw [hg] at h
    cases e
    case notReadyForMigrations =>
      rcases hb : to_octobus_results catalog contents with e2 | c
      · rw [hb] at h
        exact (nomatch h)
      · rw [hb] at h
        replace h : (do
            let p ← get_pending_migrations_names (registry.map (·.1)) target
              { c with migration_marker := some INITIAL_MIGRATION }
            (if p.isEmpty then
              pure { c with migration_marker := some INITIAL_MIGRATION }
            else do
              let pending ← p.mapM (fun n =>
                (match registry.lookup n with
                 | some ops => pure ops
                 | none => throw PyError.keyError :
                   Except PyError (List AddBenchParam)))
              let migrated ← pending.foldlM
                (fun st ops => applyMigration ops st)
                { c with migration_marker := some INITIAL_MIGRATION }
              octobus_results_to_asv_results
                { migrated with migration_marker := some target }) :
            Except PyError MigState) = .ok out := h
        rcases hg2 : get_pending_migrations_names (registry.map (·.1)) target
            { c with migration_marker := some INITIAL_MIGRATION } with e3 | p2
        · rw [hg2] at h
          exact (nomatch h)
        · rw [hg2] at h
          replace h : (if p2.isEmpty then
              pure { c with migration_marker := some INITIAL_MIGRATION }
            else do
              let pending ← p2.mapM (fun n =>
                (match registry.lookup n with
                 | some ops => pure ops
                 | none => throw PyError.keyError :
                   Except PyError (List AddBenchParam)))
              let migrated ← pending.foldlM
                (fun st ops => applyMigration ops st)
                { c with migration_marker := some INITIAL_MIGRATION }
              octobus_results_to_asv_results
                { migrated with migration_marker := some target } :
            Except PyError MigState) = .ok out := h
          by_cases hp : p2.isEmpty
          · replace h : (pure { c with migration_marker := some INITIAL_MIGRATION } :
                Except PyError MigState) = .ok out := by
              rw [← h]
              show _ = (if p2.isEmpty then _ else _)
              rw [if_pos hp]
            injection h with h
            refine Or.inr (Or.inr ⟨c, rfl, ?_, h.symm⟩)
            rw [hg2, List.isEmpty_iff.mp hp]
          · obtain ⟨hmark, pending, migrated, hmap, hfold, hconv⟩ :=
              migrate_file_nonempty_pending registry target
                { c with migration_marker := some INITIAL_MIGRATION } out p2
                (by simp_all) h
            exact Or.inl ⟨hmark,
              { c with migration_marker := some INITIAL_MIGRATION },
              p2, pending, migrated, Or.inr ⟨c, rfl, rfl, hg2⟩,
              (fun hh => hp (by rw [hh]; rfl)), hmap, hfold, hconv⟩
    all_goals exact (nomatch h)
  · rw [hg] at h
    by_cases hp : p.isEmpty
    · replace h : (pure contents : Except PyError MigState) = .ok out := by
        rw [← h]
        show _ = (if p.isEmpty then _ else _)
        rw [if_pos hp]
      injection h with h
      refine Or.inr (Or.inl ⟨?_, h.symm⟩)
      rw [hg, List.isEmpty_iff.mp hp]
    · obtain ⟨hmark, pending, migrated, hmap, hfold, hconv⟩ :=
        migrate_file_nonempty_pending registry target contents out p
          (by simp_all) h
      exact Or.inl ⟨hmark, contents, p, pending, migrated, Or.inl ⟨hg, rfl⟩,
        (fun hh => hp (by rw [hh]; rfl)), hmap, hfold, hconv⟩

/-- Counterexample for C4 as stated: registry `{0001_initial, 0002_whatever}`
(no operations), target `0001_initial`, file marked `0002_whatever`: nothing
is pending, so `migrate_file` succeeds and returns the contents unchanged —
the returned marker is `0002_whatever`, not the resolved target. -/
theorem migrate_file_marker_counterexample :
    migrate_file [] [("0001_initial", []), ("0002_whatever", [])]
      "0001_initial"
      { results := none, result_columns := [], octobus_results := [],
        bench_param_names := [], migration_marker := some "0002_whatever" } =
    .ok { results := none, result_columns := [], octobus_results := [],
          bench_param_names := [], migration_marker := some "0002_whatever" } ∧
    some "0002_whatever" ≠ some "0001_initial" :=
  ⟨by decide, by decide⟩

/-- Witness for C4 (amended): a run with one pending migration carrying one
`AddBenchParam` operation lands in the first disjunct — the marker is set to
the target and the returned state is exactly the column-form conversion of
the state obtained by applying the resolved pending operations to the
contents. -/
theorem migrate_file_spec_witness :
    ({ results := some [("b",
        [Value.list [Value.int 5], Value.list [Value.list [Value.str "1"]]])],
       result_columns := ["result", "params"],
       octobus_results := [("b",
         [(⟨[("p", Value.str "1")],
            [("result", Value.int 5), ("version", Value.null)]⟩ : Record)])],
       bench_param_names := [("b", ["p"])],
       migration_marker := some "0002_add" } : MigState).migration_marker =
      some "0002_add" ∧
    ∃ (contents2 : MigState) (pendingNames : List String)
      (pending : List (List AddBenchParam)) (migrated : MigState),
      ((get_pending_migrations_names
          (([("0001_initial", ([] : List AddBenchParam)),
             ("0002_add", [⟨"p", ["1"], "1", fun _ => true, none, none⟩])] :
            List (String × List AddBenchParam)).map (·.1)) "0002_add"
          { results := none, result_columns := ["result", "params"],
            octobus_results := [("b",
              [(⟨[], [("result", Value.int 5)]⟩ : Record)])],
            bench_param_names := [("b", [])],
            migration_marker := some "0001_initial" } = .ok pendingNames ∧
        contents2 =
          { results := none, result_columns := ["result", "params"],
            octobus_results := [("b",
              [(⟨[], [("result", Value.int 5)]⟩ : Record)])],
            bench_param_names := [("b", [])],
            migration_marker := some "0001_initial" }) ∨
       (∃ c, to_octobus_results [("b", [])]
            { results := none, result_columns := ["result", "params"],
              octobus_results := [("b",
                [(⟨[], [("result", Value.int 5)]⟩ : Record)])],
              bench_param_names := [("b", [])],
              migration_marker := some "0001_initial" } = .ok c ∧
          contents2 = { c with migration_marker := some INITIAL_MIGRATION } ∧
          get_pending_migrations_names
            (([("0001_initial", ([] : List AddBenchParam)),
               ("0002_add", [⟨"p", ["1"], "1", fun _ => true, none, none⟩])] :
              List (String × List AddBenchParam)).map (·.1)) "0002_add"
            contents2 = .ok pendingNames)) ∧
      pendingNames ≠ [] ∧
      pendingNames.mapM (fun n =>
        (match ([("0001_initial", ([] : List AddBenchParam)),
            ("0002_add", [⟨"p", ["1"], "1", fun _ => true, none, none⟩])] :
            List (String × List AddBenchParam)).lookup n with
        | some ops => pure ops
        | none => throw PyError.keyError :
          Except PyError (List AddBenchParam))) = .ok pending ∧
      pending.foldlM (fun st ops => applyMigration ops st) contents2 =
        .ok migrated ∧
      octobus_results_to_asv_results
        { migrated with migration_marker := some "0002_add" } = .ok
        { results := some [("b",
            [Value.list [Value.int 5],
             Value.list [Value.list [Value.str "1"]]])],
          result_columns := ["result", "params"],
          octobus_results := [("b",
            [(⟨[("p", Value.str "1")],
               [("result", Value.int 5), ("version", Value.null)]⟩ : Record)])],
          bench_param_names := [("b", ["p"])],
          migration_marker := some "0002_add" } := by
  have h : migrate_file [("b", [])]
      [("0001_initial", []),
       ("0002_add", [⟨"p", ["1"], "1", fun _ => true, none, none⟩])]
      "0002_add"
      { results := none, result_columns := ["result", "params"],
        octobus_results := [("b", [(⟨[], [("result", Value.int 5)]⟩ : Record)])],
        bench_param_names := [("b", [])],
        migration_marker := some "0001_initial" } = .ok
      { results := some [("b",
          [Value.list [Value.int 5], Value.list [Value.list [Value.str "1"]]])],
        result_columns := ["result", "params"],
        octobus_results := [("b",
          [(⟨[("p", Value.str "1")],
             [("result", Value.int 5), ("version", Value.null)]⟩ : Record)])],
        bench_param_names := [("b", ["p"])],
        migration_marker := some "0002_add" } := by decide
  rcases migrate_file_spec [("b", [])]
      [("0001_initial", []),
       ("0002_add", [⟨"p", ["1"], "1", fun _ => true, none, none⟩])]
      "0002_add"
      { results := none, result_columns := ["result", "params"],
        octobus_results := [("b", [(⟨[], [("result", Value.int 5)]⟩ : Record)])],
        bench_param_names := [("b", [])],
        migration_marker := some "0001_initial" } _ h with
    hcase | hcase | hcase
  · exact hcase
  · exact absurd hcase.1 (by decide)
  · rcases hcase with ⟨c, hc, hg0, _⟩
    have h0 : to_octobus_results [("b", [])]
        { results := none, result_columns := ["result", "params"],
          octobus_results := [("b",
            [(⟨[], [("result", Value.int 5)]⟩ : Record)])],
          bench_param_names := [("b", [])],
          migration_marker := some "0001_initial" } = .ok
        { results := none, result_columns := ["result", "params"],
          octobus_results := [],
          bench_param_names := [("b", [])],
          migration_marker := some "0001_initial" } := by decide
    rw [h0] at hc
    injection hc with hh
    subst hh
    exact absurd hg0 (by decide)

/-! ## C2: the column/object round trip -/

theorem lookup_of_mem_nodup {α : Type} (d : List (String × α))
    (hnd : (d.map Prod.fst).Nodup) (p : String × α) (hp : p ∈ d) :
    d.lookup p.1 = some p.2 := by
  induction d with
  | nil => cases hp
  | cons q rest ih =>
      rcases List.mem_cons.mp hp with heq | htail
      · subst heq
        simp [List.lookup]
      · have hne : p.1 ≠ q.1 := by
          intro hEq
          have : q.1 ∈ rest.map Prod.fst := by
            rw [← hEq]
            exact List.mem_map_of_mem Prod.fst htail
          exact (List.nodup_cons.mp (by simpa using hnd)).1 this
        have hb : (p.1 == q.1) = false := beq_eq_false_iff_ne.mpr hne
        obtain ⟨k0, v0⟩ := q
        simp only [List.lookup, hb]
        exact ih (by simpa using hnd.of_cons) htail

theorem dictOfPairs_eq_self {α : Type} (ps : List (String × α))
    (hnd : (ps.map Prod.fst).Nodup) : dictOfPairs ps = ps := by
  suffices h : ∀ qs : List (String × α), (qs.map Prod.fst).Nodup →
      ∀ acc : List (String × α),
      (∀ p ∈ qs, p.1 ∉ acc.map Prod.fst) →
      qs.foldl (fun d p => dictInsert d p.1 p.2) acc = acc ++ qs by
    simpa using h ps hnd [] (by simp)
  intro qs
  induction qs with
  | nil => intro _ acc _; simp
  | cons p rest ih =>
      intro hnd acc hacc
      simp only [List.foldl_cons]
      rw [dictInsert_of_not_mem acc p.1 p.2 (hacc p (by simp))]
      have hfresh : ∀ q ∈ rest, q.1 ∉ (acc ++ [(p.1, p.2)]).map Prod.fst := by
        intro q hq
        simp only [List.map_append, List.mem_append, not_or, List.map_cons,
          List.map_nil, List.mem_cons, List.not_mem_nil, or_false]
        refine ⟨hacc q (by simp [hq]), ?_⟩
        intro hEq
        have : p.1 ∈ rest.map Prod.fst := by
          rw [← hEq]
          exact List.mem_map_of_mem Prod.fst hq
        exact (List.nodup_cons.mp (by simpa using hnd)).1 this
      rw [ih (by simpa using hnd.of_cons) (acc ++ [(p.1, p.2)]) hfresh]
      simp

theorem map_fst_zip_eq {α : Type} (ks : List String) (vs : List α)
    (h : vs.length = ks.length) : (ks.zip vs).map Prod.fst = ks := by
  induction ks generalizing vs with
  | nil => simp
  | cons k ks ih =>
      cases vs with
      | nil => simp at h
      | cons v vs =>
          simp only [List.zip_cons_cons, List.map_cons, List.cons.injEq,
            true_and]
          exact ih vs (by simpa using h)

theorem map_of_zip_pointwise (cols : List String) :
    ∀ (lines : List Value) (f : String → Value),
    lines.length = cols.length → cols.Nodup →
    (∀ p ∈ cols.zip lines, f p.1 = p.2) →
    cols.map f = lines := by
  induction cols with
  | nil =>
      intro lines f h _ _
      simp only [List.length_nil, List.length_eq_zero] at h
      simp [h]
  | cons c cols ih =>
      intro lines f h hnd hf
      cases lines with
      | nil => simp at h
      | cons v lines =>
          simp only [List.map_cons]
          refine List.cons_eq_cons.mpr ⟨hf (c, v) (by simp), ?_⟩
          exact ih lines f (by simpa using h) hnd.of_cons
            (fun p hp => hf p (by simp [hp]))

theorem enum_map_getD (ws : List Value) :
    ∀ {α : Type} (combos : List α) (n : Nat),
    ws.length = n + combos.length →
    (List.enumFrom n combos).map (fun ic => ws.getD ic.1 Value.null) =
      ws.drop n := by
  intro α combos
  induction combos with
  | nil =>
      intro n h
      simp only [List.length_nil, Nat.add_zero] at h
      simp [List.drop_of_length_le (show ws.length ≤ n by omega)]
  | cons c combos ih =>
      intro n h
      simp only [List.length_cons] at h
      have hlt : n < ws.length := by omega
      simp only [List.enumFrom_cons, List.map_cons]
      rw [ih (n + 1) (by omega)]
      rw [List.drop_eq_getElem_cons hlt]
      congr 1
      exact List.getD_eq_getElem ws Value.null hlt

theorem dictInsert_append_fresh {α : Type} (D : List (String × α))
    (T : List (String × α)) (k : String) (v : α)
    (h : k ∉ D.map Prod.fst) :
    dictInsert (D ++ T) k v = D ++ dictInsert T k v := by
  induction D with
  | nil => simp
  | cons q rest ih =>
      simp only [List.map_cons, List.mem_cons, not_or] at h
      obtain ⟨k0, v0⟩ := q
      simp only [List.cons_append, dictInsert, List.append_eq]
      rw [if_neg (fun hh => h.1 hh.symm), ih h.2]

theorem pushVec_append_fresh (D T : List (String × ColEntry)) (k : String)
    (v : Value) (h : k ∉ D.map Prod.fst) :
    pushVec (D ++ T) k v = (pushVec T k v).map (D ++ ·) := by
  induction D with
  | nil =>
      simp only [List.nil_append]
      cases pushVec T k v <;> simp [Except.map]
  | cons q rest ih =>
      simp only [List.map_cons, List.mem_cons, not_or] at h
      obtain ⟨k0, e⟩ := q
      simp only [List.cons_append, pushVec, List.append_eq]
      rw [if_neg (fun hh => h.1 hh.symm), ih h.2]
      cases pushVec T k v <;> rfl

theorem pushVec_head_vec (k : String) (vs : List Value)
    (T : List (String × ColEntry)) (v : Value) :
    pushVec ((k, ColEntry.vec vs) :: T) k v =
      .ok ((k, ColEntry.vec (vs ++ [v])) :: T) := by
  simp [pushVec]

theorem pushVec_of_not_mem (ar : List (String × ColEntry)) (k : String)
    (v : Value) (h : k ∉ ar.map Prod.fst) :
    pushVec ar k v = .ok (ar ++ [(k, ColEntry.vec [v])]) := by
  induction ar with
  | nil => rfl
  | cons q rest ih =>
      simp only [List.map_cons, List.mem_cons, not_or] at h
      obtain ⟨k0, e⟩ := q
      simp only [pushVec]
      rw [if_neg (fun hh => h.1 hh.symm), ih h.2]
      rfl

theorem scanColumns_build (pnames : List String) (r : Record) :
    ∀ (cs : List String) (ar0 : List (String × ColEntry))
      (ap0 : List (String × List Value)),
    cs.Nodup →
    (∀ c ∈ cs, c ∉ ar0.map Prod.fst) →
    (∀ c ∈ cs, c ≠ "params" → c ∉ SCALAR_COLUMNS →
      (r.fields.lookup c).isSome) →
    (∀ n ∈ pnames, (r.params.lookup n).isSome) →
    scanColumns pnames r cs (ar0, ap0) = .ok
      (ar0 ++ cs.map (fun c =>
        (c, if c = "params" then ColEntry.vec [paramsAsValue r.params]
            else if c ∈ SCALAR_COLUMNS then
              ColEntry.scalar ((r.fields.lookup c).getD Value.null)
            else ColEntry.vec [(r.fields.lookup c).getD Value.null])),
       if "params" ∈ cs then
         pnames.foldl (fun acc n =>
           addParamValue acc n ((r.params.lookup n).getD Value.null)) ap0
       else ap0) := by
  intro cs
  induction cs with
  | nil =>
      intro ar0 ap0 _ _ _ _
      simp [scanColumns]
  | cons c cs ih =>
      intro ar0 ap0 hnd hfresh hcomp hp
      have hndcs : cs.Nodup := hnd.of_cons
      have hcns : c ∉ cs := (List.nodup_cons.mp hnd).1
      have hfresh2 : ∀ entry : String × ColEntry, ∀ x ∈ cs,
          x ∉ (ar0 ++ [(c, entry.2)]).map Prod.fst := by
        intro entry x hx
        simp only [List.map_append, List.mem_append, not_or, List.map_cons,
          List.map_nil, List.mem_cons, List.not_mem_nil, or_false]
        exact ⟨hfresh x (by simp [hx]), fun hh => hcns (hh ▸ hx)⟩
      by_cases hcp : c = "params"
      · subst hcp
        unfold scanColumns
        rw [if_pos rfl, collectParams_ok r pnames ap0 hp]
        show (do
          let ar2 ← pushVec ar0 "params" (paramsAsValue r.params)
          scanColumns pnames r cs (ar2, _)) = _
        rw [pushVec_of_not_mem ar0 "params" (paramsAsValue r.params)
          (hfresh "params" (by simp))]
        show scanColumns pnames r cs
          (ar0 ++ [("params", ColEntry.vec [paramsAsValue r.params])], _) = _
        rw [ih (ar0 ++ [("params", ColEntry.vec [paramsAsValue r.params])])
          _ hndcs (hfresh2 ("params", ColEntry.vec [paramsAsValue r.params]))
          (fun x hx h1 h2 => hcomp x (by simp [hx]) h1 h2) hp]
        rw [if_neg hcns, if_pos (List.mem_cons_self _ _)]
        simp [List.append_assoc]
      · by_cases hcs2 : c ∈ SCALAR_COLUMNS
        · unfold scanColumns
          rw [if_neg hcp, if_pos hcs2]
          rw [dictInsert_of_not_mem ar0 c _ (hfresh c (by simp))]
          rw [ih (ar0 ++ [(c, ColEntry.scalar
              ((r.fields.lookup c).getD Value.null))]) ap0 hndcs
            (hfresh2 (c, ColEntry.scalar ((r.fields.lookup c).getD Value.null)))
            (fun x hx h1 h2 => hcomp x (by simp [hx]) h1 h2) hp]
          have hpne : ("params" : String) ∉ [c] := by
            simp only [List.mem_cons, List.not_mem_nil, or_false]
            exact fun hh => hcp hh.symm
          by_cases hpm : ("params" : String) ∈ cs
          · rw [if_pos hpm, if_pos (List.mem_cons_of_mem c hpm)]
            simp [List.append_assoc, hcp, hcs2]
          · rw [if_neg hpm, if_neg (by
              simp only [List.mem_cons, not_or]
              exact ⟨fun hh => hcp hh.symm, hpm⟩)]
            simp [List.append_assoc, hcp, hcs2]
        · have hsome := hcomp c (by simp) hcp hcs2
          rcases hv : r.fields.lookup c with _ | v
          · rw [hv] at hsome; cases hsome
          · unfold scanColumns
            rw [if_neg hcp, if_neg hcs2, hv]
            show (do
              let ar2 ← pushVec ar0 c v
              scanColumns pnames r cs (ar2, ap0)) = _
            rw [pushVec_of_not_mem ar0 c v (hfresh c (by simp))]
            show scanColumns pnames r cs
              (ar0 ++ [(c, ColEntry.vec [v])], ap0) = _
            rw [ih (ar0 ++ [(c, ColEntry.vec [v])]) ap0 hndcs
              (hfresh2 (c, ColEntry.vec [v]))
              (fun x hx h1 h2 => hcomp x (by simp [hx]) h1 h2) hp]
            by_cases hpm : ("params" : String) ∈ cs
            · rw [if_pos hpm, if_pos (List.mem_cons_of_mem c hpm)]
              simp [List.append_assoc, hcp, hcs2, hv]
            · rw [if_neg hpm, if_neg (by
                simp only [List.mem_cons, not_or]
                exact ⟨fun hh => hcp hh.symm, hpm⟩)]
              simp [List.append_assoc, hcp, hcs2, hv]

theorem scanColumns_update (pnames : List String) (r : Record) :
    ∀ (cs : List String) (D : List (String × ColEntry))
      (e : String → ColEntry) (ap0 : List (String × List Value)),
    cs.Nodup →
    (∀ c ∈ cs, c ∉ D.map Prod.fst) →
    (∀ c ∈ cs, c ∉ SCALAR_COLUMNS → ∃ vs, e c = ColEntry.vec vs) →
    (∀ c ∈ cs, c ≠ "params" → c ∉ SCALAR_COLUMNS →
      (r.fields.lookup c).isSome) →
    (∀ n ∈ pnames, (r.params.lookup n).isSome) →
    scanColumns pnames r cs (D ++ cs.map (fun c => (c, e c)), ap0) = .ok
      (D ++ cs.map (fun c =>
        (c, if c = "params" then
              (match e c with
               | ColEntry.vec vs =>
                   ColEntry.vec (vs ++ [paramsAsValue r.params])
               | s => s)
            else if c ∈ SCALAR_COLUMNS then
              ColEntry.scalar ((r.fields.lookup c).getD Value.null)
            else match e c with
              | ColEntry.vec vs =>
                  ColEntry.vec (vs ++ [(r.fields.lookup c).getD Value.null])
              | s => s)),
       if "params" ∈ cs then
         pnames.foldl (fun acc n =>
           addParamValue acc n ((r.params.lookup n).getD Value.null)) ap0
       else ap0) := by
  intro cs
  induction cs with
  | nil =>
      intro D e ap0 _ _ _ _ _
      simp [scanColumns]
  | cons c cs ih =>
      intro D e ap0 hnd hfresh hvec hcomp hp
      have hndcs : cs.Nodup := hnd.of_cons
      have hcns : c ∉ cs := (List.nodup_cons.mp hnd).1
      have hfreshD2 : ∀ entry : ColEntry, ∀ x ∈ cs,
          x ∉ (D ++ [(c, entry)]).map Prod.fst := by
        intro entry x hx
        simp only [List.map_append, List.mem_append, not_or, List.map_cons,
          List.map_nil, List.mem_cons, List.not_mem_nil, or_false]
        exact ⟨hfresh x (by simp [hx]), fun hh => hcns (hh ▸ hx)⟩
      have hassoc : ∀ entry : ColEntry,
          D ++ (c, entry) :: cs.map (fun x => (x, e x)) =
            (D ++ [(c, entry)]) ++ cs.map (fun x => (x, e x)) := by
        intro entry
        simp [List.append_assoc]
      by_cases hcp : c = "params"
      · subst hcp
        have hps : ("params" : String) ∉ SCALAR_COLUMNS := by decide
        rcases hvec "params" (by simp) hps with ⟨vs, hvs⟩
        unfold scanColumns
        rw [if_pos rfl, collectParams_ok r pnames ap0 hp]
        show (do
          let ar2 ← pushVec (D ++ ("params", e "params") ::
            cs.map (fun x => (x, e x))) "params" (paramsAsValue r.params)
          scanColumns pnames r cs (ar2, _)) = _
        rw [show D ++ ("params", e "params") :: cs.map (fun x => (x, e x)) =
          D ++ (("params", e "params") :: cs.map (fun x => (x, e x))) from rfl]
        rw [pushVec_append_fresh D _ "params" (paramsAsValue r.params)
          (hfresh "params" (by simp))]
        rw [hvs, pushVec_head_vec]
        show scanColumns pnames r cs
          (D ++ ("params", ColEntry.vec (vs ++ [paramsAsValue r.params])) ::
            cs.map (fun x => (x, e x)), _) = _
        rw [hassoc (ColEntry.vec (vs ++ [paramsAsValue r.params]))]
        rw [ih (D ++ [("params", ColEntry.vec (vs ++ [paramsAsValue r.params]))])
          e _ hndcs (hfreshD2 _)
          (fun x hx hs => hvec x (by simp [hx]) hs)
          (fun x hx h1 h2 => hcomp x (by simp [hx]) h1 h2) hp]
        rw [if_neg hcns, if_pos (List.mem_cons_self _ _)]
        simp [hvs, List.append_assoc]
      · by_cases hcs2 : c ∈ SCALAR_COLUMNS
        · unfold scanColumns
          rw [if_neg hcp, if_pos hcs2]
          simp only [List.map_cons]
          rw [dictInsert_append_fresh D _ c _ (hfresh c (by simp))]
          rw [show dictInsert ((c, e c) :: cs.map (fun x => (x, e x))) c
            (ColEntry.scalar ((r.fields.lookup c).getD Value.null)) =
            (c, ColEntry.scalar ((r.fields.lookup c).getD Value.null)) ::
              cs.map (fun x => (x, e x)) from by simp [dictInsert]]
          rw [hassoc (ColEntry.scalar ((r.fields.lookup c).getD Value.null))]
          rw [ih (D ++ [(c, ColEntry.scalar
              ((r.fields.lookup c).getD Value.null))]) e ap0 hndcs
            (hfreshD2 _)
            (fun x hx hs => hvec x (by simp [hx]) hs)
            (fun x hx h1 h2 => hcomp x (by simp [hx]) h1 h2) hp]
          have hpc2 : ¬("params" : String) = c := fun hh => hcp hh.symm
          simp [List.mem_cons, hpc2, hcp, hcs2, List.append_assoc]
        · have hsome := hcomp c (by simp) hcp hcs2
          rcases hvec c (by simp) hcs2 with ⟨vs, hvs⟩
          rcases hv : r.fields.lookup c with _ | v
          · rw [hv] at hsome; cases hsome
          · unfold scanColumns
            rw [if_neg hcp, if_neg hcs2, hv]
            show (do
              let ar2 ← pushVec (D ++ (c, e c) ::
                cs.map (fun x => (x, e x))) c v
              scanColumns pnames r cs (ar2, ap0)) = _
            rw [show D ++ (c, e c) :: cs.map (fun x => (x, e x)) =
              D ++ ((c, e c) :: cs.map (fun x => (x, e x))) from rfl]
            rw [pushVec_append_fresh D _ c v (hfresh c (by simp))]
            rw [hvs, pushVec_head_vec]
            show scanColumns pnames r cs
              (D ++ (c, ColEntry.vec (vs ++ [v])) ::
                cs.map (fun x => (x, e x)), ap0) = _
            rw [hassoc (ColEntry.vec (vs ++ [v]))]
            rw [ih (D ++ [(c, ColEntry.vec (vs ++ [v]))]) e ap0 hndcs
              (hfreshD2 _)
              (fun x hx hs => hvec x (by simp [hx]) hs)
              (fun x hx h1 h2 => hcomp x (by simp [hx]) h1 h2) hp]
            have hpc2 : ¬("params" : String) = c := fun hh => hcp hh.symm
            simp [List.mem_cons, hpc2, hcp, hcs2, hvs, hv, List.append_assoc]

theorem addParamValue_lookup_other (d : List (String × List Value))
    (k n : String) (v : Value) (h : n ≠ k) :
    (addParamValue d k v).lookup n = d.lookup n := by
  induction d with
  | nil => simp [addParamValue, List.lookup, beq_eq_false_iff_ne.mpr h]
  | cons p rest ih =>
      obtain ⟨k0, vs⟩ := p
      by_cases hk : k0 = k
      · subst hk
        simp [addParamValue, List.lookup, beq_eq_false_iff_ne.mpr h]
      · simp only [addParamValue, if_neg hk]
        by_cases hn : n = k0
        · subst hn
          simp [List.lookup]
        · simp [List.lookup, beq_eq_false_iff_ne.mpr hn, ih]

theorem addParamValue_of_not_mem (d : List (String × List Value))
    (k : String) (v : Value) (h : k ∉ d.map Prod.fst) :
    addParamValue d k v = d ++ [(k, [v])] := by
  induction d with
  | nil => simp [addParamValue]
  | cons p rest ih =>
      simp only [List.map_cons, List.mem_cons, not_or] at h
      obtain ⟨k0, vs⟩ := p
      simp only [addParamValue]
      rw [if_neg (fun hh => h.1 hh.symm)]
      simp [ih h.2]

theorem addParamValue_mem_noop (d : List (String × List Value))
    (k : String) (v : Value) (l : List Value)
    (hl : d.lookup k = some l) (hv : v ∈ l) : addParamValue d k v = d := by
  induction d with
  | nil => simp [List.lookup] at hl
  | cons p rest ih =>
      obtain ⟨k0, vs⟩ := p
      by_cases hk : k0 = k
      · subst hk
        simp only [List.lookup, beq_self_eq_true] at hl
        injection hl with hl
        subst hl
        simp [addParamValue, hv]
      · have hb : (k == k0) = false := beq_eq_false_iff_ne.mpr (fun hh => hk hh.symm)
        simp only [List.lookup, hb] at hl
        simp [addParamValue, hk, ih hl]

theorem addParamValue_append_fresh (P B : List (String × List Value))
    (k : String) (v : Value) (h : k ∉ P.map Prod.fst) :
    addParamValue (P ++ B) k v = P ++ addParamValue B k v := by
  induction P with
  | nil => simp
  | cons p rest ih =>
      simp only [List.map_cons, List.mem_cons, not_or] at h
      obtain ⟨k0, vs⟩ := p
      simp only [List.cons_append, addParamValue, List.append_eq]
      rw [if_neg (fun hh => h.1 hh.symm), ih h.2]

theorem foldl_addParamValue_lookup_other (pairs : List (String × Value))
    (p : String) (h : ∀ q ∈ pairs, q.1 ≠ p) :
    ∀ A : List (String × List Value),
    (pairs.foldl (fun acc q => addParamValue acc q.1 q.2) A).lookup p =
      A.lookup p := by
  induction pairs with
  | nil => intro A; rfl
  | cons q rest ih =>
      intro A
      simp only [List.foldl_cons]
      rw [ih (fun x hx => h x (by simp [hx]))]
      exact addParamValue_lookup_other A q.1 p q.2 (fun hh => h q (by simp) hh.symm)

theorem foldl_addParamValue_frame (pairs : List (String × Value))
    (P : List (String × List Value)) (h : ∀ q ∈ pairs, q.1 ∉ P.map Prod.fst) :
    ∀ B : List (String × List Value),
    pairs.foldl (fun acc q => addParamValue acc q.1 q.2) (P ++ B) =
      P ++ pairs.foldl (fun acc q => addParamValue acc q.1 q.2) B := by
  induction pairs with
  | nil => intro B; rfl
  | cons q rest ih =>
      intro B
      simp only [List.foldl_cons]
      rw [addParamValue_append_fresh P B q.1 q.2 (h q (by simp))]
      exact ih (fun x hx => h x (by simp [hx])) (addParamValue B q.1 q.2)

theorem foldl_addParamValue_saturated (pairs : List (String × Value))
    (A : List (String × List Value))
    (h : ∀ q ∈ pairs, ∃ l, A.lookup q.1 = some l ∧ q.2 ∈ l) :
    pairs.foldl (fun acc q => addParamValue acc q.1 q.2) A = A := by
  induction pairs with
  | nil => rfl
  | cons q rest ih =>
      obtain ⟨l, hl, hv⟩ := h q (by simp)
      simp only [List.foldl_cons, addParamValue_mem_noop A q.1 q.2 l hl hv]
      exact ih (fun x hx => h x (by simp [hx]))

theorem foldl_fixed_point {α β : Type} (f : α → β → α) (a : α) (l : List β)
    (h : ∀ b ∈ l, f a b = a) : l.foldl f a = a := by
  induction l with
  | nil => rfl
  | cons b rest ih =>
      simp only [List.foldl_cons, h b (by simp)]
      exact ih (fun x hx => h x (by simp [hx]))

theorem mem_cartesianProduct {vss : List (List Value)} {combo : List Value}
    (h : combo ∈ cartesianProduct vss) : List.Forall₂ (· ∈ ·) combo vss := by
  induction vss generalizing combo with
  | nil =>
      simp only [cartesianProduct, List.mem_singleton] at h
      subst h
      exact List.Forall₂.nil
  | cons l rest ih =>
      simp only [cartesianProduct, List.mem_flatMap, List.mem_map] at h
      obtain ⟨v, hv, c, hc, rfl⟩ := h
      exact List.Forall₂.cons hv (ih hc)

theorem cartesianProduct_ne_nil (vss : List (List Value))
    (h : ∀ l ∈ vss, l ≠ []) : cartesianProduct vss ≠ [] := by
  induction vss with
  | nil => simp [cartesianProduct]
  | cons l rest ih =>
      have hl := h l (by simp)
      cases l with
      | nil => exact absurd rfl hl
      | cons x xs =>
          have hrest := ih (fun y hy => h y (by simp [hy]))
          simp only [cartesianProduct, List.flatMap_cons, ne_eq,
            List.append_eq_nil, not_and]
          intro hmap
          rw [List.map_eq_nil_iff] at hmap
          exact absurd hmap hrest

theorem lookup_zip_mem (ps : List String) (combo : List Value)
    (vss : List (List Value)) (hnd : ps.Nodup)
    (hf : List.Forall₂ (· ∈ ·) combo vss) :
    ∀ q ∈ ps.zip combo, ∃ l, (ps.zip vss).lookup q.1 = some l ∧ q.2 ∈ l := by
  induction hf generalizing ps with
  | nil => intro q hq; simp at hq
  | cons hv htail ih =>
      intro q hq
      cases ps with
      | nil => simp at hq
      | cons p ps' =>
          simp only [List.zip_cons_cons, List.mem_cons] at hq
          rcases hq with rfl | hq
          · exact ⟨_, by simp [List.lookup], hv⟩
          · have hq1 : q.1 ∈ ps' := by
              rcases List.of_mem_zip hq with ⟨h1, _⟩
              exact h1
            have hne : q.1 ≠ p := by
              intro hh
              exact (List.nodup_cons.mp hnd).1 (hh ▸ hq1)
            obtain ⟨l, hl, hm⟩ := ih ps' hnd.of_cons q hq
            refine ⟨l, ?_, hm⟩
            simp only [List.zip_cons_cons, List.lookup,
              beq_eq_false_iff_ne.mpr hne]
            exact hl

theorem apRun_present (ps : List String) (p : String) (v : Value)
    (hp : p ∉ ps) (combos : List (List Value)) :
    ∀ (A : List (String × List Value)) (l : List Value),
    A.lookup p = some l → v ∈ l →
    combos.foldl (fun ap combo =>
      (ps.zip combo).foldl (fun acc q => addParamValue acc q.1 q.2)
        (addParamValue ap p v)) A =
    combos.foldl (fun ap combo =>
      (ps.zip combo).foldl (fun acc q => addParamValue acc q.1 q.2) ap) A := by
  induction combos with
  | nil => intro A l _ _; rfl
  | cons c cc ih =>
      intro A l hl hv
      simp only [List.foldl_cons]
      rw [addParamValue_mem_noop A p v l hl hv]
      have hkeys : ∀ q ∈ ps.zip c, q.1 ≠ p := fun q hq hh =>
        hp (hh ▸ (List.of_mem_zip hq).1)
      exact ih _ l (by
        rw [foldl_addParamValue_lookup_other _ p hkeys]
        exact hl) hv

theorem apRun_frame (ps : List String) (combos : List (List Value))
    (P : List (String × List Value)) (h : ∀ n ∈ ps, n ∉ P.map Prod.fst) :
    ∀ B : List (String × List Value),
    combos.foldl (fun ap combo =>
        (ps.zip combo).foldl (fun acc q => addParamValue acc q.1 q.2) ap)
      (P ++ B) =
    P ++ combos.foldl (fun ap combo =>
        (ps.zip combo).foldl (fun acc q => addParamValue acc q.1 q.2) ap) B := by
  induction combos with
  | nil => intro B; rfl
  | cons c cc ih =>
      intro B
      simp only [List.foldl_cons]
      rw [foldl_addParamValue_frame _ P (fun q hq => h q.1 (List.of_mem_zip hq).1)]
      exact ih _

theorem apRun_saturated (ps : List String) (combos : List (List Value))
    (A : List (String × List Value))
    (h : ∀ combo ∈ combos, ∀ q ∈ ps.zip combo,
      ∃ l, A.lookup q.1 = some l ∧ q.2 ∈ l) :
    combos.foldl (fun ap combo =>
      (ps.zip combo).foldl (fun acc q => addParamValue acc q.1 q.2) ap) A = A := by
  induction combos with
  | nil => rfl
  | cons c cc ih =>
      simp only [List.foldl_cons,
        foldl_addParamValue_saturated _ A (h c (by simp))]
      exact ih (fun c2 h2 => h c2 (by simp [h2]))

theorem cartesian_fold_params (vss : List (List Value)) :
    ∀ pnames : List String, pnames.Nodup → vss.length = pnames.length →
    (∀ l ∈ vss, l ≠ [] ∧ l.Nodup) →
    (cartesianProduct vss).foldl
      (fun ap combo => (pnames.zip combo).foldl
        (fun acc q => addParamValue acc q.1 q.2) ap) [] = pnames.zip vss := by
  induction vss with
  | nil =>
      intro pnames _ hlen _
      have hp : pnames = [] := by
        cases pnames with
        | nil => rfl
        | cons a b => simp at hlen
      subst hp
      rfl
  | cons vs vss ih =>
      intro pnames hnd hlen hvv
      cases pnames with
      | nil => simp at hlen
      | cons p ps =>
          have hp : p ∉ ps := (List.nodup_cons.mp hnd).1
          have hndps : ps.Nodup := hnd.of_cons
          have hlen' : vss.length = ps.length := by simpa using hlen
          have hvs := hvv vs (by simp)
          have hvss : ∀ l ∈ vss, l ≠ [] ∧ l.Nodup := fun l hl => hvv l (by simp [hl])
          have hCP : cartesianProduct vss ≠ [] :=
            cartesianProduct_ne_nil vss (fun l hl => (hvss l hl).1)
          have ihps := ih ps hndps hlen' hvss
          have haux : ∀ (ws : List Value), ws.Nodup → ∀ l : List Value,
              (∀ w ∈ ws, w ∉ l) →
              (ws.flatMap (fun v =>
                  (cartesianProduct vss).map (fun c => v :: c))).foldl
                (fun ap combo => ((p :: ps).zip combo).foldl
                  (fun acc q => addParamValue acc q.1 q.2) ap)
                ((p, l) :: ps.zip vss) =
              (p, l ++ ws) :: ps.zip vss := by
            intro ws
            induction ws with
            | nil => intro _ l _; simp
            | cons w ws2 ihw =>
                intro hndw l hwl
                simp only [List.flatMap_cons, List.foldl_append]
                have hblock : ((cartesianProduct vss).map (fun c => w :: c)).foldl
                    (fun ap combo => ((p :: ps).zip combo).foldl
                      (fun acc q => addParamValue acc q.1 q.2) ap)
                    ((p, l) :: ps.zip vss) =
                    (p, l ++ [w]) :: ps.zip vss := by
                  rw [List.foldl_map]
                  show (cartesianProduct vss).foldl
                    (fun ap c => (ps.zip c).foldl
                      (fun acc q => addParamValue acc q.1 q.2)
                      (addParamValue ap p w))
                    ((p, l) :: ps.zip vss) = _
                  have hsat : ∀ combo ∈ cartesianProduct vss, ∀ q ∈ ps.zip combo,
                      ∃ ll, ((p, l ++ [w]) :: ps.zip vss).lookup q.1 = some ll ∧
                        q.2 ∈ ll := by
                    intro combo hcm q hq
                    have hq1 : q.1 ∈ ps := (List.of_mem_zip hq).1
                    have hne : q.1 ≠ p := fun hh => hp (hh ▸ hq1)
                    obtain ⟨ll, hll, hm⟩ := lookup_zip_mem ps combo vss hndps
                      (mem_cartesianProduct hcm) q hq
                    refine ⟨ll, ?_, hm⟩
                    simp only [List.lookup, beq_eq_false_iff_ne.mpr hne]
                    exact hll
                  rcases hc : cartesianProduct vss with _ | ⟨c0, cc⟩
                  · exact absurd hc hCP
                  · simp only [List.foldl_cons]
                    have hstart : addParamValue ((p, l) :: ps.zip vss) p w =
                        (p, l ++ [w]) :: ps.zip vss := by
                      simp [addParamValue, hwl w (by simp)]
                    rw [hstart]
                    rw [foldl_addParamValue_saturated (ps.zip c0) _
                      (hsat c0 (by rw [hc]; simp))]
                    rw [apRun_present ps p w hp cc _ (l ++ [w])
                      (by simp [List.lookup]) (by simp)]
                    exact apRun_saturated ps cc _
                      (fun c2 h2 => hsat c2 (by rw [hc]; simp [h2]))
                rw [hblock]
                rw [ihw hndw.of_cons (l ++ [w]) (fun w2 h2 => by
                  simp only [List.mem_append, List.mem_singleton, not_or]
                  exact ⟨hwl w2 (by simp [h2]),
                    fun hh => (List.nodup_cons.mp hndw).1 (hh ▸ h2)⟩)]
                simp
          rcases hvs with ⟨hvsne, hvsnd⟩
          cases vs with
          | nil => exact absurd rfl hvsne
          | cons v0 ws =>
              have hA1 : ((cartesianProduct vss).map (fun c => v0 :: c)).foldl
                  (fun ap combo => ((p :: ps).zip combo).foldl
                    (fun acc q => addParamValue acc q.1 q.2) ap) [] =
                  (p, [v0]) :: ps.zip vss := by
                rw [List.foldl_map]
                show (cartesianProduct vss).foldl
                  (fun ap c => (ps.zip c).foldl
                    (fun acc q => addParamValue acc q.1 q.2)
                    (addParamValue ap p v0)) [] = _
                rcases hc : cartesianProduct vss with _ | ⟨c0, cc⟩
                · exact absurd hc hCP
                · simp only [List.foldl_cons]
                  rw [show addParamValue ([] : List (String × List Value)) p v0 =
                    [(p, [v0])] from rfl]
                  have hkeys0 : ∀ q ∈ ps.zip c0, q.1 ∉
                      ([(p, [v0])] : List (String × List Value)).map Prod.fst := by
                    intro q hq
                    simp only [List.map_cons, List.map_nil, List.mem_singleton]
                    exact fun hh => hp (hh ▸ (List.of_mem_zip hq).1)
                  have hA' : ((ps.zip c0).foldl
                      (fun acc q => addParamValue acc q.1 q.2)
                      [(p, [v0])]).lookup p = some [v0] := by
                    rw [foldl_addParamValue_lookup_other _ p
                      (fun q hq hh => hp (hh ▸ (List.of_mem_zip hq).1))]
                    simp [List.lookup]
                  rw [apRun_present ps p v0 hp cc _ [v0] hA' (by simp)]
                  have h1 : (ps.zip c0).foldl
                      (fun acc q => addParamValue acc q.1 q.2) [(p, [v0])] =
                      [(p, [v0])] ++ (ps.zip c0).foldl
                        (fun acc q => addParamValue acc q.1 q.2) [] := by
                    have h0 := foldl_addParamValue_frame (ps.zip c0)
                      [(p, [v0])] hkeys0 []
                    simpa using h0
                  rw [h1, apRun_frame ps cc [(p, [v0])] (fun n hn => by
                    simp only [List.map_cons, List.map_nil, List.mem_singleton]
                    exact fun hh => hp (hh ▸ hn))]
                  have h2 : cc.foldl (fun ap combo =>
                      (ps.zip combo).foldl
                        (fun acc q => addParamValue acc q.1 q.2) ap)
                      ((ps.zip c0).foldl
                        (fun acc q => addParamValue acc q.1 q.2) []) =
                      ps.zip vss := by
                    have h3 := ihps
                    rw [hc] at h3
                    simpa [List.foldl_cons] using h3
                  rw [h2]
                  rfl
              simp only [cartesianProduct, List.flatMap_cons, List.foldl_append]
              rw [hA1]
              rw [haux ws hvsnd.of_cons [v0] (fun w hw => by
                simp only [List.mem_singleton]
                exact fun hh => (List.nodup_cons.mp hvsnd).1 (hh ▸ hw))]
              simp

theorem scanColumns_iterate (cols pnames : List String) (hnd : cols.Nodup) :
    ∀ (records : List Record) (e : String → ColEntry)
      (ap0 : List (String × List Value)),
    (∀ c ∈ cols, c ∉ SCALAR_COLUMNS → ∃ vs, e c = ColEntry.vec vs) →
    (∀ r ∈ records, ∀ c ∈ cols, c ≠ "params" → c ∉ SCALAR_COLUMNS →
      (r.fields.lookup c).isSome) →
    (∀ r ∈ records, ∀ n ∈ pnames, (r.params.lookup n).isSome) →
    records.foldlM (fun st r => scanColumns pnames r cols st)
        (cols.map (fun c => (c, e c)), ap0) = .ok
      (cols.map (fun c => (c, records.foldl (fun acc r =>
          if c = "params" then
            match acc with
            | ColEntry.vec vs => ColEntry.vec (vs ++ [paramsAsValue r.params])
            | s => s
          else if c ∈ SCALAR_COLUMNS then
            ColEntry.scalar ((r.fields.lookup c).getD Value.null)
          else match acc with
            | ColEntry.vec vs =>
                ColEntry.vec (vs ++ [(r.fields.lookup c).getD Value.null])
            | s => s) (e c))),
       if "params" ∈ cols then
         records.foldl (fun ap r => pnames.foldl (fun acc n =>
           addParamValue acc n ((r.params.lookup n).getD Value.null)) ap) ap0
       else ap0) := by
  intro records
  induction records with
  | nil =>
      intro e ap0 _ _ _
      simp only [List.foldlM_nil, List.foldl_nil, ite_self]
      rfl
  | cons r rest ihr =>
      intro e ap0 hvec hcompl hpar
      have step := scanColumns_update pnames r cols [] e ap0 hnd
        (by simp) hvec
        (fun c hc h1 h2 => hcompl r (by simp) c hc h1 h2)
        (fun n hn => hpar r (by simp) n hn)
      simp only [List.nil_append] at step
      show (do
        let st ← scanColumns pnames r cols (cols.map (fun c => (c, e c)), ap0)
        rest.foldlM (fun st r => scanColumns pnames r cols st) st) = _
      rw [step]
      show rest.foldlM (fun st r => scanColumns pnames r cols st)
        (cols.map (fun c => (c,
          if c = "params" then
            (match e c with
             | ColEntry.vec vs => ColEntry.vec (vs ++ [paramsAsValue r.params])
             | s => s)
          else if c ∈ SCALAR_COLUMNS then
            ColEntry.scalar ((r.fields.lookup c).getD Value.null)
          else match e c with
            | ColEntry.vec vs =>
                ColEntry.vec (vs ++ [(r.fields.lookup c).getD Value.null])
            | s => s)),
         if "params" ∈ cols then
           pnames.foldl (fun acc n =>
             addParamValue acc n ((r.params.lookup n).getD Value.null)) ap0
         else ap0) = _
      rw [ihr (fun c =>
          if c = "params" then
            (match e c with
             | ColEntry.vec vs => ColEntry.vec (vs ++ [paramsAsValue r.params])
             | s => s)
          else if c ∈ SCALAR_COLUMNS then
            ColEntry.scalar ((r.fields.lookup c).getD Value.null)
          else match e c with
            | ColEntry.vec vs =>
                ColEntry.vec (vs ++ [(r.fields.lookup c).getD Value.null])
            | s => s) _
        (by
          intro c hc hcs
          rcases hvec c hc hcs with ⟨vs, hvs⟩
          by_cases hcp : c = "params"
          · subst hcp
            exact ⟨vs ++ [paramsAsValue r.params], by simp [hvs, hcs]⟩
          · exact ⟨vs ++ [(r.fields.lookup c).getD Value.null],
              by simp [hvs, hcp, hcs]⟩)
        (fun r2 h2 c hc h1 h2b => hcompl r2 (by simp [h2]) c hc h1 h2b)
        (fun r2 h2 n hn => hpar r2 (by simp [h2]) n hn)]
      by_cases hpm : ("params" : String) ∈ cols
      · simp [hpm, List.foldl_cons]
      · simp [hpm, List.foldl_cons]

theorem benchScan_closed (cols pnames : List String) (hnd : cols.Nodup)
    (r0 : Record) (rest : List Record)
    (hcompl : ∀ r ∈ r0 :: rest, ∀ c ∈ cols, c ≠ "params" →
      c ∉ SCALAR_COLUMNS → (r.fields.lookup c).isSome)
    (hpar : ∀ r ∈ r0 :: rest, ∀ n ∈ pnames, (r.params.lookup n).isSome) :
    benchScan cols pnames (r0 :: rest) = .ok
      (cols.map (fun c => (c, rest.foldl (fun acc r =>
          if c = "params" then
            match acc with
            | ColEntry.vec vs => ColEntry.vec (vs ++ [paramsAsValue r.params])
            | s => s
          else if c ∈ SCALAR_COLUMNS then
            ColEntry.scalar ((r.fields.lookup c).getD Value.null)
          else match acc with
            | ColEntry.vec vs =>
                ColEntry.vec (vs ++ [(r.fields.lookup c).getD Value.null])
            | s => s)
        (if c = "params" then ColEntry.vec [paramsAsValue r0.params]
         else if c ∈ SCALAR_COLUMNS then
           ColEntry.scalar ((r0.fields.lookup c).getD Value.null)
         else ColEntry.vec [(r0.fields.lookup c).getD Value.null]))),
       if "params" ∈ cols then
         (r0 :: rest).foldl (fun ap r => pnames.foldl (fun acc n =>
           addParamValue acc n ((r.params.lookup n).getD Value.null)) ap) []
       else []) := by
  have hbuild := scanColumns_build pnames r0 cols [] [] hnd (by simp)
    (fun c hc h1 h2 => hcompl r0 (by simp) c hc h1 h2)
    (fun n hn => hpar r0 (by simp) n hn)
  simp only [List.nil_append] at hbuild
  show (do
    let st ← scanColumns pnames r0 cols ([], [])
    rest.foldlM (fun st r => scanColumns pnames r cols st) st) = _
  rw [hbuild]
  show rest.foldlM (fun st r => scanColumns pnames r cols st)
    (cols.map (fun c => (c,
      if c = "params" then ColEntry.vec [paramsAsValue r0.params]
      else if c ∈ SCALAR_COLUMNS then
        ColEntry.scalar ((r0.fields.lookup c).getD Value.null)
      else ColEntry.vec [(r0.fields.lookup c).getD Value.null])),
     if "params" ∈ cols then
       pnames.foldl (fun acc n =>
         addParamValue acc n ((r0.params.lookup n).getD Value.null)) []
     else []) = _
  rw [scanColumns_iterate cols pnames hnd rest
    (fun c => if c = "params" then ColEntry.vec [paramsAsValue r0.params]
      else if c ∈ SCALAR_COLUMNS then
        ColEntry.scalar ((r0.fields.lookup c).getD Value.null)
      else ColEntry.vec [(r0.fields.lookup c).getD Value.null]) _
    (by
      intro c hc hcs
      by_cases hcp : c = "params"
      · subst hcp
        exact ⟨[paramsAsValue r0.params], by simp⟩
      · exact ⟨[(r0.fields.lookup c).getD Value.null], by simp [hcp, hcs]⟩)
    (fun r2 h2 c hc h1 h2b => hcompl r2 (by simp [h2]) c hc h1 h2b)
    (fun r2 h2 n hn => hpar r2 (by simp [h2]) n hn)]
  by_cases hpm : ("params" : String) ∈ cols
  · simp [hpm, List.foldl_cons]
  · simp [hpm]

theorem zip_self_map {α : Type} (f : String → α) (cols : List String) :
    cols.zip (cols.map f) = cols.map (fun c => (c, f c)) := by
  induction cols with
  | nil => rfl
  | cons c cs ih => simp [ih]

theorem zip_map_right {α β : Type} (g : α → β) (ks : List String) :
    ∀ vs : List α, ks.zip (vs.map g) = (ks.zip vs).map (fun q => (q.1, g q.2)) := by
  induction ks with
  | nil => intro vs; rfl
  | cons k ks ih =>
      intro vs
      cases vs with
      | nil => rfl
      | cons v vs => simp [ih]

theorem map_snd_zip_eq {α : Type} (ks : List String) :
    ∀ vs : List α, vs.length = ks.length →
    (ks.zip vs).map (fun q => q.2) = vs := by
  induction ks with
  | nil =>
      intro vs h
      simp only [List.length_nil, List.length_eq_zero] at h
      simp [h]
  | cons k ks ih =>
      intro vs h
      cases vs with
      | nil => simp at h
      | cons v vs => simp [ih vs (by simpa using h)]

theorem lookup_map_self {α : Type} (cols : List String) (f : String → α)
    (hnd : cols.Nodup) (c : String) (hc : c ∈ cols) :
    (cols.map (fun x => (x, f x))).lookup c = some (f c) := by
  have hkeys : (cols.map (fun x => (x, f x))).map Prod.fst = cols := by
    simp [Function.comp_def]
  exact lookup_of_mem_nodup _ (by rw [hkeys]; exact hnd) (c, f c)
    (List.mem_map_of_mem _ hc)

theorem mapM_loop_value_list (l : List (String × List Value)) :
    ∀ acc : List (String × List Value),
    List.mapM.loop (fun p =>
      match p.2 with
      | Value.list vs => pure (p.1, vs)
      | _ => throw (PyError.typeError : PyError))
      (l.map (fun q => (q.1, Value.list q.2))) acc =
    (.ok (acc.reverse ++ l) : Except PyError (List (String × List Value))) := by
  induction l with
  | nil =>
      intro acc
      simp only [List.map_nil, List.mapM.loop, List.append_nil]
      rfl
  | cons q rest ih =>
      intro acc
      simp only [List.map_cons, List.mapM.loop]
      show List.mapM.loop _ (rest.map (fun q => (q.1, Value.list q.2)))
        (q :: acc) = _
      rw [ih (q :: acc)]
      simp

theorem mapM_value_list (l : List (String × List Value)) :
    (l.map (fun q => (q.1, Value.list q.2))).mapM (fun p =>
      match p.2 with
      | Value.list vs => pure (p.1, vs)
      | _ => throw (PyError.typeError : PyError)) =
    (.ok l : Except PyError (List (String × List Value))) := by
  show List.mapM.loop _ _ [] = _
  rw [mapM_loop_value_list l []]
  rfl

theorem enumFrom_map {α β : Type} (f : α → β) (l : List α) :
    ∀ n : Nat, List.enumFrom n (l.map f) =
      (List.enumFrom n l).map (fun ic => (ic.1, f ic.2)) := by
  induction l with
  | nil => intro n; rfl
  | cons x xs ih => intro n; simp [List.enumFrom_cons, ih]

theorem mem_of_mem_enumFrom {α : Type} (l : List α) :
    ∀ (n : Nat) (p : Nat × α), p ∈ List.enumFrom n l → p.2 ∈ l := by
  induction l with
  | nil => intro n p hp; simp at hp
  | cons x xs ih =>
      intro n p hp
      simp only [List.enumFrom_cons, List.mem_cons] at hp
      rcases hp with rfl | hp
      · simp
      · exact List.mem_cons_of_mem x (ih (n + 1) p hp)

theorem enumFrom_foldl_params (pnames : List String) (l : List (List Value)) :
    ∀ (n : Nat) (b : List (String × List Value)),
    (List.enumFrom n l).foldl (fun ap ic => (pnames.zip ic.2).foldl
      (fun acc q => addParamValue acc q.1 q.2) ap) b =
    l.foldl (fun ap combo => (pnames.zip combo).foldl
      (fun acc q => addParamValue acc q.1 q.2) ap) b := by
  induction l with
  | nil => intro n b; rfl
  | cons x xs ih =>
      intro n b
      simp only [List.enumFrom_cons, List.foldl_cons]
      exact ih (n + 1) _

theorem record_fields_closed (cols : List String) (f : String → Value)
    (i : Nat) (hnd : cols.Nodup) :
    cols.foldl (fun fs field =>
      if field = "params" then fs
      else match (cols.map (fun c => (c, f c))).lookup field with
        | none => fs
        | some (Value.list vs) => dictInsert fs field (vs.getD i Value.null)
        | some v => dictInsert fs field v) [] =
    (cols.filter (fun c => decide (c ≠ "params"))).map
      (fun c => (c, match f c with
        | Value.list ws => ws.getD i Value.null
        | v => v)) := by
  suffices h : ∀ cs : List String, cs.Nodup → (∀ c ∈ cs, c ∈ cols) →
      ∀ acc : List (String × Value), (∀ c ∈ cs, c ∉ acc.map Prod.fst) →
      cs.foldl (fun fs field =>
        if field = "params" then fs
        else match (cols.map (fun c => (c, f c))).lookup field with
          | none => fs
          | some (Value.list vs) => dictInsert fs field (vs.getD i Value.null)
          | some v => dictInsert fs field v) acc =
      acc ++ (cs.filter (fun c => decide (c ≠ "params"))).map
        (fun c => (c, match f c with
          | Value.list ws => ws.getD i Value.null
          | v => v)) by
    simpa using h cols hnd (fun c hc => hc) [] (by simp)
  intro cs
  induction cs with
  | nil => intro _ _ acc _; simp
  | cons c rest ih =>
      intro hndc hsub acc hfresh
      have hlook : (cols.map (fun c => (c, f c))).lookup c = some (f c) :=
        lookup_map_self cols f hnd c (hsub c (by simp))
      simp only [List.foldl_cons]
      by_cases hcp : c = "params"
      · subst hcp
        rw [if_pos rfl]
        rw [ih hndc.of_cons (fun x hx => hsub x (by simp [hx])) acc
          (fun x hx => hfresh x (by simp [hx]))]
        simp
      · rw [if_neg hcp, hlook]
        rcases hfc : f c with _ | b | n | s | ws
        all_goals
          simp only [hfc]
          rw [dictInsert_of_not_mem acc c _ (hfresh c (by simp))]
          rw [ih hndc.of_cons (fun x hx => hsub x (by simp [hx])) _
            (fun x hx => by
              simp only [List.map_append, List.mem_append, not_or, List.map_cons,
                List.map_nil, List.mem_singleton]
              exact ⟨hfresh x (by simp [hx]), fun hh =>
                (List.nodup_cons.mp hndc).1 (hh ▸ hx)⟩)]
          simp [hcp, hfc, List.append_assoc]

theorem toOctobusStep_closed (catalog : List (String × List String))
    (cols : List String) (bpn : List (String × List String))
    (octo : List (String × List Record)) (bname : String)
    (pnames : List String) (vss : List (List Value)) (f : String → Value)
    (hcat : catalog.lookup bname = some pnames)
    (hndc : cols.Nodup) (hndp : pnames.Nodup)
    (hlen : vss.length = pnames.length)
    (hfp : f "params" = Value.list (vss.map Value.list))
    (hpm : "params" ∈ cols) :
    toOctobusStep catalog cols (bpn, octo) (bname, cols.map f) = .ok
      (dictInsert bpn bname pnames, dictExtend octo bname
        ((cartesianProduct vss).enum.map (fun ic =>
          ({ params := pnames.zip ic.2,
             fields := (cols.filter (fun c => decide (c ≠ "params"))).map
               (fun c => (c, match f c with
                 | Value.list ws => ws.getD ic.1 Value.null
                 | v => v)) } : Record)))) := by
  have hkeys1 : ((cols.map (fun c => (c, f c))).map Prod.fst).Nodup := by
    have h1 : (cols.map (fun c => (c, f c))).map Prod.fst = cols := by
      simp [Function.comp_def]
    rw [h1]
    exact hndc
  have hkeys2 : (((pnames.zip vss).map
      (fun q => (q.1, Value.list q.2))).map Prod.fst).Nodup := by
    rw [List.map_map]
    have h2 : ((pnames.zip vss).map (Prod.fst ∘ fun q => (q.1, Value.list q.2)))
        = pnames := map_fst_zip_eq pnames vss hlen
    rw [h2]
    exact hndp
  simp only [toOctobusStep, hcat]
  rw [List.length_map, if_neg (Nat.lt_irrefl cols.length)]
  rw [zip_self_map f cols, dictOfPairs_eq_self _ hkeys1]
  rw [lookup_map_self cols f hndc "params" hpm, hfp]
  have hlt : ¬ pnames.length < (vss.map Value.list).length := by
    rw [List.length_map, hlen]
    exact Nat.lt_irrefl _
  simp only [pure_bind]
  rw [if_neg hlt]
  rw [zip_map_right Value.list pnames vss, dictOfPairs_eq_self _ hkeys2]
  rw [mapM_value_list (pnames.zip vss)]
  show Except.ok (dictInsert bpn bname pnames, dictExtend octo bname
      ((((cartesianProduct ((pnames.zip vss).map (·.2))).map
        (fun combo => dictOfPairs ((((pnames.zip vss).map (·.1))).zip combo))).enum).map
        (fun ic =>
          ({ params := ic.2,
             fields := cols.foldl (fun fs field =>
               if field = "params" then fs
               else match (cols.map (fun c => (c, f c))).lookup field with
                 | none => fs
                 | some (Value.list vs) =>
                     dictInsert fs field (vs.getD ic.1 Value.null)
                 | some v => dictInsert fs field v) [] } : Record)))) = _
  rw [map_snd_zip_eq pnames vss hlen, map_fst_zip_eq pnames vss hlen]
  rw [List.map_congr_left (fun combo hcm =>
    dictOfPairs_eq_self (pnames.zip combo) (by
      have hcl : combo.length = pnames.length := by
        rw [(mem_cartesianProduct hcm).length_eq]
        exact hlen
      rw [map_fst_zip_eq pnames combo hcl]
      exact hndp))]
  rw [show List.enum ((cartesianProduct vss).map (fun combo => pnames.zip combo)) =
    List.enumFrom 0 ((cartesianProduct vss).map (fun combo => pnames.zip combo))
    from rfl]
  rw [enumFrom_map (fun combo => pnames.zip combo) (cartesianProduct vss) 0]
  rw [List.map_map]
  rw [List.map_congr_left (fun (ic : Nat × List Value)
      (hic : ic ∈ List.enumFrom 0 (cartesianProduct vss)) => by
    show ({ params := pnames.zip ic.2,
            fields := cols.foldl (fun fs field =>
              if field = "params" then fs
              else match (cols.map (fun c => (c, f c))).lookup field with
                | none => fs
                | some (Value.list vs) =>
                    dictInsert fs field (vs.getD ic.1 Value.null)
                | some v => dictInsert fs field v) [] } : Record) =
      ({ params := pnames.zip ic.2,
         fields := (cols.filter (fun c => decide (c ≠ "params"))).map
           (fun c => (c, match f c with
             | Value.list ws => ws.getD ic.1 Value.null
             | v => v)) } : Record)
    rw [record_fields_closed cols f ic.1 hndc])]
  rw [show List.enumFrom 0 (cartesianProduct vss) = (cartesianProduct vss).enum
    from rfl]

theorem params_lookup_fold (ks : List String) :
    ∀ vs : List Value, ks.Nodup → vs.length = ks.length →
    ∀ ap : List (String × List Value),
    ks.foldl (fun acc n =>
      addParamValue acc n (((ks.zip vs).lookup n).getD Value.null)) ap =
    (ks.zip vs).foldl (fun acc q => addParamValue acc q.1 q.2) ap := by
  induction ks with
  | nil => intro vs _ _ ap; rfl
  | cons k ks ih =>
      intro vs hnd hl ap
      cases vs with
      | nil => simp at hl
      | cons v vs =>
          simp only [List.zip_cons_cons, List.foldl_cons]
          have hk : ((((k, v) :: ks.zip vs).lookup k).getD Value.null) = v := by
            simp [List.lookup]
          rw [hk]
          have hfx : List.foldl (fun acc n =>
              addParamValue acc n ((((k, v) :: ks.zip vs).lookup n).getD Value.null))
              (addParamValue ap k v) ks =
            List.foldl (fun acc n =>
              addParamValue acc n (((ks.zip vs).lookup n).getD Value.null))
              (addParamValue ap k v) ks := by
            apply List.foldl_ext
            intro acc n hn
            have hne : n ≠ k := fun hh =>
              (List.nodup_cons.mp hnd).1 (hh ▸ hn)
            rw [show (((k, v) :: ks.zip vs).lookup n) = (ks.zip vs).lookup n from by
              simp [List.lookup, beq_eq_false_iff_ne.mpr hne]]
          rw [hfx]
          exact ih vs hnd.of_cons (by simpa using hl) _

theorem foldl_vec_entry (g : Record → Value) (l : List Record) :
    ∀ vs0 : List Value,
    l.foldl (fun acc r => match acc with
      | ColEntry.vec vs => ColEntry.vec (vs ++ [g r])
      | s => s) (ColEntry.vec vs0) = ColEntry.vec (vs0 ++ l.map g) := by
  induction l with
  | nil => intro vs0; simp
  | cons r rest ih =>
      intro vs0
      simp only [List.foldl_cons, List.map_cons]
      rw [ih (vs0 ++ [g r])]
      simp

theorem dictInsert_map_present {α : Type} (cols : List String) (E : String → α)
    (k : String) (v : α) (hnd : cols.Nodup) (hk : k ∈ cols) :
    dictInsert (cols.map (fun c => (c, E c))) k v =
      cols.map (fun c => (c, if c = k then v else E c)) := by
  induction cols with
  | nil => cases hk
  | cons c cs ih =>
      simp only [List.map_cons, dictInsert]
      by_cases hck : c = k
      · subst hck
        rw [if_pos rfl, if_pos rfl]
        have : ∀ x ∈ cs, ((x, if x = c then v else E x) : String × α) =
            (x, E x) := by
          intro x hx
          rw [if_neg (fun hh : x = c => (List.nodup_cons.mp hnd).1 (hh ▸ hx))]
        rw [List.map_congr_left this]
      · rw [if_neg hck, if_neg hck]
        rcases List.mem_cons.mp hk with rfl | hk2
        · exact absurd rfl hck
        · rw [ih hnd.of_cons hk2]

theorem getD_zero_cons_drop (ws : List Value) (h : ws ≠ []) :
    ws.getD 0 Value.null :: ws.drop 1 = ws := by
  cases ws with
  | nil => exact absurd rfl h
  | cons w ws => simp

theorem benchToAsv_roundtrip (cols pnames : List String)
    (vss : List (List Value)) (f : String → Value)
    (hndc : cols.Nodup) (hndp : pnames.Nodup)
    (hlen : vss.length = pnames.length)
    (hvss : ∀ l ∈ vss, l ≠ [] ∧ l.Nodup)
    (hpm : "params" ∈ cols)
    (hfp : f "params" = Value.list (vss.map Value.list))
    (hscal : ∀ c ∈ cols, c ∈ SCALAR_COLUMNS → ∀ ws, f c ≠ Value.list ws)
    (hvecc : ∀ c ∈ cols, c ≠ "params" → c ∉ SCALAR_COLUMNS →
      ∃ ws, f c = Value.list ws ∧ ws.length = (cartesianProduct vss).length) :
    benchToAsv cols pnames
      ((cartesianProduct vss).enum.map (fun ic =>
        (⟨pnames.zip ic.2,
          (cols.filter (fun c => decide (c ≠ "params"))).map
            (fun c2 => (c2, match f c2 with
              | Value.list ws => ws.getD ic.1 Value.null
              | v => v))⟩ : Record))) = .ok (cols.map f) := by
  have hCP : cartesianProduct vss ≠ [] :=
    cartesianProduct_ne_nil vss (fun l hl => (hvss l hl).1)
  have hflook : ∀ (i : Nat) (c : String), c ∈ cols → c ≠ "params" →
      ((cols.filter (fun c => decide (c ≠ "params"))).map
        (fun c2 => (c2, match f c2 with
          | Value.list ws => ws.getD i Value.null
          | v => v))).lookup c =
      some (match f c with
        | Value.list ws => ws.getD i Value.null
        | v => v) := by
    intro i c hc hcp
    exact lookup_map_self _ _ (hndc.filter _) c
      (by simp [List.mem_filter, hc, hcp])
  rcases hcp0 : cartesianProduct vss with _ | ⟨c0, cc⟩
  · exact absurd hcp0 hCP
  · have hmemCP : ∀ combo ∈ c0 :: cc, combo.length = pnames.length := by
      intro combo hcm
      rw [(mem_cartesianProduct (show combo ∈ cartesianProduct vss by
        rw [hcp0]; exact hcm)).length_eq]
      exact hlen
    have hcompl : ∀ r ∈ (⟨pnames.zip c0,
        (cols.filter (fun c => decide (c ≠ "params"))).map
          (fun c2 => (c2, match f c2 with
            | Value.list ws => ws.getD 0 Value.null
            | v => v))⟩ : Record) ::
        (List.enumFrom 1 cc).map (fun ic =>
          (⟨pnames.zip ic.2,
            (cols.filter (fun c => decide (c ≠ "params"))).map
              (fun c2 => (c2, match f c2 with
                | Value.list ws => ws.getD ic.1 Value.null
                | v => v))⟩ : Record)),
        ∀ c ∈ cols, c ≠ "params" → c ∉ SCALAR_COLUMNS →
        (r.fields.lookup c).isSome := by
      intro r hr c hc hcp _
      rcases List.mem_cons.mp hr with rfl | hr2
      · show ((((cols.filter (fun c => decide (c ≠ "params"))).map
          (fun c2 => (c2, match f c2 with
            | Value.list ws => ws.getD 0 Value.null
            | v => v)))).lookup c).isSome
        rw [hflook 0 c hc hcp]
        rfl
      · rcases List.mem_map.mp hr2 with ⟨ic, _, rfl⟩
        show ((((cols.filter (fun c => decide (c ≠ "params"))).map
          (fun c2 => (c2, match f c2 with
            | Value.list ws => ws.getD ic.1 Value.null
            | v => v)))).lookup c).isSome
        rw [hflook ic.1 c hc hcp]
        rfl
    have hpar : ∀ r ∈ (⟨pnames.zip c0,
        (cols.filter (fun c => decide (c ≠ "params"))).map
          (fun c2 => (c2, match f c2 with
            | Value.list ws => ws.getD 0 Value.null
            | v => v))⟩ : Record) ::
        (List.enumFrom 1 cc).map (fun ic =>
          (⟨pnames.zip ic.2,
            (cols.filter (fun c => decide (c ≠ "params"))).map
              (fun c2 => (c2, match f c2 with
                | Value.list ws => ws.getD ic.1 Value.null
                | v => v))⟩ : Record)),
        ∀ n ∈ pnames, (r.params.lookup n).isSome := by
      intro r hr n hn
      have hzip : ∀ combo ∈ c0 :: cc,
          (((pnames.zip combo).lookup n)).isSome = true := by
        intro combo hcm
        obtain ⟨v, hv⟩ := lookup_isSome_of_mem_keys (pnames.zip combo) n
          (by rw [map_fst_zip_eq pnames combo (hmemCP combo hcm)]; exact hn)
        rw [hv]
        rfl
      rcases List.mem_cons.mp hr with rfl | hr2
      · exact hzip c0 (by simp)
      · rcases List.mem_map.mp hr2 with ⟨ic, hic, rfl⟩
        exact hzip ic.2 (List.mem_cons_of_mem c0
          (mem_of_mem_enumFrom cc 1 ic hic))
    have hscan := benchScan_closed cols pnames hndc _ _ hcompl hpar
    have hAP : ((⟨pnames.zip c0,
        (cols.filter (fun c => decide (c ≠ "params"))).map
          (fun c2 => (c2, match f c2 with
            | Value.list ws => ws.getD 0 Value.null
            | v => v))⟩ : Record) ::
        (List.enumFrom 1 cc).map (fun ic =>
          (⟨pnames.zip ic.2,
            (cols.filter (fun c => decide (c ≠ "params"))).map
              (fun c2 => (c2, match f c2 with
                | Value.list ws => ws.getD ic.1 Value.null
                | v => v))⟩ : Record))).foldl
        (fun ap r => pnames.foldl (fun acc n =>
          addParamValue acc n ((r.params.lookup n).getD Value.null)) ap) [] =
        pnames.zip vss := by
      show ((List.enumFrom 0 (c0 :: cc)).map (fun ic =>
        (⟨pnames.zip ic.2,
          (cols.filter (fun c => decide (c ≠ "params"))).map
            (fun c2 => (c2, match f c2 with
              | Value.list ws => ws.getD ic.1 Value.null
              | v => v))⟩ : Record))).foldl
        (fun ap r => pnames.foldl (fun acc n =>
          addParamValue acc n ((r.params.lookup n).getD Value.null)) ap) [] = _
      rw [List.foldl_map]
      have hfx := List.foldl_ext
        (fun (x : List (String × List Value)) (y : Nat × List Value) =>
          (fun ap (r : Record) => pnames.foldl (fun acc n =>
            addParamValue acc n ((r.params.lookup n).getD Value.null)) ap) x
          ((fun ic =>
            (⟨pnames.zip ic.2,
              (cols.filter (fun c => decide (c ≠ "params"))).map
                (fun c2 => (c2, match f c2 with
                  | Value.list ws => ws.getD ic.1 Value.null
                  | v => v))⟩ : Record)) y))
        (fun ap (ic : Nat × List Value) => (pnames.zip ic.2).foldl
          (fun acc q => addParamValue acc q.1 q.2) ap)
        ([] : List (String × List Value))
        (l := List.enumFrom 0 (c0 :: cc))
        (fun a b hb => by
          have hic2 : b.2 ∈ c0 :: cc := mem_of_mem_enumFrom (c0 :: cc) 0 b hb
          exact params_lookup_fold pnames b.2 hndp (hmemCP b.2 hic2) a)
      rw [hfx]
      rw [enumFrom_foldl_params pnames (c0 :: cc) 0 []]
      rw [← hcp0]
      exact cartesian_fold_params vss pnames hndp hlen hvss
    have hmapv : (pnames.zip vss).map (fun p => Value.list p.2) =
        vss.map Value.list := by
      rw [show (pnames.zip vss).map (fun p => Value.list p.2) =
        ((pnames.zip vss).map (fun q => q.2)).map Value.list from by
          rw [List.map_map]
          rfl]
      rw [map_snd_zip_eq pnames vss hlen]
    have hmatchscal : ∀ c ∈ cols, c ∈ SCALAR_COLUMNS → ∀ i : Nat,
        (match f c with
         | Value.list ws => ws.getD i Value.null
         | v => v) = f c := by
      intro c hc hcs i
      rcases hfc : f c with _ | b | n | s | ws
      · rfl
      · rfl
      · rfl
      · rfl
      · exact absurd hfc (hscal c hc hcs ws)
    have hemit : emitColumns
        (cols.map (fun c => (c,
          ((List.enumFrom 1 cc).map (fun ic =>
            (⟨pnames.zip ic.2,
              (cols.filter (fun c => decide (c ≠ "params"))).map
                (fun c2 => (c2, match f c2 with
                  | Value.list ws => ws.getD ic.1 Value.null
                  | v => v))⟩ : Record))).foldl
            (fun acc r =>
              if c = "params" then
                match acc with
                | ColEntry.vec vs =>
                    ColEntry.vec (vs ++ [paramsAsValue r.params])
                | s => s
              else if c ∈ SCALAR_COLUMNS then
                ColEntry.scalar ((r.fields.lookup c).getD Value.null)
              else match acc with
                | ColEntry.vec vs =>
                    ColEntry.vec (vs ++ [(r.fields.lookup c).getD Value.null])
                | s => s)
            (if c = "params" then
              ColEntry.vec [paramsAsValue (pnames.zip c0)]
             else if c ∈ SCALAR_COLUMNS then
               ColEntry.scalar ((((cols.filter
                  (fun c => decide (c ≠ "params"))).map
                  (fun c2 => (c2, match f c2 with
                    | Value.list ws => ws.getD 0 Value.null
                    | v => v))).lookup c).getD Value.null)
             else ColEntry.vec [(((cols.filter
                  (fun c => decide (c ≠ "params"))).map
                  (fun c2 => (c2, match f c2 with
                    | Value.list ws => ws.getD 0 Value.null
                    | v => v))).lookup c).getD Value.null]))))
        (if "params" ∈ cols then
          ((⟨pnames.zip c0,
            (cols.filter (fun c => decide (c ≠ "params"))).map
              (fun c2 => (c2, match f c2 with
                | Value.list ws => ws.getD 0 Value.null
                | v => v))⟩ : Record) ::
            (List.enumFrom 1 cc).map (fun ic =>
              (⟨pnames.zip ic.2,
                (cols.filter (fun c => decide (c ≠ "params"))).map
                  (fun c2 => (c2, match f c2 with
                    | Value.list ws => ws.getD ic.1 Value.null
                    | v => v))⟩ : Record))).foldl
            (fun ap r => pnames.foldl (fun acc n =>
              addParamValue acc n ((r.params.lookup n).getD Value.null)) ap) []
         else []) = cols.map f := by
      rw [if_pos hpm, hAP]
      simp only [emitColumns]
      rw [hmapv]
      rw [dictInsert_map_present cols _ "params"
        (ColEntry.scalar (Value.list (vss.map Value.list))) hndc hpm]
      rw [List.map_map]
      refine List.map_congr_left ?_
      intro c hc
      show (match (if c = "params" then
          ColEntry.scalar (Value.list (vss.map Value.list))
        else ((List.enumFrom 1 cc).map (fun ic =>
            (⟨pnames.zip ic.2,
              (cols.filter (fun c => decide (c ≠ "params"))).map
                (fun c2 => (c2, match f c2 with
                  | Value.list ws => ws.getD ic.1 Value.null
                  | v => v))⟩ : Record))).foldl
          (fun acc r =>
            if c = "params" then
              match acc with
              | ColEntry.vec vs =>
                  ColEntry.vec (vs ++ [paramsAsValue r.params])
              | s => s
            else if c ∈ SCALAR_COLUMNS then
              ColEntry.scalar ((r.fields.lookup c).getD Value.null)
            else match acc with
              | ColEntry.vec vs =>
                  ColEntry.vec (vs ++ [(r.fields.lookup c).getD Value.null])
              | s => s)
          (if c = "params" then
            ColEntry.vec [paramsAsValue (pnames.zip c0)]
           else if c ∈ SCALAR_COLUMNS then
             ColEntry.scalar ((((cols.filter
                (fun c => decide (c ≠ "params"))).map
                (fun c2 => (c2, match f c2 with
                  | Value.list ws => ws.getD 0 Value.null
                  | v => v))).lookup c).getD Value.null)
           else ColEntry.vec [(((cols.filter
                (fun c => decide (c ≠ "params"))).map
                (fun c2 => (c2, match f c2 with
                  | Value.list ws => ws.getD 0 Value.null
                  | v => v))).lookup c).getD Value.null])) with
        | ColEntry.scalar v => v
        | ColEntry.vec vs => Value.list vs) = f c
      by_cases hc1 : c = "params"
      · subst hc1
        rw [if_pos rfl]
        exact hfp.symm
      · rw [if_neg hc1]
        by_cases hc2 : c ∈ SCALAR_COLUMNS
        · have hinit : (if c = "params" then
              ColEntry.vec [paramsAsValue (pnames.zip c0)]
            else if c ∈ SCALAR_COLUMNS then
              ColEntry.scalar ((((cols.filter
                 (fun c => decide (c ≠ "params"))).map
                 (fun c2 => (c2, match f c2 with
                   | Value.list ws => ws.getD 0 Value.null
                   | v => v))).lookup c).getD Value.null)
            else ColEntry.vec [(((cols.filter
                 (fun c => decide (c ≠ "params"))).map
                 (fun c2 => (c2, match f c2 with
                   | Value.list ws => ws.getD 0 Value.null
                   | v => v))).lookup c).getD Value.null]) =
              ColEntry.scalar (f c) := by
            rw [if_neg hc1, if_pos hc2, hflook 0 c hc hc1, Option.getD_some,
              hmatchscal c hc hc2 0]
          rw [hinit]
          have hfold : ((List.enumFrom 1 cc).map (fun ic =>
              (⟨pnames.zip ic.2,
                (cols.filter (fun c => decide (c ≠ "params"))).map
                  (fun c2 => (c2, match f c2 with
                    | Value.list ws => ws.getD ic.1 Value.null
                    | v => v))⟩ : Record))).foldl
              (fun acc r =>
                if c = "params" then
                  match acc with
                  | ColEntry.vec vs =>
                      ColEntry.vec (vs ++ [paramsAsValue r.params])
                  | s => s
                else if c ∈ SCALAR_COLUMNS then
                  ColEntry.scalar ((r.fields.lookup c).getD Value.null)
                else match acc with
                  | ColEntry.vec vs =>
                      ColEntry.vec (vs ++ [(r.fields.lookup c).getD Value.null])
                  | s => s)
              (ColEntry.scalar (f c)) = ColEntry.scalar (f c) := by
            apply foldl_fixed_point
            intro r hr
            rcases List.mem_map.mp hr with ⟨ic, _, rfl⟩
            show (if c = "params" then
                match ColEntry.scalar (f c) with
                | ColEntry.vec vs =>
                    ColEntry.vec (vs ++ [paramsAsValue (pnames.zip ic.2)])
                | s => s
              else if c ∈ SCALAR_COLUMNS then
                ColEntry.scalar ((((cols.filter
                   (fun c => decide (c ≠ "params"))).map
                   (fun c2 => (c2, match f c2 with
                     | Value.list ws => ws.getD ic.1 Value.null
                     | v => v))).lookup c).getD Value.null)
              else match ColEntry.scalar (f c) with
                | ColEntry.vec vs =>
                    ColEntry.vec (vs ++ [(((cols.filter
                      (fun c => decide (c ≠ "params"))).map
                      (fun c2 => (c2, match f c2 with
                        | Value.list ws => ws.getD ic.1 Value.null
                        | v => v))).lookup c).getD Value.null])
                | s => s) = ColEntry.scalar (f c)
            rw [if_neg hc1, if_pos hc2, hflook ic.1 c hc hc1, Option.getD_some,
              hmatchscal c hc hc2 ic.1]
          rw [hfold]
        · obtain ⟨ws, hfc, hwlen⟩ := hvecc c hc hc1 hc2
          rw [hcp0] at hwlen
          have hwne : ws ≠ [] := by
            intro hh
            rw [hh] at hwlen
            simp at hwlen
          have hlookup_i : ∀ i : Nat, ((((cols.filter
              (fun c => decide (c ≠ "params"))).map
              (fun c2 => (c2, match f c2 with
                | Value.list ws => ws.getD i Value.null
                | v => v))).lookup c).getD Value.null) =
              ws.getD i Value.null := by
            intro i
            rw [hflook i c hc hc1, Option.getD_some]
            simp only [hfc]
          have hinit : (if c = "params" then
              ColEntry.vec [paramsAsValue (pnames.zip c0)]
            else if c ∈ SCALAR_COLUMNS then
              ColEntry.scalar ((((cols.filter
                 (fun c => decide (c ≠ "params"))).map
                 (fun c2 => (c2, match f c2 with
                   | Value.list ws => ws.getD 0 Value.null
                   | v => v))).lookup c).getD Value.null)
            else ColEntry.vec [(((cols.filter
                 (fun c => decide (c ≠ "params"))).map
                 (fun c2 => (c2, match f c2 with
                   | Value.list ws => ws.getD 0 Value.null
                   | v => v))).lookup c).getD Value.null]) =
              ColEntry.vec [ws.getD 0 Value.null] := by
            rw [if_neg hc1, if_neg hc2, hlookup_i 0]
          rw [hinit]
          have hstepx := List.foldl_ext
            (fun acc (r : Record) =>
              if c = "params" then
                match acc with
                | ColEntry.vec vs =>
                    ColEntry.vec (vs ++ [paramsAsValue r.params])
                | s => s
              else if c ∈ SCALAR_COLUMNS then
                ColEntry.scalar ((r.fields.lookup c).getD Value.null)
              else match acc with
                | ColEntry.vec vs =>
                    ColEntry.vec (vs ++ [(r.fields.lookup c).getD Value.null])
                | s => s)
            (fun acc (r : Record) =>
              match acc with
              | ColEntry.vec vs =>
                  ColEntry.vec (vs ++ [(r.fields.lookup c).getD Value.null])
              | s => s)
            (ColEntry.vec [ws.getD 0 Value.null])
            (l := (List.enumFrom 1 cc).map (fun ic =>
              (⟨pnames.zip ic.2,
                (cols.filter (fun c => decide (c ≠ "params"))).map
                  (fun c2 => (c2, match f c2 with
                    | Value.list ws => ws.getD ic.1 Value.null
                    | v => v))⟩ : Record)))
            (fun acc r _ => by
              show (if c = "params" then
                  match acc with
                  | ColEntry.vec vs =>
                      ColEntry.vec (vs ++ [paramsAsValue r.params])
                  | s => s
                else if c ∈ SCALAR_COLUMNS then
                  ColEntry.scalar ((r.fields.lookup c).getD Value.null)
                else match acc with
                  | ColEntry.vec vs =>
                      ColEntry.vec (vs ++ [(r.fields.lookup c).getD Value.null])
                  | s => s) =
                (match acc with
                 | ColEntry.vec vs =>
                     ColEntry.vec (vs ++ [(r.fields.lookup c).getD Value.null])
                 | s => s)
              rw [if_neg hc1, if_neg hc2])
          rw [hstepx]
          rw [foldl_vec_entry (fun r => (r.fields.lookup c).getD Value.null)
            _ [ws.getD 0 Value.null]]
          have hmapg : ((List.enumFrom 1 cc).map (fun ic =>
              (⟨pnames.zip ic.2,
                (cols.filter (fun c => decide (c ≠ "params"))).map
                  (fun c2 => (c2, match f c2 with
                    | Value.list ws => ws.getD ic.1 Value.null
                    | v => v))⟩ : Record))).map
              (fun r => (r.fields.lookup c).getD Value.null) =
              ws.drop 1 := by
            rw [List.map_map]
            have h1 : ((List.enumFrom 1 cc).map (fun ic =>
                ws.getD ic.1 Value.null)) = ws.drop 1 :=
              enum_map_getD ws cc 1 (by
                rw [hwlen]
                simp [Nat.add_comm])
            rw [← h1]
            exact List.map_congr_left (fun ic _ => hlookup_i ic.1)
          rw [hmapg]
          show Value.list ([ws.getD 0 Value.null] ++ ws.drop 1) = f c
          rw [List.singleton_append, getD_zero_cons_drop ws hwne, hfc]
    show (do
      let st ← benchScan cols pnames
        ((⟨pnames.zip c0,
          (cols.filter (fun c => decide (c ≠ "params"))).map
            (fun c2 => (c2, match f c2 with
              | Value.list ws => ws.getD 0 Value.null
              | v => v))⟩ : Record) ::
          (List.enumFrom 1 cc).map (fun ic =>
            (⟨pnames.zip ic.2,
              (cols.filter (fun c => decide (c ≠ "params"))).map
                (fun c2 => (c2, match f c2 with
                  | Value.list ws => ws.getD ic.1 Value.null
                  | v => v))⟩ : Record)))
      pure (emitColumns st.1 st.2)) =
      (Except.ok (cols.map f) : Except PyError (List Value))
    rw [hscan]
    exact congrArg Except.ok hemit

theorem lookup_append_some {κ α : Type} [BEq κ] (d d' : List (κ × α))
    (k : κ) (v : α) (h : d.lookup k = some v) :
    (d ++ d').lookup k = some v := by
  induction d with
  | nil => simp [List.lookup] at h
  | cons p rest ih =>
      obtain ⟨k0, v0⟩ := p
      simp only [List.lookup] at h
      simp only [List.cons_append, List.lookup]
      cases hb : k == k0 with
      | true => rw [hb] at h; exact h
      | false => rw [hb] at h; exact ih h

theorem lookup_append_none {κ α : Type} [BEq κ] (d d' : List (κ × α))
    (k : κ) (h : d.lookup k = none) :
    (d ++ d').lookup k = d'.lookup k := by
  induction d with
  | nil => rfl
  | cons p rest ih =>
      obtain ⟨k0, v0⟩ := p
      simp only [List.lookup] at h
      simp only [List.cons_append, List.lookup]
      cases hb : k == k0 with
      | true => rw [hb] at h; cases h
      | false => rw [hb] at h; exact ih h

theorem to_octobus_fold (catalog : List (String × List String))
    (cols : List String) (hndc : cols.Nodup) (hpm : "params" ∈ cols) :
    ∀ (res : List (String × List Value)) (bpn : List (String × List String))
      (octo : List (String × List Record)),
    (res.map Prod.fst).Nodup →
    (∀ e ∈ res, e.1 ∉ bpn.map Prod.fst ∧ e.1 ∉ octo.map Prod.fst) →
    (∀ e ∈ res, ∃ (pnames : List String) (vss : List (List Value))
        (f : String → Value),
      catalog.lookup e.1 = some pnames ∧ e.2 = cols.map f ∧
      pnames.Nodup ∧ vss.length = pnames.length ∧
      (∀ l ∈ vss, l ≠ [] ∧ l.Nodup) ∧
      f "params" = Value.list (vss.map Value.list) ∧
      (∀ c ∈ cols, c ∈ SCALAR_COLUMNS → ∀ ws, f c ≠ Value.list ws) ∧
      (∀ c ∈ cols, c ≠ "params" → c ∉ SCALAR_COLUMNS →
        ∃ ws, f c = Value.list ws ∧
          ws.length = (cartesianProduct vss).length)) →
    ∃ (st : List (String × List String) × List (String × List Record))
      (L : List (String × List Record)),
    res.foldlM (toOctobusStep catalog cols) (bpn, octo) = .ok st ∧
    st.2 = octo ++ L ∧
    (∀ k v, bpn.lookup k = some v → st.1.lookup k = some v) ∧
    List.Forall₂ (fun (e : String × List Value) (o : String × List Record) =>
      o.1 = e.1 ∧ ∃ pn, st.1.lookup e.1 = some pn ∧
        benchToAsv cols pn o.2 = .ok e.2) res L := by
  intro res
  induction res with
  | nil =>
      intro bpn octo _ _ _
      exact ⟨(bpn, octo), [], rfl, by simp, fun k v hv => hv, List.Forall₂.nil⟩
  | cons e rest ih =>
      intro bpn octo hnd hfresh hdata
      obtain ⟨e1, e2⟩ := e
      obtain ⟨pnames, vss, f, hcat, he2, hndp, hlenp, hvssp, hfpp, hscalp,
        hveccp⟩ := hdata (e1, e2) (by simp)
      simp only at he2
      subst he2
      have hf1 : e1 ∉ bpn.map Prod.fst := (hfresh (e1, cols.map f) (by simp)).1
      have hf2 : e1 ∉ octo.map Prod.fst := (hfresh (e1, cols.map f) (by simp)).2
      have hstep := toOctobusStep_closed catalog cols bpn octo e1 pnames vss f
        hcat hndc hndp hlenp hfpp hpm
      rw [dictInsert_of_not_mem bpn e1 pnames hf1,
        dictExtend_of_not_mem octo e1 _ hf2] at hstep
      have hnd0 : (e1 :: rest.map Prod.fst).Nodup := hnd
      have hnd1 : e1 ∉ rest.map Prod.fst := (List.nodup_cons.mp hnd0).1
      obtain ⟨st, L, hfold, hst2, hpres, hforall⟩ :=
        ih (bpn ++ [(e1, pnames)]) (octo ++ [(e1,
          (cartesianProduct vss).enum.map (fun ic =>
            (⟨pnames.zip ic.2,
              (cols.filter (fun c => decide (c ≠ "params"))).map
                (fun c2 => (c2, match f c2 with
                  | Value.list ws => ws.getD ic.1 Value.null
                  | v => v))⟩ : Record)))])
          hnd0.of_cons
          (by
            intro e' he'
            have h1 := (hfresh e' (by simp [he'])).1
            have h2 := (hfresh e' (by simp [he'])).2
            have hne : e'.1 ≠ e1 := by
              intro hh
              exact hnd1 (hh ▸ List.mem_map_of_mem Prod.fst he')
            constructor
            · simp only [List.map_append, List.mem_append, not_or,
                List.map_cons, List.map_nil, List.mem_singleton]
              exact ⟨h1, hne⟩
            · simp only [List.map_append, List.mem_append, not_or,
                List.map_cons, List.map_nil, List.mem_singleton]
              exact ⟨h2, hne⟩)
          (fun e' he' => hdata e' (by simp [he']))
      refine ⟨st, (e1, (cartesianProduct vss).enum.map (fun ic =>
        (⟨pnames.zip ic.2,
          (cols.filter (fun c => decide (c ≠ "params"))).map
            (fun c2 => (c2, match f c2 with
              | Value.list ws => ws.getD ic.1 Value.null
              | v => v))⟩ : Record))) :: L, ?_, ?_, ?_, ?_⟩
      · show (do
          let st1 ← toOctobusStep catalog cols (bpn, octo) (e1, cols.map f)
          rest.foldlM (toOctobusStep catalog cols) st1) = .ok st
        rw [hstep]
        show rest.foldlM (toOctobusStep catalog cols)
          (bpn ++ [(e1, pnames)], octo ++ [(e1,
            (cartesianProduct vss).enum.map (fun ic =>
              (⟨pnames.zip ic.2,
                (cols.filter (fun c => decide (c ≠ "params"))).map
                  (fun c2 => (c2, match f c2 with
                    | Value.list ws => ws.getD ic.1 Value.null
                    | v => v))⟩ : Record)))]) = .ok st
        exact hfold
      · rw [hst2]
        simp [List.append_assoc]
      · intro k v hv
        exact hpres k v (lookup_append_some bpn _ k v hv)
      · refine List.Forall₂.cons ⟨rfl, pnames, ?_, ?_⟩ hforall
        · refine hpres e1 pnames ?_
          rw [lookup_append_none bpn _ e1
            (lookup_eq_none_of_not_mem_keys bpn e1 hf1)]
          simp [List.lookup]
        · exact benchToAsv_roundtrip cols pnames vss f hndc hndp hlenp hvssp
            hpm hfpp hscalp hveccp

theorem exceptOk_bind {ε α β : Type} (a : α) (g : α → Except ε β) :
    (Except.ok a : Except ε α) >>= g = g a := rfl

theorem mapM_bench_loop (bpnmap : List (String × List String))
    (cols : List String) (res : List (String × List Value))
    (L : List (String × List Record))
    (hF : List.Forall₂ (fun (e : String × List Value)
        (o : String × List Record) =>
      o.1 = e.1 ∧ ∃ pn, bpnmap.lookup e.1 = some pn ∧
        benchToAsv cols pn o.2 = .ok e.2) res L) :
    ∀ acc : List (String × List Value),
    List.mapM.loop (fun entry => do
      let pnames ← match bpnmap.lookup entry.1 with
        | none => throw (PyError.keyError : PyError)
        | some p => pure p
      let line ← benchToAsv cols pnames entry.2
      pure (entry.1, line)) L acc =
    .ok (acc.reverse ++ res) := by
  induction hF with
  | nil =>
      intro acc
      simp only [List.mapM.loop, List.append_nil]
      rfl
  | @cons e o res2 L2 h1 h2 ihm =>
      intro acc
      obtain ⟨ho1, pn, hlk, hbta⟩ := h1
      have hFo : (do
          let pnames ← match bpnmap.lookup o.1 with
            | none => throw (PyError.keyError : PyError)
            | some p => pure p
          let line ← benchToAsv cols pnames o.2
          pure (o.1, line)) =
          (Except.ok (e.1, e.2) : Except PyError (String × List Value)) := by
        rw [ho1, hlk]
        simp only [pure_bind]
        rw [hbta]
        rfl
      simp only [List.mapM.loop]
      rw [hFo, exceptOk_bind]
      rw [ihm ((e.1, e.2) :: acc)]
      simp

theorem mapM_bench (bpnmap : List (String × List String))
    (cols : List String) (res : List (String × List Value))
    (L : List (String × List Record))
    (hF : List.Forall₂ (fun (e : String × List Value)
        (o : String × List Record) =>
      o.1 = e.1 ∧ ∃ pn, bpnmap.lookup e.1 = some pn ∧
        benchToAsv cols pn o.2 = .ok e.2) res L) :
    L.mapM (fun entry => do
      let pnames ← match bpnmap.lookup entry.1 with
        | none => throw (PyError.keyError : PyError)
        | some p => pure p
      let line ← benchToAsv cols pnames entry.2
      pure (entry.1, line)) = .ok res := by
  show List.mapM.loop _ L [] = _
  rw [mapM_bench_loop bpnmap cols res L hF []]
  rfl

/-- C2: for every column-form state whose per-benchmark lines were produced
by a full cartesian expansion over the declared parameter dimensions — the
`params` column holds the per-dimension value lists (nonempty, duplicate-free),
every scalar column holds a non-list value, and every vector column holds a
list whose length equals the cartesian-product size — converting to object
form (`to_octobus_results`) and back to column form
(`octobus_results_to_asv_results`) restores the original `results` map, the
`result_columns` list and the migration marker, for scalar and vector fields
alike. -/
theorem octobus_roundtrip (catalog : List (String × List String)) (x : MigState)
    (res : List (String × List Value))
    (hres : x.results = some res) (hne : res ≠ [])
    (hnd : (res.map Prod.fst).Nodup)
    (hndc : x.result_columns.Nodup)
    (hpm : "params" ∈ x.result_columns)
    (hdata : ∀ e ∈ res, ∃ (pnames : List String) (vss : List (List Value))
        (f : String → Value),
      catalog.lookup e.1 = some pnames ∧ e.2 = x.result_columns.map f ∧
      pnames.Nodup ∧ vss.length = pnames.length ∧
      (∀ l ∈ vss, l ≠ [] ∧ l.Nodup) ∧
      f "params" = Value.list (vss.map Value.list) ∧
      (∀ c ∈ x.result_columns, c ∈ SCALAR_COLUMNS →
        ∀ ws, f c ≠ Value.list ws) ∧
      (∀ c ∈ x.result_columns, c ≠ "params" → c ∉ SCALAR_COLUMNS →
        ∃ ws, f c = Value.list ws ∧
          ws.length = (cartesianProduct vss).length)) :
    ∃ y, to_octobus_results catalog x = .ok y ∧
      ∃ z, octobus_results_to_asv_results y = .ok z ∧
        z.results = some res ∧ z.result_columns = x.result_columns ∧
        z.migration_marker = x.migration_marker := by
  obtain ⟨st, L, hfold, hst2, hpres, hforall⟩ :=
    to_octobus_fold catalog x.result_columns hndc hpm res [] [] hnd
      (by simp) hdata
  simp only [List.nil_append] at hst2
  have hLne : L ≠ [] := by
    intro hh
    rw [hh] at hforall
    cases hforall
    exact hne rfl
  have hE : L.isEmpty = false := by
    cases L with
    | nil => exact absurd rfl hLne
    | cons a l => rfl
  refine ⟨{ x with bench_param_names := st.1, octobus_results := st.2 },
    ?_, ?_⟩
  · simp only [to_octobus_results]
    rw [hres]
    show (do
      let st2 ← res.foldlM (toOctobusStep catalog x.result_columns) ([], [])
      pure (⟨some res, x.result_columns, st2.2, st2.1, x.migration_marker⟩
        : MigState)) = _
    rw [hfold, exceptOk_bind]
    rfl
  · refine ⟨(⟨some res, x.result_columns, L, st.1, x.migration_marker⟩ :
      MigState), ?_, rfl, rfl, rfl⟩
    simp only [octobus_results_to_asv_results]
    rw [hst2, hE]
    rw [if_neg Bool.false_ne_true]
    rw [mapM_bench st.1 x.result_columns res L hforall, exceptOk_bind]
    rfl

theorem octobus_roundtrip_witness :
    ∃ y, to_octobus_results [("bench", ["p"])]
        (⟨some [("bench", [Value.list [Value.int 10, Value.int 20],
            Value.list [Value.list [Value.int 1, Value.int 2]],
            Value.str "v1"])],
          ["result", "params", "version"], [], [],
          some "0001_initial"⟩ : MigState) = .ok y ∧
      ∃ z, octobus_results_to_asv_results y = .ok z ∧
        z.results = some [("bench", [Value.list [Value.int 10, Value.int 20],
          Value.list [Value.list [Value.int 1, Value.int 2]],
          Value.str "v1"])] ∧
        z.result_columns = ["result", "params", "version"] ∧
        z.migration_marker = some "0001_initial" := by
  exact octobus_roundtrip [("bench", ["p"])] _ _ rfl
    (List.cons_ne_nil _ _) (by decide) (by decide) (by decide)
    (by
      intro e he
      rw [List.mem_singleton] at he
      subst he
      refine ⟨["p"], [[Value.int 1, Value.int 2]],
        (fun c => if c = "result" then Value.list [Value.int 10, Value.int 20]
          else if c = "params" then
            Value.list [Value.list [Value.int 1, Value.int 2]]
          else Value.str "v1"),
        rfl, rfl, by decide, rfl, by decide, rfl, ?_, ?_⟩
      · intro c hc hcs ws hws
        rcases (by simpa using hc : c = "result" ∨ c = "params" ∨
            c = "version") with rfl | rfl | rfl
        · exact absurd hcs (by decide)
        · exact absurd hcs (by decide)
        · simp at hws
      · intro c hc hcp hcs
        rcases (by simpa using hc : c = "result" ∨ c = "params" ∨
            c = "version") with rfl | rfl | rfl
        · exact ⟨[Value.int 10, Value.int 20], rfl, rfl⟩
        · exact absurd rfl hcp
        · exact absurd (by decide : ("version" : String) ∈ SCALAR_COLUMNS) hcs)
